import Mathlib

/-!
# libfs: identifier codec and shard-path derivation

A shallow embedding of `fs_utils.go` and of the path accessors of `fs.go`.

* A Go `string` is a sequence of bytes; it is embedded as `List Char`, one
  `Char` per byte.  Every literal of the source is ASCII.
* A Go call that returns `(T, error)` is embedded as `Except Failure T`.
  `Failure` lists the package's error values, the `*strconv.NumError` of
  `strconv.ParseUint`, the run-time panic of an out-of-range slice or index
  expression, the process exit of `log.Fatalf`, and the three `fmt.Errorf`
  errors of `fs_ext.go` (`... not exists`, `unsupported ...`, `unknown version ...`).
* `uint` and `uint64` values are natural numbers; `strconv.ParseUint` is the
  only place where the 64-bit bound is observable, and it checks the bound
  explicitly.
-/

namespace Libfs

/-- Go strings, byte by byte. -/
abbrev GoString := List Char

/-- The ways in which a call does not return a value. -/
inductive Failure where
  | errorInvalidFileID
  | errorUnknownFileID
  | errorHasInitialized
  | errorNeedInitialized
  | numErrSyntax
  | numErrRange
  | panicOutOfRange
  | fatalExit
  | notExists
  | unsupportedPath
  | unknownVersion
  deriving DecidableEq, Repr

instance instDecidableEqExcept {ε α : Type} [DecidableEq ε] [DecidableEq α] :
    DecidableEq (Except ε α)
  | .ok a, .ok b => if h : a = b then isTrue (by rw [h]) else isFalse (fun e => h (by injection e))
  | .error a, .error b =>
    if h : a = b then isTrue (by rw [h]) else isFalse (fun e => h (by injection e))
  | .ok _, .error _ => isFalse (fun e => by injection e)
  | .error _, .ok _ => isFalse (fun e => by injection e)

/-! ## Go library functions used by the source -/

/-- The slice expression `s[lo:hi]`; it panics unless `lo ≤ hi ≤ len(s)`. -/
def slice (s : GoString) (lo hi : Nat) : Except Failure GoString :=
  if lo ≤ hi ∧ hi ≤ s.length then .ok ((s.take hi).drop lo) else .error .panicOutOfRange

/-- The slice expression `s[lo:]`; it panics unless `lo ≤ len(s)`. -/
def sliceFrom (s : GoString) (lo : Nat) : Except Failure GoString :=
  if lo ≤ s.length then .ok (s.drop lo) else .error .panicOutOfRange

/-- The index expression `s[i]`; it panics unless `i < len(s)`. -/
def index (s : GoString) (i : Nat) : Except Failure Char :=
  match s.get? i with
  | some c => .ok c
  | none => .error .panicOutOfRange

/-- Go `strings.Trim(s, cutset)`: drops the leading and the trailing bytes of `s` that belong to
`cutset`. -/
def stringsTrim (s cutset : GoString) : GoString :=
  ((s.dropWhile (fun c => cutset.contains c)).reverse.dropWhile
    (fun c => cutset.contains c)).reverse

/-- Go `strings.Index(s, sub)`: the offset of the first occurrence of `sub` in `s`; `none` stands
for the result `-1`. -/
def stringsIndex : GoString → GoString → Option Nat
  | [], sub => if sub = [] then some 0 else none
  | c :: cs, sub =>
    if sub.isPrefixOf (c :: cs) then some 0 else (stringsIndex cs sub).map (· + 1)

/-- Go `strings.LastIndex(s, sub)`: the offset of the last occurrence of `sub` in `s`; `none`
stands for the result `-1`. -/
def stringsLastIndex : GoString → GoString → Option Nat
  | [], sub => if sub = [] then some 0 else none
  | c :: cs, sub =>
    match stringsLastIndex cs sub with
    | some i => some (i + 1)
    | none => if sub.isPrefixOf (c :: cs) then some 0 else none

/-- Go `strings.Split(s, sep)` for a one-byte separator. -/
def stringsSplit (sep : Char) : GoString → List GoString
  | [] => [[]]
  | c :: cs =>
    if c = sep then [] :: stringsSplit sep cs
    else
      match stringsSplit sep cs with
      | [] => [[c]]
      | h :: t => (c :: h) :: t

/-- Go `strings.SplitN(s, sep, n)` for a one-byte separator and `n ≥ 0`: at most `n` pieces, the
last one being the unsplit remainder. -/
def stringsSplitN (sep : Char) : Nat → GoString → List GoString
  | 0, _ => []
  | 1, s => [s]
  | _ + 2, [] => [[]]
  | n + 2, c :: cs =>
    if c = sep then [] :: stringsSplitN sep (n + 1) cs
    else
      match stringsSplitN sep (n + 2) cs with
      | [] => [[c]]
      | h :: t => (c :: h) :: t

/-- Go `strings.Join(elems, sep)`. -/
def stringsJoin : List GoString → GoString → GoString
  | [], _ => []
  | [a], _ => a
  | a :: b :: rest, sep => a ++ sep ++ stringsJoin (b :: rest) sep

/-- The largest `uint64`. -/
def maxUint64 : Nat := 18446744073709551615

/-- The loop of `strconv.ParseUint(s, 10, 64)`: a byte that is not a decimal digit is a syntax
error, a value that leaves the 64-bit range is a range error. -/
def parseUintLoop : GoString → Nat → Except Failure Nat
  | [], n => .ok n
  | c :: cs, n =>
    if '0' ≤ c ∧ c ≤ '9' then
      if n ≥ maxUint64 / 10 + 1 then .error .numErrRange
      else
        let n1 := n * 10 + (c.toNat - '0'.toNat)
        if n1 > maxUint64 then .error .numErrRange else parseUintLoop cs n1
    else .error .numErrSyntax

/-- Go `strconv.ParseUint(s, 10, 64)`. -/
def ParseUint (s : GoString) : Except Failure Nat :=
  if s = [] then .error .numErrSyntax else parseUintLoop s 0

/-- Go `strconv.ParseInt(s, 10, 64)`: an optional sign, then the digits; the magnitude is read
by the unsigned loop and checked against the signed range. -/
def ParseInt (s : GoString) : Except Failure Int :=
  match s with
  | [] => .error .numErrSyntax
  | c :: cs =>
    let neg := c = '-'
    let body := if c = '+' ∨ c = '-' then cs else c :: cs
    match ParseUint body with
    | .error e => .error e
    | .ok un =>
      if ¬ neg ∧ un ≥ 2 ^ 63 then .error .numErrRange
      else if neg ∧ un > 2 ^ 63 then .error .numErrRange
      else .ok (if neg then - (un : Int) else (un : Int))

/-- Go `fmt.Sprintf("%v", n)` for an unsigned integer: its decimal digits. -/
def formatUint (n : Nat) : GoString := Nat.toDigits 10 n

/-- One step of `path.Clean` on the path elements: empty elements and `.` are dropped, `..`
removes the element before it, is kept in front of a relative path and is dropped at the root;
the elements kept so far are held last first. -/
def cleanStep (rooted : Bool) (kept : List GoString) (e : GoString) : List GoString :=
  if e = [] ∨ e = ['.'] then kept
  else if e = ['.', '.'] then
    match kept with
    | [] => if rooted then [] else [e]
    | top :: below =>
      if top = ['.', '.'] then (if rooted then kept else e :: kept) else below
  else e :: kept

/-- Go `path.Clean` (and `filepath.Clean` with the separator `/`). -/
def pathClean (p : GoString) : GoString :=
  if p = [] then ['.']
  else
    let rooted := p.head? = some '/'
    let kept := (stringsSplit '/' p).foldl (cleanStep rooted) []
    let out := (if rooted then ['/'] else []) ++ stringsJoin kept.reverse ['/']
    if out = [] then ['.'] else out

/-- Go `path.Join` (and `filepath.Join` with the separator `/`): empty elements are ignored, the
others are joined by `/` and the result is cleaned; with no non-empty element the result is the
empty string. -/
def pathJoin (elem : List GoString) : GoString :=
  let used := elem.filter (fun e => e ≠ [])
  if used = [] then [] else pathClean (stringsJoin used ['/'])

/-! ## fs_utils.go -/

def FileIDV1 : Nat := 1

def FileIDV2 : Nat := 2

def FileIDVMAX : Nat := 2

def BuiltInFileName : GoString := ['.', 'n', 'o', 'n', 'e']

def BuildInDataName : GoString := ['_', 'd', 'a', 't', 'a', '_']

/-- The struct `fileInfo`. -/
structure fileInfo where
  fileIDVersion : Nat
  fileMD5 : GoString
  fileSize : Nat
  fileName : GoString
  rDataDir : GoString := []
  deriving DecidableEq, Repr

/-- The method `initFileInfos`: the first value is the returned error, if any. -/
def fileInfo.initFileInfos (fi : fileInfo) (fileMD5 : GoString) (fileSize : Nat) :
    Except Failure fileInfo :=
  if fi.fileMD5 ≠ [] then .error .errorHasInitialized
  else .ok { fi with fileMD5 := fileMD5, fileSize := fileSize }

/-- The eight slice expressions `fileMD5[0:4]`, ..., `fileMD5[28:32]`, evaluated in order. -/
def md5Segments (fileMD5 : GoString) : Except Failure (List GoString) := do
  let s0 ← slice fileMD5 0 4
  let s1 ← slice fileMD5 4 8
  let s2 ← slice fileMD5 8 12
  let s3 ← slice fileMD5 12 16
  let s4 ← slice fileMD5 16 20
  let s5 ← slice fileMD5 20 24
  let s6 ← slice fileMD5 24 28
  let s7 ← slice fileMD5 28 32
  return [s0, s1, s2, s3, s4, s5, s6, s7]

def fileInfo.getDataDirForVer (fi : fileInfo) (verID : Nat) : Except Failure GoString :=
  if fi.fileMD5 = [] then .error .errorNeedInitialized
  else if verID = FileIDV1 then do
    let segs ← md5Segments fi.fileMD5
    return pathJoin segs
  else if verID = FileIDV2 then do
    let segs ← md5Segments fi.fileMD5
    return pathJoin (formatUint fi.fileSize :: segs)
  else .error .errorUnknownFileID

/-- The method `getDataDir`; the cached directory `rDataDir` is returned when it is set (the
update of the cache is not part of the returned value). -/
def fileInfo.getDataDir (fi : fileInfo) : Except Failure GoString :=
  if fi.fileMD5 = [] then .error .errorNeedInitialized
  else if fi.rDataDir ≠ [] then .ok fi.rDataDir
  else fi.getDataDirForVer fi.fileIDVersion

def fileInfo.getDataFileForVer (fi : fileInfo) (verID : Nat) : Except Failure GoString :=
  if fi.fileMD5 = [] then .error .errorNeedInitialized
  else do
    let rDataDir ← fi.getDataDirForVer verID
    if verID = FileIDV1 then
      return pathJoin [rDataDir, formatUint fi.fileSize]
    else if verID = FileIDV2 then
      return pathJoin [rDataDir, BuildInDataName]
    else .error .errorInvalidFileID

def fileInfo.getDataFile (fi : fileInfo) : Except Failure GoString :=
  fi.getDataFileForVer fi.fileIDVersion

def fileInfo.getFileIDByVer (fi : fileInfo) (verID : Nat) : Except Failure GoString :=
  if fi.fileMD5 = [] then .error .errorNeedInitialized
  else if verID = FileIDV1 then do
    let fullDirName := fi.fileMD5 ++ ['-'] ++ formatUint fi.fileSize
    if fi.fileName ≠ [] then
      match stringsLastIndex fi.fileName ['.'] with
      | some dotIndex => do
        let ext ← sliceFrom fi.fileName dotIndex
        return fullDirName ++ ext
      | none => return fullDirName ++ BuiltInFileName
    else return fullDirName
  else if verID = FileIDV2 then
    return ['v', '2', '-'] ++ formatUint fi.fileSize ++ ['-'] ++ fi.fileMD5 ++ ['-'] ++ fi.fileName
  else .error .errorInvalidFileID

def fileInfo.getFileID (fi : fileInfo) : Except Failure GoString :=
  fi.getFileIDByVer fi.fileIDVersion

def fileInfo.getNameFileForVer (fi : fileInfo) (verID : Nat) : Except Failure GoString :=
  if fi.fileMD5 = [] then .error .errorNeedInitialized
  else do
    let rDataDir ← fi.getDataDirForVer verID
    if verID = FileIDV1 then
      match stringsLastIndex fi.fileName ['.'] with
      | some dotIndex => do
        let fileField ← sliceFrom fi.fileName dotIndex
        return pathJoin [rDataDir, fileField]
      | none => return pathJoin [rDataDir, BuiltInFileName]
    else if verID = FileIDV2 then
      return pathJoin [rDataDir, fi.fileName]
    else .error .errorInvalidFileID

def fileInfo.getNameFile (fi : fileInfo) : Except Failure GoString :=
  fi.getNameFileForVer fi.fileIDVersion

def newFileInfoWithVer (fileName : GoString) (ver : Nat) : Except Failure fileInfo :=
  .ok { fileIDVersion := ver, fileMD5 := [], fileSize := 0, fileName := fileName }

def newFileInfoFromRawInfoWithVersion (ver : Nat) (fileMd5 : GoString) (fileSize : Nat)
    (fileName : GoString) : Except Failure fileInfo :=
  let fileMd5 := stringsTrim fileMd5 [' ', '\r', '\n', '\t']
  if fileMd5.length ≠ 32 then .error .errorInvalidFileID
  else .ok { fileIDVersion := ver, fileMD5 := fileMd5, fileSize := fileSize, fileName := fileName }

def newFileInfoFromRawInfo (fileMd5 : GoString) (fileSize : Nat) (fileName : GoString) :
    Except Failure fileInfo :=
  newFileInfoFromRawInfoWithVersion FileIDVMAX fileMd5 fileSize fileName

/-- The first part of `newFileInfoFromFileID`: the scheme version read off the trimmed
identifier. -/
def fileIDVersionOf (fileID : GoString) : Except Failure Nat :=
  if stringsIndex fileID ['v'] = some 0 then
    if stringsIndex fileID ['v', '2', '-'] = some 0 then .ok FileIDV2
    else .error .errorInvalidFileID
  else if fileID.length ≤ 34 then .error .errorInvalidFileID
  else do
    let c ← index fileID 32
    if c ≠ '-' then .error .errorInvalidFileID else .ok FileIDV1

def newFileInfoFromFileID (fileID : GoString) : Except Failure fileInfo := do
  let fileID := stringsTrim fileID [' ', '\t', '\r', '\n']
  let fileIDVersion ← fileIDVersionOf fileID
  let finfo ←
    if fileIDVersion = FileIDV1 then do
      let fileMD5 ← slice fileID 0 32
      let sep ← slice fileID 32 33
      if sep ≠ ['-'] then throw Failure.errorInvalidFileID
      let (fileSizeStr, fileName) ←
        match stringsIndex fileID ['.'] with
        | none => do
          let str ← sliceFrom fileID 33
          pure (str, BuiltInFileName)
        | some dotIdx => do
          let str ← slice fileID 33 dotIdx
          let name ← sliceFrom fileID dotIdx
          pure (str, name)
      match ParseUint fileSizeStr with
      | .error _ => throw Failure.errorInvalidFileID
      | .ok fileSize =>
        pure ({ fileIDVersion := fileIDVersion, fileMD5 := fileMD5, fileSize := fileSize,
                fileName := fileName } : fileInfo)
    else if fileIDVersion = FileIDV2 then
      match stringsSplitN '-' 4 fileID with
      | [_, p1, p2, p3] =>
        match ParseUint p1 with
        | .error e => throw e
        | .ok fsize =>
          pure ({ fileIDVersion := fileIDVersion, fileMD5 := p2, fileSize := fsize,
                  fileName := p3 } : fileInfo)
      | _ => throw Failure.errorInvalidFileID
    else throw Failure.errorUnknownFileID
  if finfo.fileIDVersion ≠ FileIDV1 ∧ finfo.fileName = BuildInDataName then
    pure { finfo with fileName := ['r', 'e', 'l', '-'] ++ BuildInDataName }
  else pure finfo

/-! ## fs.go -/

def rPathV1 : GoString := ['V', '1']

def rPathV2 : GoString := ['V', '2']

/-- The struct `Item`. -/
structure Item where
  rootPath : GoString
  tempPath : GoString
  fileInfo : fileInfo
  deriving DecidableEq, Repr

def NewSFSItemWithVer (ver : Nat) (ext rootPath tempPath : GoString) : Except Failure Item := do
  let fileInfo ← newFileInfoWithVer ext ver
  return { rootPath := rootPath, tempPath := tempPath, fileInfo := fileInfo }

def NewSFSItemByInfo (fileMd5 : GoString) (fileSize : Nat) (fileName rootPath tempPath : GoString) :
    Except Failure Item := do
  let fileInfo ← newFileInfoFromRawInfo fileMd5 fileSize fileName
  return { rootPath := rootPath, tempPath := tempPath, fileInfo := fileInfo }

def NewSFSItemFromFileID (fileID rootPath tempPath : GoString) : Except Failure Item := do
  let fileInfo ← newFileInfoFromFileID fileID
  return { rootPath := rootPath, tempPath := tempPath, fileInfo := fileInfo }

/-- The method `versionRootPathForVer`; `log.Fatalf` ends the process. -/
def Item.versionRootPathForVer (item : Item) (verID : Nat) : Except Failure GoString :=
  if verID = FileIDV1 then .ok (pathJoin [item.rootPath, rPathV1])
  else if verID = FileIDV2 then .ok (pathJoin [item.rootPath, rPathV2])
  else .error .fatalExit

def Item.versionRootPath (item : Item) : Except Failure GoString :=
  item.versionRootPathForVer item.fileInfo.fileIDVersion

def Item.GetDataFile (item : Item) : Except Failure GoString := do
  let rDataPath ← item.fileInfo.getDataFile
  let root ← item.versionRootPath
  return pathJoin [root, rDataPath]

def Item.GetNameFile (item : Item) : Except Failure GoString := do
  let rDataPath ← item.fileInfo.getNameFile
  let root ← item.versionRootPath
  return pathJoin [root, rDataPath]

def Item.GetFileID (item : Item) : Except Failure GoString :=
  item.fileInfo.getFileID

/-! ## Predicates and helper definitions of the statements -/

/-- The bytes `0` to `9`. -/
def isDigit (c : Char) : Prop := '0' ≤ c ∧ c ≤ '9'

instance (c : Char) : Decidable (isDigit c) := by unfold isDigit; infer_instance

/-- The number written by a string of decimal digits, without a bound. -/
def decimalValue (s : GoString) : Nat :=
  s.foldl (fun a c => a * 10 + (c.toNat - '0'.toNat)) 0

/-- A path element that `path.Clean` keeps as it is. -/
def plainElem (e : GoString) : Prop :=
  e ≠ [] ∧ '/' ∉ e ∧ e ≠ ['.'] ∧ e ≠ ['.', '.']

instance (e : GoString) : Decidable (plainElem e) := by unfold plainElem; infer_instance

/-- A hexadecimal digit. -/
def isHexChar (c : Char) : Prop :=
  ('0' ≤ c ∧ c ≤ '9') ∨ ('a' ≤ c ∧ c ≤ 'f') ∨ ('A' ≤ c ∧ c ≤ 'F')

instance (c : Char) : Decidable (isHexChar c) := by unfold isHexChar; infer_instance

/-- A content hash as an ingest leaves it: 32 hexadecimal digits. -/
def hexHash (h : GoString) : Prop := h.length = 32 ∧ ∀ c ∈ h, isHexChar c

instance (h : GoString) : Decidable (hexHash h) := by unfold hexHash; infer_instance

/-- The segment `h[4*i : 4*i+4]` of a hash. -/
def segment (h : GoString) (i : Nat) : GoString := (h.take (4 * i + 4)).drop (4 * i)

/-- The eight consecutive segments of a hash. -/
def hashSegments (h : GoString) : List GoString :=
  [segment h 0, segment h 1, segment h 2, segment h 3,
   segment h 4, segment h 5, segment h 6, segment h 7]

/-- The string ends in a byte of the cutset of `strings.Trim` in `newFileInfoFromFileID`. -/
def endsInCutset (s : GoString) : Prop :=
  ∃ c, s.getLast? = some c ∧ c ∈ [' ', '\t', '\r', '\n']

instance (s : GoString) : Decidable (endsInCutset s) :=
  match h : s.getLast? with
  | none => isFalse (by rintro ⟨c, hc, _⟩; rw [h] at hc; cases hc)
  | some c =>
    if hm : c ∈ [' ', '\t', '\r', '\n'] then isTrue ⟨c, h, hm⟩
    else isFalse (by rintro ⟨d, hd, hdm⟩; rw [h] at hd; cases hd; exact hm hdm)

/-- What `newFileInfoFromFileID` does with the name field of a V2 identifier. -/
def decodedV2Name (name : GoString) : GoString :=
  if name = BuildInDataName then ['r', 'e', 'l', '-'] ++ BuildInDataName else name

/-- The part of the original name that scheme V1 keeps: the extension from the last `.` on, or
`.none` when the name has no `.`. -/
def v1Extension (name : GoString) : GoString :=
  match stringsLastIndex name ['.'] with
  | some dotIndex => name.drop dotIndex
  | none => BuiltInFileName

/-- The name-sensitive part of an identity: the extension for scheme V1, the whole name
otherwise. -/
def nameSensitivePart (ver : Nat) (name : GoString) : GoString :=
  if ver = FileIDV1 then v1Extension name else name

/-- The identifier of `fi` is produced, decodes, and the decoded identity has the version, the
hash, the size and the name-sensitive part of `fi`. -/
def RoundTrip (fi : fileInfo) : Prop :=
  ∃ fileID d, fi.getFileID = .ok fileID ∧ newFileInfoFromFileID fileID = .ok d ∧
    d.fileIDVersion = fi.fileIDVersion ∧ d.fileMD5 = fi.fileMD5 ∧ d.fileSize = fi.fileSize ∧
    nameSensitivePart d.fileIDVersion d.fileName = nameSensitivePart fi.fileIDVersion fi.fileName

/-- The hash of the test suite (the MD5 of `hello!!`). -/
def sampleHash : GoString := "81d95db337a18c65384d35ba7ea2efda".toList

/-- The identifier of the item is produced, an item is built from it under the same roots, and
that item derives the data-file path and the record-file path of the original. -/
def SamePaths (item : Item) : Prop :=
  ∃ fileID item2 dataFile nameFile, item.GetFileID = .ok fileID ∧
    NewSFSItemFromFileID fileID item.rootPath item.tempPath = .ok item2 ∧
    item.GetDataFile = .ok dataFile ∧ item2.GetDataFile = .ok dataFile ∧
    item.GetNameFile = .ok nameFile ∧ item2.GetNameFile = .ok nameFile

/-- The relative shard directory of a hash and a size under scheme V1 or V2. -/
def shardDir (ver : Nat) (fileMD5 : GoString) (fileSize : Nat) : GoString :=
  if ver = FileIDV1 then stringsJoin (hashSegments fileMD5) ['/']
  else stringsJoin (formatUint fileSize :: hashSegments fileMD5) ['/']

/-- The storage root of the test suite. -/
def sampleRoot : GoString := "./teststg/root".toList

/-- The scratch directory of the test suite. -/
def sampleTemp : GoString := "./teststg/testtemp".toList

/-! ## fs_ext.go -/

/-- What the file system holds at a path: a file, or a directory with its entries in the order
of `ioutil.ReadDir` (sorted by name). -/
inductive FsNode where
  | file : FsNode
  | dir : List (GoString × FsNode) → FsNode

/-- The method `IsDir` of the `os.FileInfo` of an entry. -/
def FsNode.IsDir : FsNode → Bool
  | .file => false
  | .dir _ => true

/-- The node at `filepath.Join(path, name)`, where the node at `path` is `n`. -/
def FsNode.child (n : FsNode) (name : GoString) : Option FsNode :=
  match n with
  | .file => none
  | .dir fis => (fis.find? (fun fi => fi.1 = name)).map (fun fi => fi.2)

def Separators : GoString := ['/']

def parseFileIDFromFilePath (filePath : GoString) (version : Nat) : Except Failure GoString :=
  if version = FileIDV1 then
    let key := Separators ++ rPathV1 ++ Separators
    match stringsIndex filePath key with
    | none => .error .unsupportedPath
    | some idx => do
      let rest ← sliceFrom filePath (idx + key.length)
      let pathIDs := stringsSplit '/' rest
      if pathIDs.length ≠ 9 then throw Failure.unsupportedPath
      let fileMD5 := stringsJoin (pathIDs.take 8) []
      let fileSize ← ParseUint (pathIDs.getD 8 [])
      let fileInfo ← newFileInfoFromRawInfoWithVersion version fileMD5 fileSize BuildInDataName
      fileInfo.getFileID
  else if version = FileIDV2 then
    let key := Separators ++ rPathV2 ++ Separators
    match stringsIndex filePath key with
    | none => .error .unsupportedPath
    | some idx => do
      let rest ← sliceFrom filePath (idx + key.length)
      let pathIDs := stringsSplit '/' rest
      if pathIDs.length ≠ 10 then throw Failure.unsupportedPath
      let fileSize ← ParseUint (pathIDs.getD 0 [])
      let fileMD5 := stringsJoin ((pathIDs.take 9).drop 1) []
      let fileInfo ← newFileInfoFromRawInfo fileMD5 fileSize BuildInDataName
      fileInfo.getFileID
  else .error .unknownVersion

/-- The function `pathInfosFromFileID`: the version and the segments of the shard directory; an
error stands for the returned error, with version 0 and no segments, or for a panic. -/
def pathInfosFromFileID (fileID : GoString) : Except Failure (Nat × List GoString) := do
  let fileInfo ← newFileInfoFromFileID fileID
  let dataDir ← fileInfo.getDataDir
  return (fileInfo.fileIDVersion, stringsSplit '/' dataDir)

/-- Go `utilWalk(0, len(fis)-1, forward, cb)` over the entries `fis[0] .. fis[len-1]`: the
callback is run on each entry in ascending or descending index order until it returns `false`;
the variables the callback captures are threaded as a state. -/
def utilWalkLoop {α σ : Type} (cb : α → σ → σ × Bool) : List α → σ → σ
  | [], s => s
  | x :: xs, s => if (cb x s).2 then utilWalkLoop cb xs (cb x s).1 else (cb x s).1

def utilWalk {α σ : Type} (fis : List α) (forward : Bool) (cb : α → σ → σ × Bool) (s : σ) : σ :=
  utilWalkLoop cb (if forward then fis else fis.reverse) s

/-- The variables of `getFileList` that the callback of the walk reads and writes. -/
structure walkState where
  curID : GoString
  nextIDs : List GoString
  leftCount : Int
  files : List GoString
  err : Option Failure
  deriving DecidableEq, Repr

/-- The callback that `getFileList` passes to `utilWalk`, run on the entry `name`; `recur` is the
recursive call `getFileList(curPath, version, findNext, nextIDs, leftCount)` on that entry, of
which only the files are used. -/
def walkCallback (parentPath : GoString) (version : Nat) (ids : List GoString)
    (name : GoString) (isDir : Bool) (recur : GoString → List GoString → Int → List GoString)
    (st : walkState) : walkState × Bool :=
  let curPath := pathJoin [parentPath, name]
  if ¬ isDir then
    if ids.length > 0 then (st, false)
    else if version = FileIDV1 then
      match ParseInt name with
      | .error e => ({ st with err := some e }, true)
      | .ok fileSize =>
        if fileSize = 0 then ({ st with err := none }, true)
        else
          match parseFileIDFromFilePath curPath version with
          | .error e => ({ st with err := some e }, false)
          | .ok fileID => ({ st with err := none, files := st.files ++ [fileID] }, false)
    else if version = FileIDV2 then
      if name = BuildInDataName then
        match parseFileIDFromFilePath curPath version with
        | .error e => ({ st with err := some e }, false)
        | .ok fileID => ({ st with err := none, files := st.files ++ [fileID] }, false)
      else (st, true)
    else (st, true)
  else if st.curID ≠ [] ∧ st.curID ≠ name then (st, true)
  else
    let newFiles := recur curPath st.nextIDs st.leftCount
    let st1 : walkState := if st.curID ≠ [] then { st with curID := [], nextIDs := [] } else st
    let st2 : walkState :=
      if newFiles.length > 0 then
        { st1 with files := st1.files ++ newFiles, leftCount := st1.leftCount - newFiles.length }
      else st1
    if st2.leftCount = 0 then (st2, false) else (st2, true)

/-- The state of the walk when `getFileList` starts it. -/
def walkInit (ids : List GoString) (count : Int) : walkState :=
  { curID := if ids.length > 1 then ids.headD [] else [],
    nextIDs := if ids.length > 1 then ids.tail else [],
    leftCount := count, files := [], err := none }

mutual
/-- The function `getFileList`, on the node found at `parentPath`; a file there is reported by
`pathutils.IsDirExists` as no directory. The walk over the entries is `walkForward` when
`findNext` holds and `walkBackward` otherwise. -/
def getFileList : FsNode → GoString → Nat → Bool → List GoString → Int →
    Option Failure × List GoString
  | .file, _, _, _, _, count => if count = 0 then (none, []) else (some .notExists, [])
  | .dir fis, parentPath, version, findNext, ids, count =>
    if count = 0 then (none, [])
    else
      let st :=
        if findNext then walkForward fis parentPath version findNext ids (walkInit ids count)
        else (walkBackward fis parentPath version findNext ids (walkInit ids count)).1
      (st.err, st.files)
/-- The ascending walk of `utilWalk` with the callback of `getFileList`. -/
def walkForward : List (GoString × FsNode) → GoString → Nat → Bool → List GoString →
    walkState → walkState
  | [], _, _, _, _, st => st
  | (name, node) :: rest, parentPath, version, findNext, ids, st =>
    let r := walkCallback parentPath version ids name node.IsDir
      (fun curPath nextIDs leftCount =>
        (getFileList node curPath version findNext nextIDs leftCount).2) st
    if r.2 then walkForward rest parentPath version findNext ids r.1 else r.1
/-- The descending walk of `utilWalk` with the callback of `getFileList`; the flag tells whether
the walk goes on. -/
def walkBackward : List (GoString × FsNode) → GoString → Nat → Bool → List GoString →
    walkState → walkState × Bool
  | [], _, _, _, _, st => (st, true)
  | (name, node) :: rest, parentPath, version, findNext, ids, st =>
    let r0 := walkBackward rest parentPath version findNext ids st
    if r0.2 then
      walkCallback parentPath version ids name node.IsDir
        (fun curPath nextIDs leftCount =>
          (getFileList node curPath version findNext nextIDs leftCount).2) r0.1
    else r0
end

/-- The call `getFileList(path, ...)` where the file system holds `node` at `path`, or nothing. -/
def getFileListAt (node : Option FsNode) (parentPath : GoString) (version : Nat)
    (findNext : Bool) (ids : List GoString) (count : Int) : Option Failure × List GoString :=
  match node with
  | none => if count = 0 then (none, []) else (some .notExists, [])
  | some n => getFileList n parentPath version findNext ids count

/-- The guard that `GetFileList` appends to the segments of the cursor. -/
def guardID : GoString := ['<', 'g', 'u', 'a', 'r', 'd', '>']

/-- The first part of `GetFileList`: the error, the version and the segments that the cursor
gives, with the guard appended when the cursor decodes; a panic of the decoding is the error of
the result. -/
def decodeCursor (lastFileID : GoString) : Except Failure (Option Failure × Nat × List GoString) :=
  if lastFileID ≠ [] then
    match pathInfosFromFileID lastFileID with
    | .ok (ver, ids) => .ok (none, ver, ids ++ [guardID])
    | .error e => if e = .panicOutOfRange then .error e else .ok (some e, 0, [])
  else .ok (none, FileIDV1, [])

/-- The second part of `GetFileList`: the walk of the V1 directory, when the version is 1, then
the walk of the V2 directory with what is left of the count and no segments, when the version
is or has become 2; the error is dropped when a file is returned. -/
def walkVersions (fis : List (GoString × FsNode)) (rootPath : GoString) (findNext : Bool)
    (err0 : Option Failure) (ver0 : Nat) (ids0 : List GoString) (count : Int) :
    Option Failure × List GoString :=
  let s1 : Option Failure × Nat × List GoString × Int × List GoString :=
    if ver0 = FileIDV1 then
      let r := getFileListAt ((FsNode.dir fis).child rPathV1) (pathJoin [rootPath, rPathV1])
        ver0 findNext ids0 count
      (r.1, FileIDV2, [], count - r.2.length, r.2)
    else (err0, ver0, ids0, count, [])
  let s2 : Option Failure × List GoString :=
    if s1.2.1 = FileIDV2 then
      let r := getFileListAt ((FsNode.dir fis).child rPathV2) (pathJoin [rootPath, rPathV2])
        s1.2.1 findNext s1.2.2.1 s1.2.2.2.1
      (r.1, s1.2.2.2.2 ++ r.2)
    else (s1.1, s1.2.2.2.2)
  (if s2.2.length > 0 then none else s2.1, s2.2)

/-- The function `GetFileList`, where the file system holds `fs` at `rootPath`; the result is
the returned error, if any, and the returned files, or the panic of the decoding of the
cursor. -/
def GetFileList (fs : Option FsNode) (lastFileID rootPath : GoString) (findNext : Bool)
    (count : Int) : Except Failure (Option Failure × List GoString) :=
  match fs with
  | none => .ok (some .notExists, [])
  | some .file => .ok (some .notExists, [])
  | some (.dir fis) =>
    match decodeCursor lastFileID with
    | .error e => .error e
    | .ok (err0, ver0, ids0) => .ok (walkVersions fis rootPath findNext err0 ver0 ids0 count)

/-- The files of `getFileListAt`. -/
def listFilesAt (node : Option FsNode) (parentPath : GoString) (version : Nat)
    (findNext : Bool) (ids : List GoString) (count : Int) : List GoString :=
  (getFileListAt node parentPath version findNext ids count).2

/-! ## Statement predicates for the enumerator -/

/-- The key that `parseFileIDFromFilePath` searches in a path: `/V1/` or `/V2/`. -/
def versionKey (version : Nat) : GoString :=
  if version = FileIDV1 then Separators ++ rPathV1 ++ Separators
  else Separators ++ rPathV2 ++ Separators

/-- The identifier that the enumerator gives to a blob: `<hash>-<size>.none` under V1,
`v2-<size>-<hash>-_data_` under V2. -/
def listedID (version : Nat) (h : GoString) (n : Nat) : GoString :=
  if version = FileIDV1 then h ++ ['-'] ++ formatUint n ++ BuiltInFileName
  else ['v', '2', '-'] ++ formatUint n ++ ['-'] ++ h ++ ['-'] ++ BuildInDataName

/-- The path of the data file below the version directory, as section 6 lays it out. -/
def relDataPath (version : Nat) (h : GoString) (n : Nat) : GoString :=
  if version = FileIDV1 then stringsJoin (hashSegments h ++ [formatUint n]) ['/']
  else stringsJoin ((formatUint n :: hashSegments h) ++ [BuildInDataName]) ['/']

/-- The callback of the walk of `getFileList` on an entry of the listing, with the recursive
call on that entry. -/
def entryCallback (parentPath : GoString) (version : Nat) (findNext : Bool)
    (ids : List GoString) (fi : GoString × FsNode) (st : walkState) : walkState × Bool :=
  walkCallback parentPath version ids fi.1 fi.2.IsDir
    (fun curPath nextIDs leftCount =>
      (getFileList fi.2 curPath version findNext nextIDs leftCount).2) st

/-- The files that `getFileList` returns. -/
def listFiles (node : FsNode) (parentPath : GoString) (version : Nat) (findNext : Bool)
    (ids : List GoString) (count : Int) : List GoString :=
  (getFileList node parentPath version findNext ids count).2

instance : Inhabited FsNode := ⟨.file⟩

/-- What the callback of the walk does on a file when no resume chain is pending: whether the
walk goes on, and the identifiers appended (none or one). -/
def fileOutcome (parentPath : GoString) (version : Nat) (name : GoString) :
    Bool × List GoString :=
  if version = FileIDV1 then
    match ParseInt name with
    | .error _ => (true, [])
    | .ok fileSize =>
      if fileSize = 0 then (true, [])
      else
        match parseFileIDFromFilePath (pathJoin [parentPath, name]) version with
        | .error _ => (false, [])
        | .ok fileID => (false, [fileID])
  else if version = FileIDV2 then
    if name = BuildInDataName then
      match parseFileIDFromFilePath (pathJoin [parentPath, name]) version with
      | .error _ => (false, [])
      | .ok fileID => (false, [fileID])
    else (true, [])
  else (true, [])

/-- The variables of the walk without the error variable, which the walk never reads. -/
structure walkCore where
  curID : GoString
  nextIDs : List GoString
  leftCount : Int
  files : List GoString
  deriving DecidableEq, Repr

def walkState.core (st : walkState) : walkCore :=
  { curID := st.curID, nextIDs := st.nextIDs, leftCount := st.leftCount, files := st.files }

/-- The callback of the walk on the variables without the error variable. -/
def coreCallback (parentPath : GoString) (version : Nat) (findNext : Bool)
    (ids : List GoString) (fi : GoString × FsNode) (s : walkCore) : walkCore × Bool :=
  if ¬ fi.2.IsDir then
    if ids.length > 0 then (s, false)
    else
      ({ s with files := s.files ++ (fileOutcome parentPath version fi.1).2 },
        (fileOutcome parentPath version fi.1).1)
  else if s.curID ≠ [] ∧ s.curID ≠ fi.1 then (s, true)
  else
    ({ curID := [], nextIDs := if s.curID ≠ [] then [] else s.nextIDs,
       leftCount := s.leftCount
         - (listFiles fi.2 (pathJoin [parentPath, fi.1]) version findNext s.nextIDs
             s.leftCount).length,
       files := s.files
         ++ listFiles fi.2 (pathJoin [parentPath, fi.1]) version findNext s.nextIDs
             s.leftCount },
     decide (s.leftCount
         - (listFiles fi.2 (pathJoin [parentPath, fi.1]) version findNext s.nextIDs
             s.leftCount).length ≠ 0))

/-- The variables of the walk, without the error variable, when `getFileList` starts it. -/
def coreInit (ids : List GoString) (count : Int) : walkCore :=
  { curID := if ids.length > 1 then ids.headD [] else [],
    nextIDs := if ids.length > 1 then ids.tail else [],
    leftCount := count, files := [] }

/-! ## The layout of a store and the order of the enumeration -/

/-- The order of the names in a directory listing (`ioutil.ReadDir` sorts by name): byte by
byte, a proper prefix first. -/
def nameLt : GoString → GoString → Prop
  | [], [] => False
  | [], _ :: _ => True
  | _ :: _, [] => False
  | a :: as, b :: bs => a < b ∨ (a = b ∧ nameLt as bs)

instance nameLt.decide : ∀ a b : GoString, Decidable (nameLt a b)
  | [], [] => isFalse (by simp [nameLt])
  | [], _ :: _ => isTrue (by simp [nameLt])
  | _ :: _, [] => isFalse (by simp [nameLt])
  | a :: as, b :: bs =>
    have := nameLt.decide as bs
    decidable_of_iff (a < b ∨ (a = b ∧ nameLt as bs)) (by rw [nameLt])

/-- The order of the shard directories: segment by segment, each in the order of the names. -/
def segsLt : List GoString → List GoString → Prop
  | [], [] => False
  | [], _ :: _ => True
  | _ :: _, [] => False
  | a :: as, b :: bs => nameLt a b ∨ (a = b ∧ segsLt as bs)

instance segsLt.decide : ∀ a b : List GoString, Decidable (segsLt a b)
  | [], [] => isFalse (by simp [segsLt])
  | [], _ :: _ => isTrue (by simp [segsLt])
  | _ :: _, [] => isFalse (by simp [segsLt])
  | a :: as, b :: bs =>
    have := segsLt.decide as bs
    decidable_of_iff (nameLt a b ∨ (a = b ∧ segsLt as bs)) (by rw [segsLt])

/-- The total order of the enumeration on what `pathInfosFromFileID` gives for an identifier:
the scheme version, then the segments of the shard directory (under V2 the size segment comes
first). -/
def keyLt (a b : Nat × List GoString) : Prop :=
  a.1 < b.1 ∨ (a.1 = b.1 ∧ segsLt a.2 b.2)

instance (a b : Nat × List GoString) : Decidable (keyLt a b) := by
  unfold keyLt; infer_instance

/-- The entries of a directory are listed in the order of their names. -/
def sortedNames (fis : List (GoString × FsNode)) : Prop :=
  (fis.map Prod.fst).Pairwise nameLt

instance (fis : List (GoString × FsNode)) : Decidable (sortedNames fis) := by
  unfold sortedNames; infer_instance

/-- The name of a hash directory: four hexadecimal digits. -/
def hashDirName (s : GoString) : Prop := s.length = 4 ∧ ∀ c ∈ s, isHexChar c

instance (s : GoString) : Decidable (hashDirName s) := by unfold hashDirName; infer_instance

/-- The name of a size directory of V2: the decimal string of a 64-bit size. -/
def sizeDirName (s : GoString) : Prop :=
  match ParseUint s with
  | .ok n => formatUint n = s
  | .error _ => False

instance (s : GoString) : Decidable (sizeDirName s) := by
  unfold sizeDirName; split <;> infer_instance

/-- The name of the directory at `depth` levels above the leaf directories of the tree of
`version`: under V2 the top level (depth 9) holds the size directories. -/
def dirNameOK (version depth : Nat) (name : GoString) : Prop :=
  if version = FileIDV2 ∧ depth = 9 then sizeDirName name else hashDirName name

instance (version depth : Nat) (name : GoString) : Decidable (dirNameOK version depth name) := by
  unfold dirNameOK; infer_instance

/-- A file name in a leaf directory: under V1 a name that reads as a 64-bit size is its decimal
string (the data file), and any other name starts with `.` (a record marker, `.ext` or
`.none`); under V2 the data file is `_data_` and the record marker has any name. -/
def leafNameOK (version : Nat) (name : GoString) : Prop :=
  if version = FileIDV1 then
    match ParseUint name with
    | .ok n => formatUint n = name
    | .error _ => name.head? = some '.'
  else True

instance (version : Nat) (name : GoString) : Decidable (leafNameOK version name) := by
  unfold leafNameOK; split_ifs
  · split <;> infer_instance
  · infer_instance

/-- The layout of section 6 below a version directory: `depth` levels of directories, listed in
the order of their names, above the leaf directories, which hold files only. -/
def shardTree (version : Nat) : Nat → FsNode → Prop
  | _, .file => False
  | 0, .dir fis => sortedNames fis ∧ ∀ fi ∈ fis, fi.2.IsDir = false ∧ leafNameOK version fi.1
  | k + 1, .dir fis =>
    sortedNames fis ∧ ∀ fi ∈ fis, dirNameOK version (k + 1) fi.1 ∧ shardTree version k fi.2

instance shardTree.decide (version : Nat) : ∀ (k : Nat) (n : FsNode),
    Decidable (shardTree version k n)
  | 0, .file => by unfold shardTree; infer_instance
  | _ + 1, .file => by unfold shardTree; infer_instance
  | 0, .dir fis => by unfold shardTree; infer_instance
  | k + 1, .dir fis => by
    unfold shardTree
    have := shardTree.decide version k
    infer_instance

/-- The depth of the leaf directories below the version directory. -/
def shardDepth (version : Nat) : Nat := if version = FileIDV1 then 8 else 9

/-- The name of the version directory. -/
def versionDir (version : Nat) : GoString := if version = FileIDV1 then rPathV1 else rPathV2

/-- A storage tree laid out as in section 6: a directory whose entries `V1` and `V2`, where
present, hold the shard trees of the two schemes. -/
def storeTree (root : FsNode) : Prop :=
  root.IsDir = true
  ∧ (match root.child rPathV1 with
     | some n => shardTree FileIDV1 8 n
     | none => True)
  ∧ (match root.child rPathV2 with
     | some n => shardTree FileIDV2 9 n
     | none => True)

instance (root : FsNode) : Decidable (storeTree root) := by
  unfold storeTree
  have h1 : Decidable (match root.child rPathV1 with
     | some n => shardTree FileIDV1 8 n
     | none => True) := by split <;> infer_instance
  have h2 : Decidable (match root.child rPathV2 with
     | some n => shardTree FileIDV2 9 n
     | none => True) := by split <;> infer_instance
  infer_instance

/-! ## The walk as a list of leaf directories -/

/-- The entries in the order in which `utilWalk` visits them. -/
def walkOrder {α : Type} (forward : Bool) (fis : List α) : List α :=
  if forward then fis else fis.reverse

/-- What the walk collects in a directory of files when no segment is pending: the identifier
of the first file at which the callback stops, if it reads one off the path. -/
def leafEmit (parentPath : GoString) (version : Nat) :
    List (GoString × FsNode) → List GoString
  | [] => []
  | fi :: rest =>
    (fileOutcome parentPath version fi.1).2 ++
      (if (fileOutcome parentPath version fi.1).1 then leafEmit parentPath version rest else [])

/-- The directories `depth` levels below a node, in the order of the walk, each with the names
of the directories on the way to it and its entries in the order of the walk. -/
def walkDirs (forward : Bool) :
    Nat → FsNode → List (List GoString × List (GoString × FsNode))
  | _, .file => []
  | 0, .dir fis => [([], walkOrder forward fis)]
  | k + 1, .dir fis =>
    (walkOrder forward fis).flatMap
      (fun fi => (walkDirs forward k fi.2).map (fun a => (fi.1 :: a.1, a.2)))

/-- The directories `depth` levels below a node that the walk reaches when it resumes at the
segments `q`: at each level the entries are skipped up to the one named by the pending segment,
below which the walk resumes at the next segment; the entries after it are walked in full. The
directory that all the segments name is left out. -/
def seekDirs (forward : Bool) :
    Nat → FsNode → List GoString → List (List GoString × List (GoString × FsNode))
  | k + 1, .dir fis, q0 :: qs =>
    match (walkOrder forward fis).dropWhile (fun fi => fi.1 ≠ q0) with
    | [] => []
    | fi :: rest =>
      (seekDirs forward k fi.2 qs).map (fun a => (fi.1 :: a.1, a.2))
        ++ rest.flatMap
          (fun fi2 => (walkDirs forward k fi2.2).map (fun a => (fi2.1 :: a.1, a.2)))
  | _, _, _ => []

/-- The path of the directory reached from `p` through the directories `names`, as the walk
builds it with `filepath.Join`. -/
def nodePath (p : GoString) (names : List GoString) : GoString :=
  names.foldl (fun acc n => pathJoin [acc, n]) p

/-- What the walk collects in a leaf directory below `p`. -/
def emitAt (p : GoString) (version : Nat)
    (a : List GoString × List (GoString × FsNode)) : List GoString :=
  leafEmit (nodePath p a.1) version a.2

/-! ## Cleaned paths -/

/-- The elements that `path.Clean` keeps of a path, last first. -/
def cleanStack (p : GoString) : List GoString :=
  (stringsSplit '/' p).foldl (cleanStep (decide (p.head? = some '/'))) []

/-- The shape of the elements that `path.Clean` keeps, last first: no element is empty, holds a
separator or is `.`, and a `..` stands only above other `..` at the bottom of a relative
path. -/
def normalStack (rooted : Bool) : List GoString → Prop
  | [] => True
  | e :: below =>
    e ≠ [] ∧ '/' ∉ e ∧ e ≠ ['.']
      ∧ (e = ['.', '.'] → rooted = false ∧ ∀ x ∈ below, x = ['.', '.'])
      ∧ normalStack rooted below

/-- A path that `path.Clean` leaves as it is and that is neither `.` nor `/`. -/
def CleanBase (b : GoString) : Prop := b ≠ [] ∧ cleanStack b ≠ [] ∧ pathClean b = b

/-- The storage root is one under which `parseFileIDFromFilePath` reads the data files of the
version: the path of the version directory followed by `/` holds its first `/V<v>/` at the
end. -/
def storeSupported (rootPath : GoString) (version : Nat) : Prop :=
  stringsIndex (pathJoin [rootPath, versionDir version] ++ Separators) (versionKey version)
    = some ((pathJoin [rootPath, versionDir version]).length - 3)

instance (rootPath : GoString) (version : Nat) : Decidable (storeSupported rootPath version) := by
  unfold storeSupported; infer_instance

/-- The segments of the shard directory of an identity, which `pathInfosFromFileID` gives for
its identifier: the eight hash segments, after the size segment under V2. -/
def shardKey (version : Nat) (h : GoString) (n : Nat) : List GoString :=
  if version = FileIDV1 then hashSegments h else formatUint n :: hashSegments h

/-- The order of the names as the walk in one direction meets them. -/
def walkLt (forward : Bool) (a b : GoString) : Prop :=
  if forward then nameLt a b else nameLt b a

/-- The order of the shard directories as the walk in one direction meets them. -/
def walkSegsLt (forward : Bool) (a b : List GoString) : Prop :=
  if forward then segsLt a b else segsLt b a

/-! ## The enumeration of a store -/

/-- A list cut at a limit: whole when the limit is negative, its first `c` elements
otherwise. -/
def limitCut {α : Type} (c : Int) (l : List α) : List α :=
  if c < 0 then l else l.take c.toNat

/-- The leaf directories that the walk reaches below what the file system holds at the path of a
version directory. -/
def walkDirsAt (forward : Bool) (depth : Nat) :
    Option FsNode → List (List GoString × List (GoString × FsNode))
  | some n => walkDirs forward depth n
  | none => []

/-- The leaf directories that the walk resumed at the segments `q` reaches. -/
def seekDirsAt (forward : Bool) (depth : Nat) (o : Option FsNode) (q : List GoString) :
    List (List GoString × List (GoString × FsNode)) :=
  match o with
  | some n => seekDirs forward depth n q
  | none => []

/-- The identifiers that the unlimited walk of the tree of one version collects. -/
def listAll (forward : Bool) (version : Nat) (root : FsNode) (rootPath : GoString) :
    List GoString :=
  (walkDirsAt forward (shardDepth version) (root.child (versionDir version))).flatMap
    (emitAt (pathJoin [rootPath, versionDir version]) version)

/-- The identifiers that the unlimited walk of the tree of one version collects when it resumes
at the segments `q`. -/
def listAfter (forward : Bool) (version : Nat) (root : FsNode) (rootPath : GoString)
    (q : List GoString) : List GoString :=
  (seekDirsAt forward (shardDepth version) (root.child (versionDir version)) q).flatMap
    (emitAt (pathJoin [rootPath, versionDir version]) version)

/-! ## The store of the test suite -/

/-- A chain of directories, each holding the next one alone, down to `leaf`. -/
def chainDirs (names : List GoString) (leaf : FsNode) : FsNode :=
  names.foldr (fun n acc => FsNode.dir [(n, acc)]) leaf

/-- The hash of the 6-byte payload `hello!` of the test suite. -/
def sampleHash2 : GoString := "5a8dd3ad0756a93ded72b823b19dd877".toList

/-- The entries of the root after `TestV1l` and `TestV2l`: the 7-byte payload `hello!!` under
V1 with the record marker `.test`, the 6-byte payload `hello!` under V2 with the record marker
`ab.test`. -/
def sampleEntries : List (GoString × FsNode) :=
  [(rPathV1, chainDirs (hashSegments sampleHash)
      (.dir [(".test".toList, .file), ("7".toList, .file)])),
   (rPathV2, chainDirs ("6".toList :: hashSegments sampleHash2)
      (.dir [(BuildInDataName, .file), ("ab.test".toList, .file)]))]

/-- The tree below the root after `TestV1l` and `TestV2l`. -/
def sampleStore : FsNode := .dir sampleEntries

/-- The identifier that the enumeration gives to the V1 blob of the test suite. -/
def sampleV1ID : GoString := "81d95db337a18c65384d35ba7ea2efda-7.none".toList

/-- The identifier that the enumeration gives to the V2 blob of the test suite. -/
def sampleV2ID : GoString := "v2-6-5a8dd3ad0756a93ded72b823b19dd877-_data_".toList

/-! ## The number of stored blobs -/

/-- The name of a data file in a leaf directory: under V1 a name that reads as a 64-bit size,
under V2 the name `_data_`. -/
def isDataName (version : Nat) (name : GoString) : Bool :=
  if version = FileIDV1 then
    match ParseUint name with
    | .ok _ => true
    | .error _ => false
  else decide (name = BuildInDataName)

/-- The number of data files among the entries of a leaf directory. -/
def dataFileCount (version : Nat) (fl : List (GoString × FsNode)) : Nat :=
  (fl.filter (fun fi => isDataName version fi.1)).length

/-- The number of blobs stored under one scheme: the data files of the leaf directories of its
tree. -/
def blobCountOf (version : Nat) (root : FsNode) : Nat :=
  ((walkDirsAt true (shardDepth version) (root.child (versionDir version))).map
    (fun x => dataFileCount version x.2)).sum

/-- The number of blobs stored in the tree. -/
def blobCount (root : FsNode) : Nat := blobCountOf FileIDV1 root + blobCountOf FileIDV2 root

/-! ## Chained calls -/

/-- The chained forward calls of a client that reads the store page by page: the call at the
cursor, and, while the page holds `N` identifiers, the call at the last identifier of the page.
The pages are returned in order; `none` when the calls are more than `fuel`, when a call fails
or when a full page has no last identifier. -/
def pagesFrom (fs : Option FsNode) (rootPath : GoString) (N : Int) :
    Nat → GoString → Option (List (List GoString))
  | 0, _ => none
  | fuel + 1, cursor =>
    match GetFileList fs cursor rootPath true N with
    | .error _ => none
    | .ok (_, page) =>
      if (page.length : Int) < N then some [page]
      else
        match page.getLast? with
        | none => none
        | some last => (pagesFrom fs rootPath N fuel last).map (fun rest => page :: rest)

/-! ## Stored blobs -/

/-- The node at the end of a chain of names below a node. -/
def FsNode.lookup : FsNode → List GoString → Option FsNode
  | n, [] => some n
  | n, s :: rest =>
    match n.child s with
    | some c => c.lookup rest
    | none => none

/-- The name of the data file of a blob in its shard directory, as `getDataFileForVer` joins
it: the decimal size under V1, `_data_` under V2. -/
def dataFileName (version : Nat) (n : Nat) : GoString :=
  if version = FileIDV1 then formatUint n else BuildInDataName

/-- The blob with the hash `h` and the size `n` is stored under the scheme `version`: the tree
holds a file at the path of its data file below the version directory. -/
def storedBlob (root : FsNode) (version : Nat) (h : GoString) (n : Nat) : Prop :=
  (root.lookup (versionDir version :: (shardKey version h n ++ [dataFileName version n]))).map
    FsNode.IsDir = some false

instance (root : FsNode) (version : Nat) (h : GoString) (n : Nat) :
    Decidable (storedBlob root version h n) := by unfold storedBlob; infer_instance

/-- The hash of the empty payload. -/
def emptyHash : GoString := "d41d8cd98f00b204e9800998ecf8427e".toList

/-- The tree below the root after the empty payload has been written under V1: the data file
`0` in the shard directory of its hash. -/
def emptyBlobStore : FsNode :=
  .dir [(rPathV1, chainDirs (hashSegments emptyHash) (.dir [("0".toList, .file)]))]

/-! ## Decimal numerals -/

theorem toDigitsCore_eq (fuel : Nat) :
    ∀ n ds, n < fuel → Nat.toDigitsCore 10 fuel n ds = Nat.toDigits 10 n ++ ds := by
  induction fuel using Nat.strong_induction_on with
  | _ fuel ih =>
    intro n ds hn
    cases fuel with
    | zero => omega
    | succ f =>
      unfold Nat.toDigits
      simp only [Nat.toDigitsCore]
      by_cases h0 : n / 10 = 0
      · simp [h0]
      · simp only [h0, if_false]
        have hlt : n / 10 < n := Nat.div_lt_self (by omega) (by omega)
        rw [ih f (by omega) (n / 10) _ (by omega)]
        cases n with
        | zero => simp at h0
        | succ m =>
          rw [ih (m + 1) (by omega) ((m + 1) / 10) _ hlt]
          simp

theorem formatUint_small (n : Nat) (h : n < 10) : formatUint n = [Nat.digitChar n] := by
  unfold formatUint Nat.toDigits
  simp only [Nat.toDigitsCore]
  have : n / 10 = 0 := by omega
  simp [this, Nat.mod_eq_of_lt h]

theorem formatUint_large (n : Nat) (h : 10 ≤ n) :
    formatUint n = formatUint (n / 10) ++ [Nat.digitChar (n % 10)] := by
  unfold formatUint
  conv_lhs => unfold Nat.toDigits
  simp only [Nat.toDigitsCore]
  have : n / 10 ≠ 0 := by omega
  simp only [this, if_false]
  exact toDigitsCore_eq n (n / 10) _ (Nat.div_lt_self (by omega) (by omega))

theorem digitChar_spec (d : Nat) (h : d < 10) :
    isDigit (Nat.digitChar d) ∧ (Nat.digitChar d).toNat - '0'.toNat = d := by
  interval_cases d <;> decide

theorem formatUint_ne_nil (n : Nat) : formatUint n ≠ [] := by
  by_cases h : n < 10
  · rw [formatUint_small n h]; simp
  · rw [formatUint_large n (by omega)]; simp

theorem formatUint_isDigit (n : Nat) : ∀ c ∈ formatUint n, isDigit c := by
  induction n using Nat.strong_induction_on with
  | _ n ih =>
    intro c hc
    by_cases h : n < 10
    · rw [formatUint_small n h] at hc
      simp only [List.mem_singleton] at hc
      rw [hc]; exact (digitChar_spec n h).1
    · rw [formatUint_large n (by omega)] at hc
      rcases List.mem_append.1 hc with hc | hc
      · exact ih (n / 10) (Nat.div_lt_self (by omega) (by omega)) c hc
      · simp only [List.mem_singleton] at hc
        rw [hc]; exact (digitChar_spec (n % 10) (Nat.mod_lt _ (by omega))).1

theorem formatUint_length_two (n : Nat) (h : 10 ≤ n) : 2 ≤ (formatUint n).length := by
  rw [formatUint_large n h]
  have := formatUint_ne_nil (n / 10)
  have : 0 < (formatUint (n / 10)).length := List.length_pos.2 this
  simp; omega

theorem parseUintLoop_append (xs ys : GoString) :
    ∀ a b, parseUintLoop xs a = .ok b → parseUintLoop (xs ++ ys) a = parseUintLoop ys b := by
  induction xs with
  | nil => intro a b h; simp only [parseUintLoop] at h; cases h; rfl
  | cons c cs ih =>
    intro a b h
    simp only [parseUintLoop, List.cons_append] at h ⊢
    split_ifs at h ⊢ with h1 h2 h3
    exact ih _ _ h

theorem parseUintLoop_formatUint (n : Nat) (h : n ≤ maxUint64) :
    parseUintLoop (formatUint n) 0 = .ok n := by
  induction n using Nat.strong_induction_on with
  | _ n ih =>
    by_cases hs : n < 10
    · rw [formatUint_small n hs]
      have hd := digitChar_spec n hs
      unfold isDigit at hd
      simp only [parseUintLoop, hd.1, and_self, if_true, hd.2]
      unfold maxUint64 at *
      simp
      omega
    · rw [formatUint_large n (by omega)]
      have hlt : n / 10 < n := Nat.div_lt_self (by omega) (by omega)
      rw [parseUintLoop_append _ _ 0 (n / 10) (ih (n / 10) hlt (by omega))]
      have hd := digitChar_spec (n % 10) (Nat.mod_lt _ (by omega))
      unfold isDigit at hd
      simp only [parseUintLoop, hd.1, and_self, if_true, hd.2]
      unfold maxUint64 at *
      have h1 : ¬ (n / 10 ≥ 18446744073709551615 / 10 + 1) := by omega
      have h2 : ¬ (n / 10 * 10 + n % 10 > 18446744073709551615) := by omega
      have h3 : n / 10 * 10 + n % 10 = n := by omega
      simp only [h1, if_false, h3]
      rw [if_neg (by omega)]

theorem ParseUint_formatUint (n : Nat) (h : n ≤ maxUint64) :
    ParseUint (formatUint n) = .ok n := by
  unfold ParseUint
  simp only [formatUint_ne_nil, if_false]
  exact parseUintLoop_formatUint n h

theorem decimalValue_formatUint (n : Nat) : decimalValue (formatUint n) = n := by
  induction n using Nat.strong_induction_on with
  | _ n ih =>
    by_cases hs : n < 10
    · rw [formatUint_small n hs]
      have hd := (digitChar_spec n hs).2
      simp only [decimalValue, List.foldl, Nat.zero_mul, Nat.zero_add, hd]
    · rw [formatUint_large n (by omega)]
      have hlt : n / 10 < n := Nat.div_lt_self (by omega) (by omega)
      have := ih (n / 10) hlt
      unfold decimalValue at this ⊢
      have hd := (digitChar_spec (n % 10) (Nat.mod_lt _ (by omega))).2
      rw [List.foldl_append, this]
      simp only [List.foldl, hd]
      omega

theorem formatUint_injective (m n : Nat) (h : formatUint m = formatUint n) : m = n := by
  rw [← decimalValue_formatUint m, ← decimalValue_formatUint n, h]

/-! ## Splitting, joining and cleaning paths -/

theorem stringsSplit_no_sep (sep : Char) (e : GoString) (h : sep ∉ e) :
    stringsSplit sep e = [e] := by
  induction e with
  | nil => rfl
  | cons c cs ih =>
    have hc : c ≠ sep := fun hh => h (by simp [hh])
    have hcs : sep ∉ cs := fun hh => h (List.mem_cons_of_mem _ hh)
    simp [stringsSplit, hc, ih hcs]

theorem stringsSplit_append (sep : Char) (e r : GoString) (h : sep ∉ e) :
    stringsSplit sep (e ++ sep :: r) = e :: stringsSplit sep r := by
  induction e with
  | nil => simp [stringsSplit]
  | cons c cs ih =>
    have hc : c ≠ sep := fun hh => h (by simp [hh])
    have hcs : sep ∉ cs := fun hh => h (List.mem_cons_of_mem _ hh)
    simp [stringsSplit, hc, ih hcs]

theorem stringsSplitN_append (sep : Char) (n : Nat) (e r : GoString) (h : sep ∉ e) :
    stringsSplitN sep (n + 2) (e ++ sep :: r) = e :: stringsSplitN sep (n + 1) r := by
  induction e with
  | nil => simp [stringsSplitN]
  | cons c cs ih =>
    have hc : c ≠ sep := fun hh => h (by simp [hh])
    have hcs : sep ∉ cs := fun hh => h (List.mem_cons_of_mem _ hh)
    simp [stringsSplitN, hc, ih hcs]

theorem stringsJoin_cons_cons (a b : GoString) (rest : List GoString) (sep : GoString) :
    stringsJoin (a :: b :: rest) sep = a ++ sep ++ stringsJoin (b :: rest) sep := rfl

theorem stringsJoin_snoc (es : List GoString) (x sep : GoString) (hne : es ≠ []) :
    stringsJoin (es ++ [x]) sep = stringsJoin es sep ++ sep ++ x := by
  induction es with
  | nil => exact absurd rfl hne
  | cons a rest ih =>
    cases rest with
    | nil => rfl
    | cons b rest =>
      have := ih (by simp)
      simp only [List.cons_append, stringsJoin_cons_cons] at this ⊢
      rw [this]; simp

theorem stringsSplit_join (es : List GoString) (hne : es ≠ []) (h : ∀ e ∈ es, '/' ∉ e) :
    stringsSplit '/' (stringsJoin es ['/']) = es := by
  induction es with
  | nil => exact absurd rfl hne
  | cons a rest ih =>
    cases rest with
    | nil => exact stringsSplit_no_sep _ _ (h a (by simp))
    | cons b rest =>
      rw [stringsJoin_cons_cons, List.append_assoc, List.singleton_append,
        stringsSplit_append _ _ _ (h a (by simp)),
        ih (by simp) (fun e he => h e (List.mem_cons_of_mem _ he))]

theorem cleanStep_plain (rooted : Bool) (kept : List GoString) (e : GoString)
    (h : plainElem e) : cleanStep rooted kept e = e :: kept := by
  obtain ⟨h1, _, h3, h4⟩ := h
  simp [cleanStep, h1, h3, h4]

theorem foldl_cleanStep_plain (rooted : Bool) (es : List GoString) :
    ∀ kept, (∀ e ∈ es, plainElem e) → es.foldl (cleanStep rooted) kept = es.reverse ++ kept := by
  induction es with
  | nil => intro kept _; rfl
  | cons a rest ih =>
    intro kept h
    rw [List.foldl_cons, cleanStep_plain _ _ _ (h a (by simp)),
      ih _ (fun e he => h e (List.mem_cons_of_mem _ he))]
    simp

theorem stringsJoin_head (a : GoString) (rest : List GoString) (sep : GoString) :
    ∃ tail, stringsJoin (a :: rest) sep = a ++ tail := by
  cases rest with
  | nil => exact ⟨[], by simp [stringsJoin]⟩
  | cons b rest => exact ⟨sep ++ stringsJoin (b :: rest) sep, by
      rw [stringsJoin_cons_cons, List.append_assoc]⟩

theorem pathClean_join (es : List GoString) (hne : es ≠ []) (h : ∀ e ∈ es, plainElem e) :
    pathClean (stringsJoin es ['/']) = stringsJoin es ['/'] := by
  cases es with
  | nil => exact absurd rfl hne
  | cons a rest =>
    obtain ⟨tail, ht⟩ := stringsJoin_head a rest ['/']
    obtain ⟨ha1, ha2, _, _⟩ := h a (by simp)
    obtain ⟨c, cs, hacs⟩ := List.exists_cons_of_ne_nil ha1
    have hc : c ≠ '/' := fun hh => ha2 (by rw [hacs, hh]; simp)
    have hsplit := stringsSplit_join (a :: rest) hne (fun e he => (h e he).2.1)
    have hnil : stringsJoin (a :: rest) ['/'] ≠ [] := by rw [ht, hacs]; simp
    have hroot : ¬ (stringsJoin (a :: rest) ['/']).head? = some '/' := by
      rw [ht, hacs]; simp [hc]
    unfold pathClean
    simp only [hnil, hroot, if_false, hsplit, decide_False, List.nil_append]
    rw [foldl_cleanStep_plain false _ _ h]
    simp [hnil]

theorem pathJoin_plain (es : List GoString) (hne : es ≠ []) (h : ∀ e ∈ es, plainElem e) :
    pathJoin es = stringsJoin es ['/'] := by
  have hf : es.filter (fun e => decide (e ≠ [])) = es :=
    List.filter_eq_self.2 (fun e he => by simpa using (h e he).1)
  unfold pathJoin
  simp only [hf, hne, if_false]
  exact pathClean_join es hne h

theorem pathJoin_snoc (es : List GoString) (x : GoString) (hne : es ≠ [])
    (h : ∀ e ∈ es, plainElem e) (hx : plainElem x) :
    pathJoin [stringsJoin es ['/'], x] = stringsJoin (es ++ [x]) ['/'] := by
  cases es with
  | nil => exact absurd rfl hne
  | cons a rest =>
    obtain ⟨tail, ht⟩ := stringsJoin_head a rest ['/']
    have h1 : stringsJoin (a :: rest) ['/'] ≠ [] := by
      rw [ht]; simp [(h a (by simp)).1]
    have hall : ∀ e ∈ (a :: rest) ++ [x], plainElem e := by
      intro e he
      rcases List.mem_append.1 he with he | he
      · exact h e he
      · simp only [List.mem_singleton] at he; rw [he]; exact hx
    have := pathClean_join ((a :: rest) ++ [x]) (by simp) hall
    rw [stringsJoin_snoc _ _ _ hne] at this ⊢
    unfold pathJoin
    simp only [List.filter, h1, hx.1, ne_eq, not_false_eq_true, decide_True, if_false]
    simpa [stringsJoin] using this

/-! ## Hashes and their segments -/

theorem md5Segments_eq (h : GoString) (hlen : h.length = 32) :
    md5Segments h = .ok (hashSegments h) := by
  simp [md5Segments, slice, hlen, hashSegments, segment, bind, Except.bind, pure, Except.pure]

theorem md5Segments_short (h : GoString) (hlen : h.length < 32) :
    md5Segments h = .error .panicOutOfRange := by
  have h7 : ¬ (32 ≤ h.length) := by omega
  simp only [md5Segments, slice, bind, Except.bind]
  repeat' split
  all_goals first | rfl | (rename_i hh; (try split at hh) <;> simp_all)

theorem join_range_segments (h : GoString) (k : Nat) :
    ((List.range k).map (segment h)).flatten = h.take (4 * k) := by
  induction k with
  | zero => simp
  | succ k ih =>
    rw [List.range_succ, List.map_append, List.flatten_append, ih]
    simp only [List.map_cons, List.map_nil, List.flatten_cons, List.flatten_nil, List.append_nil,
      segment]
    have h1 : h.take (4 * k) = (h.take (4 * k + 4)).take (4 * k) := by
      rw [List.take_take]; congr 1; omega
    rw [h1, List.take_append_drop]
    congr 1

theorem hashSegments_join (h : GoString) (hlen : h.length = 32) :
    (hashSegments h).flatten = h := by
  have := join_range_segments h 8
  rw [List.take_of_length_le (by omega)] at this
  exact this

theorem segment_length (h : GoString) (hlen : h.length = 32) (i : Nat) (hi : i < 8) :
    (segment h i).length = 4 := by
  simp [segment, hlen]; omega

theorem segment_mem (h : GoString) (i : Nat) (c : Char) (hc : c ∈ segment h i) : c ∈ h :=
  List.mem_of_mem_take (List.mem_of_mem_drop hc)

theorem hashSegments_mem (h e : GoString) (he : e ∈ hashSegments h) :
    ∃ i, i < 8 ∧ e = segment h i := by
  simp only [hashSegments, List.mem_cons, List.mem_singleton, List.not_mem_nil, or_false] at he
  rcases he with he | he | he | he | he | he | he | he
  · exact ⟨0, by omega, he⟩
  · exact ⟨1, by omega, he⟩
  · exact ⟨2, by omega, he⟩
  · exact ⟨3, by omega, he⟩
  · exact ⟨4, by omega, he⟩
  · exact ⟨5, by omega, he⟩
  · exact ⟨6, by omega, he⟩
  · exact ⟨7, by omega, he⟩

theorem isHexChar_ne (c x : Char) (hc : isHexChar c) (hx : ¬ isHexChar x) : c ≠ x :=
  fun e => hx (e ▸ hc)

theorem isDigit_ne (c x : Char) (hc : isDigit c) (hx : ¬ isDigit x) : c ≠ x :=
  fun e => hx (e ▸ hc)

theorem not_mem_of_hex (h : GoString) (x : Char) (hh : ∀ c ∈ h, isHexChar c)
    (hx : ¬ isHexChar x) : x ∉ h :=
  fun hm => hx (hh x hm)

theorem not_mem_of_digits (s : GoString) (x : Char) (hs : ∀ c ∈ s, isDigit c)
    (hx : ¬ isDigit x) : x ∉ s :=
  fun hm => hx (hs x hm)

theorem plainElem_of_chars (e : GoString) (hne : e ≠ []) (h1 : '/' ∉ e) (h2 : '.' ∉ e) :
    plainElem e := by
  refine ⟨hne, h1, ?_, ?_⟩
  · intro he; rw [he] at h2; simp at h2
  · intro he; rw [he] at h2; simp at h2

theorem plainElem_segment (h : GoString) (hh : hexHash h) (i : Nat) (hi : i < 8) :
    plainElem (segment h i) := by
  have hl := segment_length h hh.1 i hi
  have hex : ∀ c ∈ segment h i, isHexChar c := fun c hc => hh.2 c (segment_mem h i c hc)
  refine plainElem_of_chars _ ?_ (not_mem_of_hex _ _ hex (by decide))
    (not_mem_of_hex _ _ hex (by decide))
  intro he; rw [he] at hl; simp at hl

theorem plainElem_hashSegments (h : GoString) (hh : hexHash h) :
    ∀ e ∈ hashSegments h, plainElem e := by
  intro e he
  obtain ⟨i, hi, rfl⟩ := hashSegments_mem h e he
  exact plainElem_segment h hh i hi

theorem plainElem_formatUint (n : Nat) : plainElem (formatUint n) :=
  plainElem_of_chars _ (formatUint_ne_nil n)
    (not_mem_of_digits _ _ (formatUint_isDigit n) (by decide))
    (not_mem_of_digits _ _ (formatUint_isDigit n) (by decide))

theorem plainElem_BuildInDataName : plainElem BuildInDataName := by decide

/-! ## The derived directory and data file -/

theorem hexHash_ne_nil (h : GoString) (hh : hexHash h) : h ≠ [] := by
  intro he; have := hh.1; rw [he] at this; simp at this

theorem FileIDV2_ne_FileIDV1 : FileIDV2 ≠ FileIDV1 := by decide

theorem getDataDirForVer_V1 (fi : fileInfo) (hh : hexHash fi.fileMD5) :
    fi.getDataDirForVer FileIDV1 = .ok (stringsJoin (hashSegments fi.fileMD5) ['/']) := by
  have hp := pathJoin_plain (hashSegments fi.fileMD5) (by simp [hashSegments])
    (plainElem_hashSegments _ hh)
  simp [fileInfo.getDataDirForVer, hexHash_ne_nil _ hh, md5Segments_eq _ hh.1, bind,
    Except.bind, pure, Except.pure, hp]

theorem getDataDirForVer_V2 (fi : fileInfo) (hh : hexHash fi.fileMD5) :
    fi.getDataDirForVer FileIDV2 =
      .ok (stringsJoin (formatUint fi.fileSize :: hashSegments fi.fileMD5) ['/']) := by
  have hall : ∀ e ∈ formatUint fi.fileSize :: hashSegments fi.fileMD5, plainElem e := by
    intro e he
    rcases List.mem_cons.1 he with he | he
    · rw [he]; exact plainElem_formatUint _
    · exact plainElem_hashSegments _ hh e he
  have hp := pathJoin_plain _ (by simp) hall
  simp [fileInfo.getDataDirForVer, hexHash_ne_nil _ hh, md5Segments_eq _ hh.1, bind,
    Except.bind, pure, Except.pure, hp, FileIDV2_ne_FileIDV1]

theorem getDataFileForVer_V1 (fi : fileInfo) (hh : hexHash fi.fileMD5) :
    fi.getDataFileForVer FileIDV1 =
      .ok (stringsJoin (hashSegments fi.fileMD5 ++ [formatUint fi.fileSize]) ['/']) := by
  have hp := pathJoin_snoc (hashSegments fi.fileMD5) (formatUint fi.fileSize)
    (by simp [hashSegments]) (plainElem_hashSegments _ hh) (plainElem_formatUint _)
  simp [fileInfo.getDataFileForVer, hexHash_ne_nil _ hh, getDataDirForVer_V1 fi hh, bind,
    Except.bind, pure, Except.pure, hp]

theorem getDataFileForVer_V2 (fi : fileInfo) (hh : hexHash fi.fileMD5) :
    fi.getDataFileForVer FileIDV2 =
      .ok (stringsJoin ((formatUint fi.fileSize :: hashSegments fi.fileMD5) ++ [BuildInDataName])
        ['/']) := by
  have hall : ∀ e ∈ formatUint fi.fileSize :: hashSegments fi.fileMD5, plainElem e := by
    intro e he
    rcases List.mem_cons.1 he with he | he
    · rw [he]; exact plainElem_formatUint _
    · exact plainElem_hashSegments _ hh e he
  have hp := pathJoin_snoc _ BuildInDataName (by simp) hall plainElem_BuildInDataName
  simp [fileInfo.getDataFileForVer, hexHash_ne_nil _ hh, getDataDirForVer_V2 fi hh, bind,
    Except.bind, pure, Except.pure, hp, FileIDV2_ne_FileIDV1]

theorem hashSegments_injective (g h : GoString) (hg : g.length = 32) (hh : h.length = 32)
    (e : hashSegments g = hashSegments h) : g = h := by
  rw [← hashSegments_join g hg, ← hashSegments_join h hh, e]

theorem hashSegments_length (h : GoString) : (hashSegments h).length = 8 := rfl

theorem stringsJoin_injective (xs ys : List GoString) (hx : xs ≠ []) (hy : ys ≠ [])
    (hxs : ∀ e ∈ xs, plainElem e) (hys : ∀ e ∈ ys, plainElem e)
    (e : stringsJoin xs ['/'] = stringsJoin ys ['/']) : xs = ys := by
  rw [← stringsSplit_join xs hx (fun e he => (hxs e he).2.1),
    ← stringsSplit_join ys hy (fun e he => (hys e he).2.1), e]

theorem plainElem_V1_file (fi : fileInfo) (hh : hexHash fi.fileMD5) :
    ∀ e ∈ hashSegments fi.fileMD5 ++ [formatUint fi.fileSize], plainElem e := by
  intro e he
  rcases List.mem_append.1 he with he | he
  · exact plainElem_hashSegments _ hh e he
  · simp only [List.mem_singleton] at he; rw [he]; exact plainElem_formatUint _

theorem plainElem_V2_file (fi : fileInfo) (hh : hexHash fi.fileMD5) :
    ∀ e ∈ (formatUint fi.fileSize :: hashSegments fi.fileMD5) ++ [BuildInDataName],
      plainElem e := by
  intro e he
  rcases List.mem_append.1 he with he | he
  · rcases List.mem_cons.1 he with he | he
    · rw [he]; exact plainElem_formatUint _
    · exact plainElem_hashSegments _ hh e he
  · simp only [List.mem_singleton] at he; rw [he]; exact plainElem_BuildInDataName

/-- C3: for an identity with a 32-digit hexadecimal hash `h` and size `n`, the data file derived
for scheme V1 is `h0/h1/h2/h3/h4/h5/h6/h7/<decimal n>` and the one derived for scheme V2 is
`<decimal n>/h0/h1/h2/h3/h4/h5/h6/h7/_data_`, where `h0 .. h7` are the eight consecutive
4-byte segments of `h`, whatever scheme version the identity carries. -/
theorem C3_data_file_layout (fi : fileInfo) (hh : hexHash fi.fileMD5) :
    fi.getDataFileForVer FileIDV1 =
        .ok (stringsJoin [segment fi.fileMD5 0, segment fi.fileMD5 1, segment fi.fileMD5 2,
          segment fi.fileMD5 3, segment fi.fileMD5 4, segment fi.fileMD5 5, segment fi.fileMD5 6,
          segment fi.fileMD5 7, formatUint fi.fileSize] ['/'])
    ∧ fi.getDataFileForVer FileIDV2 =
        .ok (stringsJoin [formatUint fi.fileSize, segment fi.fileMD5 0, segment fi.fileMD5 1,
          segment fi.fileMD5 2, segment fi.fileMD5 3, segment fi.fileMD5 4, segment fi.fileMD5 5,
          segment fi.fileMD5 6, segment fi.fileMD5 7, BuildInDataName] ['/'])
    ∧ fi.fileMD5 = segment fi.fileMD5 0 ++ segment fi.fileMD5 1 ++ segment fi.fileMD5 2 ++
        segment fi.fileMD5 3 ++ segment fi.fileMD5 4 ++ segment fi.fileMD5 5 ++
        segment fi.fileMD5 6 ++ segment fi.fileMD5 7
    ∧ ∀ i, i < 8 → (segment fi.fileMD5 i).length = 4 := by
  refine ⟨getDataFileForVer_V1 fi hh, getDataFileForVer_V2 fi hh, ?_,
    fun i hi => segment_length _ hh.1 i hi⟩
  have := hashSegments_join fi.fileMD5 hh.1
  simp only [hashSegments, List.flatten_cons, List.flatten_nil, List.append_nil] at this
  conv_lhs => rw [← this]
  simp only [List.append_assoc]

/-- C3 at the hash of the test suite, size 7. -/
theorem C3_data_file_layout_witness :
    hexHash "81d95db337a18c65384d35ba7ea2efda".toList
    ∧ (fileInfo.mk 2 "81d95db337a18c65384d35ba7ea2efda".toList 7 "ab.test".toList
        []).getDataFileForVer FileIDV1
        = .ok "81d9/5db3/37a1/8c65/384d/35ba/7ea2/efda/7".toList
    ∧ (fileInfo.mk 2 "81d95db337a18c65384d35ba7ea2efda".toList 7 "ab.test".toList
        []).getDataFileForVer FileIDV2
        = .ok "7/81d9/5db3/37a1/8c65/384d/35ba/7ea2/efda/_data_".toList :=
  ⟨by decide,
   (C3_data_file_layout
      (fileInfo.mk 2 "81d95db337a18c65384d35ba7ea2efda".toList 7 "ab.test".toList [])
      (by decide)).1,
   (C3_data_file_layout
      (fileInfo.mk 2 "81d95db337a18c65384d35ba7ea2efda".toList 7 "ab.test".toList [])
      (by decide)).2.1⟩

/-- C4: for a scheme version `v` in {1, 2} and two identities with 32-digit hexadecimal hashes,
the data-file paths derived for `v` exist, and they are equal exactly when the two identities
have the same hash and the same size. -/
theorem C4_data_path_injective (v : Nat) (hv : v = FileIDV1 ∨ v = FileIDV2) (a b : fileInfo)
    (ha : hexHash a.fileMD5) (hb : hexHash b.fileMD5) :
    (∃ p q, a.getDataFileForVer v = .ok p ∧ b.getDataFileForVer v = .ok q)
    ∧ (a.getDataFileForVer v = b.getDataFileForVer v ↔
        a.fileMD5 = b.fileMD5 ∧ a.fileSize = b.fileSize) := by
  rcases hv with hv | hv <;> subst hv
  · rw [getDataFileForVer_V1 a ha, getDataFileForVer_V1 b hb]
    refine ⟨⟨_, _, rfl, rfl⟩, ?_, ?_⟩
    · intro e
      have e1 := stringsJoin_injective _ _ (by simp) (by simp) (plainElem_V1_file a ha)
        (plainElem_V1_file b hb) (Except.ok.inj e)
      obtain ⟨e2, e3⟩ := List.append_inj e1 (by simp [hashSegments_length])
      exact ⟨hashSegments_injective _ _ ha.1 hb.1 e2,
        formatUint_injective _ _ (List.singleton_inj.1 e3)⟩
    · rintro ⟨e1, e2⟩
      rw [e1, e2]
  · rw [getDataFileForVer_V2 a ha, getDataFileForVer_V2 b hb]
    refine ⟨⟨_, _, rfl, rfl⟩, ?_, ?_⟩
    · intro e
      have e1 := stringsJoin_injective _ _ (by simp) (by simp) (plainElem_V2_file a ha)
        (plainElem_V2_file b hb) (Except.ok.inj e)
      obtain ⟨e2, _⟩ := List.append_inj e1 (by simp [hashSegments_length])
      obtain ⟨e3, e4⟩ := List.cons.inj e2
      exact ⟨hashSegments_injective _ _ ha.1 hb.1 e4, formatUint_injective _ _ e3⟩
    · rintro ⟨e1, e2⟩
      rw [e1, e2]

/-- C4 at two identities that differ in one hash digit only: the V1 paths differ. -/
theorem C4_data_path_injective_witness :
    (FileIDV1 = FileIDV1 ∨ FileIDV1 = FileIDV2)
    ∧ hexHash "81d95db337a18c65384d35ba7ea2efda".toList
    ∧ hexHash "81d95db337a18c65384d35ba7ea2efdb".toList
    ∧ ¬ ((fileInfo.mk 1 "81d95db337a18c65384d35ba7ea2efda".toList 7 [] []).getDataFileForVer
          FileIDV1
        = (fileInfo.mk 1 "81d95db337a18c65384d35ba7ea2efdb".toList 7 [] []).getDataFileForVer
          FileIDV1) :=
  ⟨Or.inl rfl, by decide, by decide, fun e =>
    absurd ((C4_data_path_injective FileIDV1 (Or.inl rfl)
      (fileInfo.mk 1 "81d95db337a18c65384d35ba7ea2efda".toList 7 [] [])
      (fileInfo.mk 1 "81d95db337a18c65384d35ba7ea2efdb".toList 7 [] [])
      (by decide) (by decide)).2.1 e).1 (by decide)⟩

/-! ## Slices, trimming and searching -/

theorem slice_eq (s A B C : GoString) (lo hi : Nat) (hs : s = A ++ (B ++ C))
    (hlo : lo = A.length) (hhi : hi = A.length + B.length) : slice s lo hi = .ok B := by
  subst hs hlo hhi
  have h1 : A.length ≤ A.length + B.length ∧
      A.length + B.length ≤ (A ++ (B ++ C)).length := by
    simp only [List.length_append]; omega
  unfold slice
  rw [if_pos h1, ← List.append_assoc, List.take_left' (by simp), List.drop_left]

theorem sliceFrom_eq (s A C : GoString) (lo : Nat) (hs : s = A ++ C) (hlo : lo = A.length) :
    sliceFrom s lo = .ok C := by
  subst hs hlo
  unfold sliceFrom
  rw [if_pos (by simp), List.drop_left]

theorem index_eq (s A C : GoString) (c : Char) (i : Nat) (hs : s = A ++ c :: C)
    (hi : i = A.length) : index s i = .ok c := by
  subst hs hi
  have : (A ++ c :: C).get? A.length = some c := by
    rw [List.get?_eq_getElem?, List.getElem?_append_right (Nat.le_refl _)]
    simp
  simp only [index, this]

theorem dropWhile_head (p : Char → Bool) (s : GoString)
    (h : ∀ c, s.head? = some c → p c = false) : s.dropWhile p = s := by
  cases s with
  | nil => rfl
  | cons c cs => simp [List.dropWhile, h c rfl]

theorem stringsTrim_eq_self (s cutset : GoString)
    (h1 : ∀ c, s.head? = some c → c ∉ cutset) (h2 : ∀ c, s.getLast? = some c → c ∉ cutset) :
    stringsTrim s cutset = s := by
  unfold stringsTrim
  rw [dropWhile_head _ s (fun c hc => by simpa using h1 c hc),
    dropWhile_head _ s.reverse (fun c hc => by
      rw [List.head?_reverse] at hc
      simpa using h2 c hc), List.reverse_reverse]

theorem getLast?_append_cons (A : GoString) (c : Char) (C : GoString) :
    (A ++ c :: C).getLast? = (c :: C).getLast? := by
  induction A with
  | nil => rfl
  | cons a A ih =>
    cases hA : A ++ c :: C with
    | nil => simp at hA
    | cons b B =>
      rw [List.cons_append, hA, List.getLast?_cons_cons, ← hA, ih]

theorem stringsIndex_head (c x : Char) (cs : GoString) :
    stringsIndex (c :: cs) [x] = some 0 ↔ x = c := by
  unfold stringsIndex
  by_cases h : x = c
  · simp [List.isPrefixOf, h]
  · simp only [List.isPrefixOf, h, beq_iff_eq, Bool.and_true, if_false, iff_false]
    cases stringsIndex cs [x] <;> simp

theorem stringsIndex_none (a : GoString) (x : Char) (hx : x ∉ a) : stringsIndex a [x] = none := by
  induction a with
  | nil => simp [stringsIndex]
  | cons c cs ih =>
    have hc : x ≠ c := fun hh => hx (by simp [hh])
    have hcs : x ∉ cs := fun hh => hx (List.mem_cons_of_mem _ hh)
    simp [stringsIndex, List.isPrefixOf, hc, ih hcs]

theorem stringsIndex_append (a t : GoString) (x : Char) (hx : x ∉ a) :
    stringsIndex (a ++ x :: t) [x] = some a.length := by
  induction a with
  | nil => simp [stringsIndex, List.isPrefixOf]
  | cons c cs ih =>
    have hc : x ≠ c := fun hh => hx (by simp [hh])
    have hcs : x ∉ cs := fun hh => hx (List.mem_cons_of_mem _ hh)
    simp [stringsIndex, List.isPrefixOf, hc, ih hcs]

theorem stringsLastIndex_none (a : GoString) (x : Char) :
    stringsLastIndex a [x] = none ↔ x ∉ a := by
  induction a with
  | nil => simp [stringsLastIndex]
  | cons c cs ih =>
    unfold stringsLastIndex
    cases h : stringsLastIndex cs [x] with
    | some i =>
      have : ¬ x ∉ cs := fun hh => by rw [ih.2 hh] at h; cases h
      simp only [reduceCtorEq, false_iff, not_not]
      exact List.mem_cons_of_mem _ (not_not.1 this)
    | none =>
      have hcs := ih.1 h
      by_cases hc : x = c
      · simp [List.isPrefixOf, hc]
      · simp [List.isPrefixOf, hc, hcs]

theorem stringsLastIndex_some (a : GoString) (x : Char) (i : Nat)
    (h : stringsLastIndex a [x] = some i) :
    ∃ t, a = a.take i ++ x :: t ∧ x ∉ t ∧ i = (a.take i).length := by
  induction a generalizing i with
  | nil => simp [stringsLastIndex] at h
  | cons c cs ih =>
    unfold stringsLastIndex at h
    cases hcs : stringsLastIndex cs [x] with
    | some j =>
      rw [hcs] at h
      simp only [Option.some.injEq] at h
      subst h
      obtain ⟨t, ht1, ht2, ht3⟩ := ih j hcs
      refine ⟨t, ?_, ht2, ?_⟩
      · simp only [List.take_succ_cons, List.cons_append]; rw [← ht1]
      · simp only [List.take_succ_cons, List.length_cons]; omega
    | none =>
      rw [hcs] at h
      simp only [List.isPrefixOf, beq_iff_eq, Bool.and_true] at h
      split_ifs at h with hc
      simp only [Option.some.injEq] at h
      subst h
      subst hc
      exact ⟨cs, by simp, (stringsLastIndex_none cs x).1 hcs, by simp⟩

/-! ## Decoding identifiers -/

theorem fileIDVersionOf_v2 (rest : GoString) :
    fileIDVersionOf ('v' :: '2' :: '-' :: rest) = .ok FileIDV2 := by
  simp [fileIDVersionOf, stringsIndex, List.isPrefixOf]

theorem stringsSplitN_v2 (a b c : GoString) (ha : '-' ∉ a) (hb : '-' ∉ b) :
    stringsSplitN '-' 4 ('v' :: '2' :: '-' :: (a ++ '-' :: (b ++ '-' :: c))) =
      [['v', '2'], a, b, c] := by
  have h0 : ('v' :: '2' :: '-' :: (a ++ '-' :: (b ++ '-' :: c)))
      = ['v', '2'] ++ '-' :: (a ++ '-' :: (b ++ '-' :: c)) := rfl
  rw [h0, stringsSplitN_append '-' 2 _ _ (by decide), stringsSplitN_append '-' 1 _ _ ha,
    stringsSplitN_append '-' 0 _ _ hb]
  simp [stringsSplitN]

theorem decode_v2 (h name : GoString) (n : Nat) (hn : n ≤ maxUint64) (hh : '-' ∉ h)
    (hname : ¬ endsInCutset name) :
    newFileInfoFromFileID ('v' :: '2' :: '-' :: (formatUint n ++ '-' :: (h ++ '-' :: name))) =
      .ok { fileIDVersion := FileIDV2, fileMD5 := h, fileSize := n,
            fileName := decodedV2Name name } := by
  have hlast : ∀ c, ('v' :: '2' :: '-' :: (formatUint n ++ '-' :: (h ++ '-' :: name))).getLast?
      = some c → c ∉ [' ', '\t', '\r', '\n'] := by
    intro c hc hm
    have e : ('v' :: '2' :: '-' :: (formatUint n ++ '-' :: (h ++ '-' :: name)))
        = ('v' :: '2' :: '-' :: (formatUint n ++ '-' :: h)) ++ '-' :: name := by simp
    rw [e, getLast?_append_cons] at hc
    cases name with
    | nil =>
      simp only [List.getLast?_singleton, Option.some.injEq] at hc
      subst hc
      revert hm; decide
    | cons d ds =>
      rw [List.getLast?_cons_cons] at hc
      exact hname ⟨c, hc, hm⟩
  have htrim := stringsTrim_eq_self _ [' ', '\t', '\r', '\n']
    (fun c hc => by
      simp only [List.head?_cons, Option.some.injEq] at hc
      subst hc; decide) hlast
  have hsplit := stringsSplitN_v2 (formatUint n) h name
    (not_mem_of_digits _ _ (formatUint_isDigit n) (by decide)) hh
  unfold newFileInfoFromFileID
  simp only [htrim, fileIDVersionOf_v2, hsplit, ParseUint_formatUint n hn, bind, Except.bind,
    pure, Except.pure, FileIDV2_ne_FileIDV1, if_false, if_true, decodedV2Name]
  by_cases hd : name = BuildInDataName
  · simp [hd, FileIDV2_ne_FileIDV1]
  · simp [hd]

theorem fileIDVersionOf_v1 (h rest : GoString) (hh : hexHash h) (hrest : 2 ≤ rest.length) :
    fileIDVersionOf (h ++ '-' :: rest) = .ok FileIDV1 := by
  obtain ⟨c, cs, hcs⟩ := List.exists_cons_of_ne_nil (hexHash_ne_nil h hh)
  have hc : ¬ ('v' = c) := fun e => by
    have := hh.2 c (by rw [hcs]; simp)
    rw [← e] at this
    revert this; decide
  have h1 : ¬ stringsIndex (h ++ '-' :: rest) ['v'] = some 0 := by
    rw [hcs, List.cons_append, stringsIndex_head]; exact hc
  have h2 : ¬ (h ++ '-' :: rest).length ≤ 34 := by
    simp only [List.length_append, List.length_cons, hh.1]; omega
  have h3 := index_eq (h ++ '-' :: rest) h rest '-' 32 rfl hh.1.symm
  have hl := hh.1
  simp [fileIDVersionOf, h1, h3, bind, Except.bind]
  omega

theorem decode_v1 (h s : GoString) (n : Nat) (hn : n ≤ maxUint64) (hh : hexHash h)
    (hs : (s = [] ∧ 10 ≤ n) ∨ ∃ t, s = '.' :: t) (hend : ¬ endsInCutset s) :
    newFileInfoFromFileID (h ++ '-' :: (formatUint n ++ s)) =
      .ok { fileIDVersion := FileIDV1, fileMD5 := h, fileSize := n,
            fileName := if s = [] then BuiltInFileName else s } := by
  obtain ⟨c, cs, hcs⟩ := List.exists_cons_of_ne_nil (hexHash_ne_nil h hh)
  have hdig := formatUint_isDigit n
  have hfne := formatUint_ne_nil n
  -- the identifier is left as it is by the trimming
  have hhead : ∀ d, (h ++ '-' :: (formatUint n ++ s)).head? = some d →
      d ∉ [' ', '\t', '\r', '\n'] := by
    intro d hd hm
    rw [hcs] at hd
    simp only [List.cons_append, List.head?_cons, Option.some.injEq] at hd
    have := hh.2 c (by rw [hcs]; simp)
    rw [hd] at this
    revert this; revert hm; simp only [List.mem_cons, List.mem_singleton, List.not_mem_nil]
    rintro (e | e | e | e | e) <;> first | (subst e; decide) | exact False.elim e
  have hlast : ∀ d, (h ++ '-' :: (formatUint n ++ s)).getLast? = some d →
      d ∉ [' ', '\t', '\r', '\n'] := by
    intro d hd hm
    cases s with
    | nil =>
      obtain ⟨f, fs, hfs⟩ := List.exists_cons_of_ne_nil hfne
      have hl : (formatUint n).getLast? = some d := by
        rw [List.append_nil, getLast?_append_cons, hfs, List.getLast?_cons_cons, ← hfs] at hd
        exact hd
      have := hdig d (List.mem_of_getLast?_eq_some hl)
      revert this; revert hm; simp only [List.mem_cons, List.mem_singleton, List.not_mem_nil]
      rintro (e | e | e | e | e) <;> first | (subst e; decide) | exact False.elim e
    | cons x xs =>
      have e : h ++ '-' :: (formatUint n ++ x :: xs) = (h ++ '-' :: formatUint n) ++ x :: xs := by
        simp
      rw [e, getLast?_append_cons] at hd
      exact hend ⟨d, hd, hm⟩
  have htrim := stringsTrim_eq_self _ [' ', '\t', '\r', '\n'] hhead hlast
  have hlen : 2 ≤ (formatUint n ++ s).length := by
    rcases hs with ⟨_, h10⟩ | ⟨t, ht⟩
    · have := formatUint_length_two n h10
      simp only [List.length_append]; omega
    · have := List.length_pos.2 hfne
      simp only [List.length_append, ht, List.length_cons]; omega
  have hver := fileIDVersionOf_v1 h (formatUint n ++ s) hh hlen
  have hmd5 := slice_eq (h ++ '-' :: (formatUint n ++ s)) [] h ('-' :: (formatUint n ++ s)) 0 32
    rfl rfl (by simp [hh.1])
  have hsep := slice_eq (h ++ '-' :: (formatUint n ++ s)) h ['-'] (formatUint n ++ s) 32 33
    rfl hh.1.symm (by simp [hh.1])
  have hnodot : '.' ∉ h ++ '-' :: formatUint n := by
    intro hm
    rcases List.mem_append.1 hm with hm | hm
    · exact not_mem_of_hex _ _ hh.2 (by decide) hm
    · rcases List.mem_cons.1 hm with hm | hm
      · revert hm; decide
      · exact not_mem_of_digits _ _ hdig (by decide) hm
  unfold newFileInfoFromFileID
  simp only [htrim, hver, hmd5, hsep, bind, Except.bind, pure, Except.pure, if_true]
  rcases hs with ⟨hs0, _⟩ | ⟨t, ht⟩
  · subst hs0
    have hidx : stringsIndex (h ++ '-' :: formatUint n) ['.'] = none :=
      stringsIndex_none _ _ hnodot
    have hstr := sliceFrom_eq (h ++ '-' :: formatUint n) (h ++ ['-']) (formatUint n) 33
      (by simp) (by simp [hh.1])
    simp [hidx, hstr, ParseUint_formatUint n hn, FileIDV1]
  · subst ht
    have hidx : stringsIndex (h ++ '-' :: (formatUint n ++ '.' :: t)) ['.']
        = some (33 + (formatUint n).length) := by
      have e : h ++ '-' :: (formatUint n ++ '.' :: t) = (h ++ '-' :: formatUint n) ++ '.' :: t := by
        simp
      rw [e, stringsIndex_append _ _ _ hnodot]
      simp [hh.1]; omega
    have hstr := slice_eq (h ++ '-' :: (formatUint n ++ '.' :: t)) (h ++ ['-']) (formatUint n)
      ('.' :: t) 33 (33 + (formatUint n).length) (by simp) (by simp [hh.1]) (by simp [hh.1])
    have hname := sliceFrom_eq (h ++ '-' :: (formatUint n ++ '.' :: t)) (h ++ '-' :: formatUint n)
      ('.' :: t) (33 + (formatUint n).length) (by simp) (by simp [hh.1]; omega)
    simp [hidx, hstr, hname, ParseUint_formatUint n hn, FileIDV1]

/-! ## Encoding identifiers -/

theorem sliceFrom_lastIndex (name : GoString) (i : Nat)
    (h : stringsLastIndex name ['.'] = some i) : sliceFrom name i = .ok (name.drop i) := by
  obtain ⟨t, _, _, h3⟩ := stringsLastIndex_some name '.' i h
  have : i ≤ name.length := by
    rw [h3]; simp only [List.length_take]; omega
  simp [sliceFrom, this]

theorem v1Extension_shape (name : GoString) :
    ∃ t, v1Extension name = '.' :: t ∧ '.' ∉ t := by
  unfold v1Extension
  cases h : stringsLastIndex name ['.'] with
  | none => exact ⟨['n', 'o', 'n', 'e'], rfl, by decide⟩
  | some i =>
    obtain ⟨t, h1, h2, h3⟩ := stringsLastIndex_some name '.' i h
    refine ⟨t, ?_, h2⟩
    simp only []
    conv_lhs => rw [h1]
    rw [List.drop_left' h3.symm]

theorem v1Extension_idem (name : GoString) : v1Extension (v1Extension name) = v1Extension name := by
  obtain ⟨t, h1, h2⟩ := v1Extension_shape name
  rw [h1]
  have : stringsLastIndex ('.' :: t) ['.'] = some 0 := by
    simp [stringsLastIndex, (stringsLastIndex_none t '.').2 h2, List.isPrefixOf]
  simp [v1Extension, this]

theorem getFileIDByVer_V2 (fi : fileInfo) (hset : fi.fileMD5 ≠ []) :
    fi.getFileIDByVer FileIDV2 =
      .ok ('v' :: '2' :: '-' :: (formatUint fi.fileSize ++ '-' :: (fi.fileMD5 ++ '-' ::
        fi.fileName))) := by
  simp [fileInfo.getFileIDByVer, hset, FileIDV2_ne_FileIDV1, pure, Except.pure]

theorem getFileIDByVer_V1_empty (fi : fileInfo) (hset : fi.fileMD5 ≠ [])
    (hname : fi.fileName = []) :
    fi.getFileIDByVer FileIDV1 = .ok (fi.fileMD5 ++ '-' :: formatUint fi.fileSize) := by
  simp [fileInfo.getFileIDByVer, hset, hname, pure, Except.pure]

theorem getFileIDByVer_V1_named (fi : fileInfo) (hset : fi.fileMD5 ≠ [])
    (hname : fi.fileName ≠ []) :
    fi.getFileIDByVer FileIDV1 =
      .ok (fi.fileMD5 ++ '-' :: (formatUint fi.fileSize ++ v1Extension fi.fileName)) := by
  unfold v1Extension
  cases h : stringsLastIndex fi.fileName ['.'] with
  | none =>
    simp [fileInfo.getFileIDByVer, hset, hname, h, pure, Except.pure]
  | some i =>
    simp [fileInfo.getFileIDByVer, hset, hname, h, sliceFrom_lastIndex _ _ h, pure, Except.pure,
      bind, Except.bind]

/-! ## The derived record file -/

theorem getNameFileForVer_V1 (fi : fileInfo) (hh : hexHash fi.fileMD5) :
    fi.getNameFileForVer FileIDV1 =
      .ok (pathJoin [stringsJoin (hashSegments fi.fileMD5) ['/'], v1Extension fi.fileName]) := by
  unfold v1Extension
  cases h : stringsLastIndex fi.fileName ['.'] with
  | none =>
    simp [fileInfo.getNameFileForVer, hexHash_ne_nil _ hh, getDataDirForVer_V1 fi hh, h, pure,
      Except.pure, bind, Except.bind]
  | some i =>
    simp [fileInfo.getNameFileForVer, hexHash_ne_nil _ hh, getDataDirForVer_V1 fi hh, h,
      sliceFrom_lastIndex _ _ h, pure, Except.pure, bind, Except.bind]

theorem getNameFileForVer_V2 (fi : fileInfo) (hh : hexHash fi.fileMD5) :
    fi.getNameFileForVer FileIDV2 =
      .ok (pathJoin [stringsJoin (formatUint fi.fileSize :: hashSegments fi.fileMD5) ['/'],
        fi.fileName]) := by
  simp [fileInfo.getNameFileForVer, hexHash_ne_nil _ hh, getDataDirForVer_V2 fi hh, pure,
    Except.pure, bind, Except.bind, FileIDV2_ne_FileIDV1]

/-! ## C1: the round trip through the identifier -/

theorem roundTrip_decoded (fi d : fileInfo) (fileID : GoString) (h1 : fi.getFileID = .ok fileID)
    (h2 : newFileInfoFromFileID fileID = .ok d) (h : RoundTrip fi) :
    nameSensitivePart d.fileIDVersion d.fileName =
      nameSensitivePart fi.fileIDVersion fi.fileName := by
  obtain ⟨fileID', d', e1, e2, _, _, _, e3⟩ := h
  rw [h1] at e1
  cases e1
  rw [h2] at e2
  cases e2
  exact e3

theorem decode_encode (fi : fileInfo)
    (hv : fi.fileIDVersion = FileIDV1 ∨ fi.fileIDVersion = FileIDV2)
    (hh : hexHash fi.fileMD5) (hn : fi.fileSize ≤ maxUint64)
    (hend : ¬ endsInCutset (nameSensitivePart fi.fileIDVersion fi.fileName))
    (h1 : fi.fileIDVersion = FileIDV1 → fi.fileName ≠ [] ∨ 10 ≤ fi.fileSize)
    (h2 : fi.fileIDVersion = FileIDV2 → fi.fileName ≠ BuildInDataName) :
    ∃ fileID, fi.getFileID = .ok fileID ∧
      newFileInfoFromFileID fileID =
        .ok { fileIDVersion := fi.fileIDVersion, fileMD5 := fi.fileMD5, fileSize := fi.fileSize,
              fileName := nameSensitivePart fi.fileIDVersion fi.fileName } := by
  have hset := hexHash_ne_nil _ hh
  rcases hv with hv | hv
  · simp only [hv, nameSensitivePart, if_true] at hend ⊢
    unfold fileInfo.getFileID
    rw [hv]
    by_cases hname : fi.fileName = []
    · have h10 : 10 ≤ fi.fileSize := by
        rcases h1 hv with h | h
        · exact absurd hname h
        · exact h
      refine ⟨_, getFileIDByVer_V1_empty fi hset hname, ?_⟩
      have := decode_v1 fi.fileMD5 [] fi.fileSize hn hh (Or.inl ⟨rfl, h10⟩)
        (by rintro ⟨c, hc, _⟩; cases hc)
      simp only [List.append_nil, if_true] at this
      rw [this, hname]
      rfl
    · refine ⟨_, getFileIDByVer_V1_named fi hset hname, ?_⟩
      obtain ⟨t, ht, _⟩ := v1Extension_shape fi.fileName
      have := decode_v1 fi.fileMD5 (v1Extension fi.fileName) fi.fileSize hn hh
        (Or.inr ⟨t, ht⟩) hend
      rw [this]
      simp [ht]
  · have hne : fi.fileIDVersion ≠ FileIDV1 := by rw [hv]; exact FileIDV2_ne_FileIDV1
    simp only [nameSensitivePart, hne, if_false] at hend ⊢
    unfold fileInfo.getFileID
    rw [hv]
    refine ⟨_, getFileIDByVer_V2 fi hset, ?_⟩
    rw [decode_v2 fi.fileMD5 fi.fileName fi.fileSize hn
      (not_mem_of_hex _ _ hh.2 (by decide)) hend]
    simp [decodedV2Name, h2 hv]

/-- C1, amended: for an identity of scheme V1 or V2 with a 32-digit hexadecimal hash and a
64-bit size, whose name-sensitive part does not end in a space, tab, carriage return or line
feed, whose name is not `_data_` under V2, and whose name is non-empty or whose size is at least
10 under V1, the identifier is produced and decodes to an identity with the same version, hash
and size, whose name is the name-sensitive part of the original, so that the name-sensitive
parts agree. -/
theorem C1_round_trip (fi : fileInfo)
    (hv : fi.fileIDVersion = FileIDV1 ∨ fi.fileIDVersion = FileIDV2)
    (hh : hexHash fi.fileMD5) (hn : fi.fileSize ≤ maxUint64)
    (hend : ¬ endsInCutset (nameSensitivePart fi.fileIDVersion fi.fileName))
    (h1 : fi.fileIDVersion = FileIDV1 → fi.fileName ≠ [] ∨ 10 ≤ fi.fileSize)
    (h2 : fi.fileIDVersion = FileIDV2 → fi.fileName ≠ BuildInDataName) :
    RoundTrip fi ∧
    ∃ fileID d, fi.getFileID = .ok fileID ∧ newFileInfoFromFileID fileID = .ok d ∧
      d.fileName = nameSensitivePart fi.fileIDVersion fi.fileName := by
  obtain ⟨fileID, e1, e2⟩ := decode_encode fi hv hh hn hend h1 h2
  refine ⟨⟨fileID, _, e1, e2, rfl, rfl, rfl, ?_⟩, ⟨fileID, _, e1, e2, rfl⟩⟩
  simp only [nameSensitivePart]
  split_ifs
  · exact v1Extension_idem _
  · rfl

/-- C1 (amended) at the two identities of the test suite: `ab.test` with 7 bytes under V1 and
with 6 bytes under V2. -/
theorem C1_round_trip_witness :
    RoundTrip (fileInfo.mk FileIDV1 sampleHash 7 "ab.test".toList [])
    ∧ RoundTrip (fileInfo.mk FileIDV2 sampleHash 6 "ab.test".toList []) :=
  ⟨(C1_round_trip (fileInfo.mk FileIDV1 sampleHash 7 "ab.test".toList []) (Or.inl rfl)
      (by decide) (by decide) (by decide) (by decide) (by decide)).1,
   (C1_round_trip (fileInfo.mk FileIDV2 sampleHash 6 "ab.test".toList []) (Or.inr rfl)
      (by decide) (by decide) (by decide) (by decide) (by decide)).1⟩

/-- C1 as stated fails at three valid identities: a V2 identity named `_data_` decodes with the
name `rel-_data_`; a V2 identity whose name ends in a space decodes without the space; and the
identifier of a V1 identity without a name and with a one-digit size does not decode. -/
theorem C1_round_trip_counterexample :
    hexHash sampleHash
    ∧ ¬ RoundTrip (fileInfo.mk FileIDV2 sampleHash 7 "_data_".toList [])
    ∧ ¬ RoundTrip (fileInfo.mk FileIDV2 sampleHash 7 "a ".toList [])
    ∧ ¬ RoundTrip (fileInfo.mk FileIDV1 sampleHash 7 [] []) := by
  refine ⟨by decide, ?_, ?_, ?_⟩
  · intro h
    have := roundTrip_decoded (fileInfo.mk FileIDV2 sampleHash 7 "_data_".toList [])
      (fileInfo.mk FileIDV2 sampleHash 7 "rel-_data_".toList [])
      "v2-7-81d95db337a18c65384d35ba7ea2efda-_data_".toList rfl rfl h
    revert this; decide
  · intro h
    have := roundTrip_decoded (fileInfo.mk FileIDV2 sampleHash 7 "a ".toList [])
      (fileInfo.mk FileIDV2 sampleHash 7 "a".toList [])
      "v2-7-81d95db337a18c65384d35ba7ea2efda-a ".toList rfl rfl h
    revert this; decide
  · rintro ⟨fileID, d, e1, e2, _⟩
    have e3 : (fileInfo.mk FileIDV1 sampleHash 7 [] []).getFileID
        = .ok "81d95db337a18c65384d35ba7ea2efda-7".toList := rfl
    rw [e3] at e1
    cases e1
    have e4 : newFileInfoFromFileID "81d95db337a18c65384d35ba7ea2efda-7".toList
        = .error .errorInvalidFileID := rfl
    rw [e4] at e2
    cases e2

/-! ## C2: the decoded identity finds the files of the original -/

theorem getDataFile_ok (fi : fileInfo)
    (hv : fi.fileIDVersion = FileIDV1 ∨ fi.fileIDVersion = FileIDV2) (hh : hexHash fi.fileMD5) :
    ∃ p, fi.getDataFile = .ok p := by
  unfold fileInfo.getDataFile
  rcases hv with hv | hv <;> rw [hv]
  · exact ⟨_, getDataFileForVer_V1 fi hh⟩
  · exact ⟨_, getDataFileForVer_V2 fi hh⟩

theorem getDataFile_congr (a b : fileInfo)
    (hv : a.fileIDVersion = FileIDV1 ∨ a.fileIDVersion = FileIDV2) (hh : hexHash a.fileMD5)
    (e1 : b.fileIDVersion = a.fileIDVersion) (e2 : b.fileMD5 = a.fileMD5)
    (e3 : b.fileSize = a.fileSize) : b.getDataFile = a.getDataFile := by
  have hb : hexHash b.fileMD5 := by rw [e2]; exact hh
  unfold fileInfo.getDataFile
  rw [e1]
  rcases hv with hv | hv <;> rw [hv]
  · rw [getDataFileForVer_V1 a hh, getDataFileForVer_V1 b hb, e2, e3]
  · rw [getDataFileForVer_V2 a hh, getDataFileForVer_V2 b hb, e2, e3]

theorem getNameFile_eq (fi : fileInfo)
    (hv : fi.fileIDVersion = FileIDV1 ∨ fi.fileIDVersion = FileIDV2) (hh : hexHash fi.fileMD5) :
    fi.getNameFile = .ok (pathJoin [shardDir fi.fileIDVersion fi.fileMD5 fi.fileSize,
      nameSensitivePart fi.fileIDVersion fi.fileName]) := by
  unfold fileInfo.getNameFile shardDir nameSensitivePart
  rcases hv with hv | hv <;> rw [hv]
  · rw [getNameFileForVer_V1 fi hh]; simp
  · rw [getNameFileForVer_V2 fi hh]; simp [FileIDV2_ne_FileIDV1]

theorem nameSensitivePart_idem (ver : Nat) (name : GoString) :
    nameSensitivePart ver (nameSensitivePart ver name) = nameSensitivePart ver name := by
  simp only [nameSensitivePart]
  split_ifs
  · exact v1Extension_idem _
  · rfl

theorem versionRootPath_ok (item : Item)
    (hv : item.fileInfo.fileIDVersion = FileIDV1 ∨ item.fileInfo.fileIDVersion = FileIDV2) :
    ∃ r, item.versionRootPath = .ok r := by
  unfold Item.versionRootPath Item.versionRootPathForVer
  rcases hv with hv | hv <;> rw [hv]
  · exact ⟨pathJoin [item.rootPath, rPathV1], rfl⟩
  · refine ⟨pathJoin [item.rootPath, rPathV2], ?_⟩
    simp [FileIDV2_ne_FileIDV1]

theorem samePaths_nameFile (item item2 : Item) (fileID : GoString)
    (h1 : item.GetFileID = .ok fileID)
    (h2 : NewSFSItemFromFileID fileID item.rootPath item.tempPath = .ok item2)
    (h : SamePaths item) : item.GetNameFile = item2.GetNameFile := by
  obtain ⟨fileID', item2', _, nameFile, e1, e2, _, _, e3, e4⟩ := h
  rw [h1] at e1
  cases e1
  rw [h2] at e2
  cases e2
  rw [e3, e4]

/-- C2, amended: for an item of scheme V1 or V2 with a 32-digit hexadecimal hash and a 64-bit
size, whose name-sensitive part does not end in a space, tab, carriage return or line feed,
whose name is not `_data_` under V2, and whose name is non-empty or whose size is at least 10
under V1, the item built from its identifier derives the same data-file path and the same
record-file path as the original. -/
theorem C2_decoded_paths (item : Item)
    (hv : item.fileInfo.fileIDVersion = FileIDV1 ∨ item.fileInfo.fileIDVersion = FileIDV2)
    (hh : hexHash item.fileInfo.fileMD5) (hn : item.fileInfo.fileSize ≤ maxUint64)
    (hend : ¬ endsInCutset
      (nameSensitivePart item.fileInfo.fileIDVersion item.fileInfo.fileName))
    (h1 : item.fileInfo.fileIDVersion = FileIDV1 →
      item.fileInfo.fileName ≠ [] ∨ 10 ≤ item.fileInfo.fileSize)
    (h2 : item.fileInfo.fileIDVersion = FileIDV2 → item.fileInfo.fileName ≠ BuildInDataName) :
    SamePaths item := by
  obtain ⟨fileID, e1, e2⟩ := decode_encode item.fileInfo hv hh hn hend h1 h2
  obtain ⟨r, hr⟩ := versionRootPath_ok item hv
  obtain ⟨p, hp⟩ := getDataFile_ok item.fileInfo hv hh
  have hq := getNameFile_eq item.fileInfo hv hh
  generalize hd : fileInfo.mk item.fileInfo.fileIDVersion item.fileInfo.fileMD5
    item.fileInfo.fileSize
    (nameSensitivePart item.fileInfo.fileIDVersion item.fileInfo.fileName) [] = d at e2
  have d1 : d.fileIDVersion = item.fileInfo.fileIDVersion := by rw [← hd]
  have d2 : d.fileMD5 = item.fileInfo.fileMD5 := by rw [← hd]
  have d3 : d.fileSize = item.fileInfo.fileSize := by rw [← hd]
  have d4 : d.fileName = nameSensitivePart item.fileInfo.fileIDVersion item.fileInfo.fileName := by
    rw [← hd]
  have hr2 : Item.versionRootPath ⟨item.rootPath, item.tempPath, d⟩ = .ok r := by
    unfold Item.versionRootPath at hr ⊢
    simp only [d1]
    exact hr
  have hp2 : d.getDataFile = .ok p := by
    rw [getDataFile_congr item.fileInfo d hv hh d1 d2 d3]; exact hp
  have hq2 := getNameFile_eq d (by rw [d1]; exact hv) (by rw [d2]; exact hh)
  rw [d1, d2, d3, d4, nameSensitivePart_idem] at hq2
  refine ⟨fileID, ⟨item.rootPath, item.tempPath, d⟩, pathJoin [r, p],
    pathJoin [r, pathJoin [shardDir item.fileInfo.fileIDVersion item.fileInfo.fileMD5
      item.fileInfo.fileSize,
      nameSensitivePart item.fileInfo.fileIDVersion item.fileInfo.fileName]],
    e1, ?_, ?_, ?_, ?_, ?_⟩
  · simp only [NewSFSItemFromFileID, e2, bind, Except.bind, pure, Except.pure]
  · simp only [Item.GetDataFile, hp, hr, bind, Except.bind, pure, Except.pure]
  · simp only [Item.GetDataFile, hp2, hr2, bind, Except.bind, pure, Except.pure]
  · simp only [Item.GetNameFile, hq, hr, bind, Except.bind, pure, Except.pure]
  · simp only [Item.GetNameFile, hq2, hr2, bind, Except.bind, pure, Except.pure]

/-- C2 (amended) at the two items of the test suite after their ingest. -/
theorem C2_decoded_paths_witness :
    SamePaths ⟨sampleRoot, sampleTemp, fileInfo.mk FileIDV1 sampleHash 7 "ab.test".toList []⟩
    ∧ SamePaths ⟨sampleRoot, sampleTemp, fileInfo.mk FileIDV2 sampleHash 6 "ab.test".toList []⟩ :=
  ⟨C2_decoded_paths ⟨sampleRoot, sampleTemp, fileInfo.mk FileIDV1 sampleHash 7 "ab.test".toList []⟩
      (Or.inl rfl) (by decide) (by decide) (by decide) (by decide) (by decide),
   C2_decoded_paths ⟨sampleRoot, sampleTemp, fileInfo.mk FileIDV2 sampleHash 6 "ab.test".toList []⟩
      (Or.inr rfl) (by decide) (by decide) (by decide) (by decide) (by decide)⟩

/-- C2 as stated fails at three items whose hash is set: for a V2 item named `_data_` the decoded
item derives the record file `rel-_data_`; for a V2 item whose name ends in a space the decoded
item derives the record file without the space; and the identifier of a V1 item without a name
and with a one-digit size does not decode. -/
theorem C2_decoded_paths_counterexample :
    hexHash sampleHash
    ∧ ¬ SamePaths ⟨sampleRoot, sampleTemp, fileInfo.mk FileIDV2 sampleHash 7 "_data_".toList []⟩
    ∧ ¬ SamePaths ⟨sampleRoot, sampleTemp, fileInfo.mk FileIDV2 sampleHash 7 "a ".toList []⟩
    ∧ ¬ SamePaths ⟨sampleRoot, sampleTemp, fileInfo.mk FileIDV1 sampleHash 7 [] []⟩ := by
  refine ⟨by decide, ?_, ?_, ?_⟩
  · intro h
    have := samePaths_nameFile
      ⟨sampleRoot, sampleTemp, fileInfo.mk FileIDV2 sampleHash 7 "_data_".toList []⟩
      ⟨sampleRoot, sampleTemp, fileInfo.mk FileIDV2 sampleHash 7 "rel-_data_".toList []⟩
      "v2-7-81d95db337a18c65384d35ba7ea2efda-_data_".toList rfl rfl h
    revert this; decide
  · intro h
    have := samePaths_nameFile
      ⟨sampleRoot, sampleTemp, fileInfo.mk FileIDV2 sampleHash 7 "a ".toList []⟩
      ⟨sampleRoot, sampleTemp, fileInfo.mk FileIDV2 sampleHash 7 "a".toList []⟩
      "v2-7-81d95db337a18c65384d35ba7ea2efda-a ".toList rfl rfl h
    revert this; decide
  · rintro ⟨fileID, item2, _, _, e1, e2, _⟩
    have e3 : Item.GetFileID ⟨sampleRoot, sampleTemp, fileInfo.mk FileIDV1 sampleHash 7 [] []⟩
        = .ok "81d95db337a18c65384d35ba7ea2efda-7".toList := rfl
    rw [e3] at e1
    cases e1
    have e4 : NewSFSItemFromFileID "81d95db337a18c65384d35ba7ea2efda-7".toList sampleRoot
        sampleTemp = .error .errorInvalidFileID := rfl
    rw [e4] at e2
    cases e2

/-! ## C5: the V1 identifier -/

theorem stringsLastIndex_append (pre t : GoString) (x : Char) (hx : x ∉ t) :
    stringsLastIndex (pre ++ x :: t) [x] = some pre.length := by
  induction pre with
  | nil => simp [stringsLastIndex, (stringsLastIndex_none t x).2 hx, List.isPrefixOf]
  | cons c cs ih => simp [stringsLastIndex, ih]

theorem v1Extension_append (pre t : GoString) (ht : '.' ∉ t) :
    v1Extension (pre ++ '.' :: t) = '.' :: t := by
  simp [v1Extension, stringsLastIndex_append pre t '.' ht]

theorem v1Extension_no_dot (name : GoString) (h : '.' ∉ name) :
    v1Extension name = BuiltInFileName := by
  simp [v1Extension, (stringsLastIndex_none name '.').2 h]

/-- C5, amended: for a V1 identity with the hash set, `getFileID` returns `<hash>-<size>` with no
suffix when the original name is empty, `<hash>-<size>.none` when the name is non-empty and has
no `.`, and `<hash>-<size>` followed by the name from its last `.` on when the name has a `.`. -/
theorem C5_v1_identifier (fi : fileInfo) (hv : fi.fileIDVersion = FileIDV1)
    (hset : fi.fileMD5 ≠ []) :
    (fi.fileName = [] →
      fi.getFileID = .ok (fi.fileMD5 ++ ['-'] ++ formatUint fi.fileSize))
    ∧ (fi.fileName ≠ [] → '.' ∉ fi.fileName →
      fi.getFileID = .ok (fi.fileMD5 ++ ['-'] ++ formatUint fi.fileSize ++ BuiltInFileName))
    ∧ (∀ pre t, fi.fileName = pre ++ '.' :: t → '.' ∉ t →
      fi.getFileID = .ok (fi.fileMD5 ++ ['-'] ++ formatUint fi.fileSize ++ '.' :: t)) := by
  unfold fileInfo.getFileID
  rw [hv]
  refine ⟨?_, ?_, ?_⟩
  · intro hname
    rw [getFileIDByVer_V1_empty fi hset hname]; simp
  · intro hname hdot
    rw [getFileIDByVer_V1_named fi hset hname, v1Extension_no_dot _ hdot]; simp
  · intro pre t hname hdot
    have hne : fi.fileName ≠ [] := by rw [hname]; simp
    rw [getFileIDByVer_V1_named fi hset hne, hname, v1Extension_append pre t hdot]; simp

/-- C5 (amended) at the V1 identity of the test suite, named `ab.test`, and at the same identity
named `ab`. -/
theorem C5_v1_identifier_witness :
    (fileInfo.mk FileIDV1 sampleHash 7 "ab.test".toList []).getFileID
      = .ok "81d95db337a18c65384d35ba7ea2efda-7.test".toList
    ∧ (fileInfo.mk FileIDV1 sampleHash 7 "ab".toList []).getFileID
      = .ok "81d95db337a18c65384d35ba7ea2efda-7.none".toList :=
  ⟨(C5_v1_identifier (fileInfo.mk FileIDV1 sampleHash 7 "ab.test".toList []) rfl
      (by decide)).2.2 "ab".toList "test".toList rfl (by decide),
   (C5_v1_identifier (fileInfo.mk FileIDV1 sampleHash 7 "ab".toList []) rfl
      (by decide)).2.1 (by decide) (by decide)⟩

/-- C5 as stated fails at the V1 identity with an empty name: the name has no `.`, and the
identifier is `<hash>-7`, not `<hash>-7.none`. -/
theorem C5_v1_identifier_counterexample :
    (fileInfo.mk FileIDV1 sampleHash 7 [] []).fileMD5 ≠ []
    ∧ '.' ∉ (fileInfo.mk FileIDV1 sampleHash 7 [] []).fileName
    ∧ (fileInfo.mk FileIDV1 sampleHash 7 [] []).getFileID
        = .ok "81d95db337a18c65384d35ba7ea2efda-7".toList
    ∧ (fileInfo.mk FileIDV1 sampleHash 7 [] []).getFileID
        ≠ .ok (sampleHash ++ ['-'] ++ formatUint 7 ++ BuiltInFileName) := by
  refine ⟨by decide, by decide, rfl, by decide⟩

/-! ## C6 and C7: decoding -/

/-- C6, amended: for a 32-digit hexadecimal hash `h`, a 64-bit size `n` and a suffix `s` that is
empty or starts with `.` and has no other `.`, where `s` does not end in a space, tab, carriage
return or line feed, and `s` is non-empty or `n` is at least 10, decoding `h-<decimal n>s`
succeeds as scheme V1 with hash `h`, size `n` and name `s`, or `.none` when `s` is empty. -/
theorem C6_decode_v1 (h s : GoString) (n : Nat) (hh : hexHash h) (hn : n ≤ maxUint64)
    (hs : s = [] ∨ ∃ t, s = '.' :: t ∧ '.' ∉ t) (hend : ¬ endsInCutset s)
    (hlen : s ≠ [] ∨ 10 ≤ n) :
    newFileInfoFromFileID (h ++ ['-'] ++ formatUint n ++ s) =
      .ok { fileIDVersion := FileIDV1, fileMD5 := h, fileSize := n,
            fileName := if s = [] then BuiltInFileName else s } := by
  have e : h ++ ['-'] ++ formatUint n ++ s = h ++ '-' :: (formatUint n ++ s) := by simp
  rw [e]
  apply decode_v1 h s n hn hh _ hend
  rcases hs with hs | ⟨t, ht, _⟩
  · rcases hlen with hl | hl
    · exact absurd hs hl
    · exact Or.inl ⟨hs, hl⟩
  · exact Or.inr ⟨t, ht⟩

/-- C6 (amended) at the identifier of the test suite, `81d95db337a18c65384d35ba7ea2efda-7.none`:
it decodes as V1 with size 7 and name `.none`. -/
theorem C6_decode_v1_witness :
    newFileInfoFromFileID "81d95db337a18c65384d35ba7ea2efda-7.none".toList
      = .ok (fileInfo.mk FileIDV1 sampleHash 7 ".none".toList []) :=
  C6_decode_v1 sampleHash ".none".toList 7 (by decide) (by decide)
    (Or.inr ⟨"none".toList, rfl, by decide⟩) (by decide) (Or.inl (by decide))

/-- C6 as stated fails at the empty suffix with the size 7, where decoding fails, and at the
suffix `.a ` (ending in a space), where the decoded name is `.a`. -/
theorem C6_decode_v1_counterexample :
    hexHash sampleHash ∧ 7 ≤ maxUint64
    ∧ newFileInfoFromFileID (sampleHash ++ ['-'] ++ formatUint 7 ++ [])
        = .error .errorInvalidFileID
    ∧ newFileInfoFromFileID (sampleHash ++ ['-'] ++ formatUint 7 ++ ".a ".toList)
        = .ok (fileInfo.mk FileIDV1 sampleHash 7 ".a".toList [])
    ∧ ".a".toList ≠ ".a ".toList := by
  refine ⟨by decide, by decide, rfl, rfl, by decide⟩

/-- C7: for a 64-bit size `n`, a 32-digit hexadecimal hash `h` and a name `s` that does not end
in a space, tab, carriage return or line feed and is not `_data_`, decoding `v2-<decimal n>-h-s`
succeeds as scheme V2 with size `n`, hash `h` and name `s`, whatever `-` the name holds. -/
theorem C7_decode_v2 (h s : GoString) (n : Nat) (hh : hexHash h) (hn : n ≤ maxUint64)
    (hend : ¬ endsInCutset s) (hs : s ≠ BuildInDataName) :
    newFileInfoFromFileID (['v', '2', '-'] ++ formatUint n ++ ['-'] ++ h ++ ['-'] ++ s) =
      .ok { fileIDVersion := FileIDV2, fileMD5 := h, fileSize := n, fileName := s } := by
  have e : ['v', '2', '-'] ++ formatUint n ++ ['-'] ++ h ++ ['-'] ++ s
      = 'v' :: '2' :: '-' :: (formatUint n ++ '-' :: (h ++ '-' :: s)) := by simp
  rw [e, decode_v2 h s n hn (not_mem_of_hex _ _ hh.2 (by decide)) hend]
  simp [decodedV2Name, hs]

/-- C7 at a name with several `-`: `v2-6-81d95db337a18c65384d35ba7ea2efda-a-b--c.tar-gz`. -/
theorem C7_decode_v2_witness :
    newFileInfoFromFileID "v2-6-81d95db337a18c65384d35ba7ea2efda-a-b--c.tar-gz".toList
      = .ok (fileInfo.mk FileIDV2 sampleHash 6 "a-b--c.tar-gz".toList []) :=
  C7_decode_v2 sampleHash "a-b--c.tar-gz".toList 6 (by decide) (by decide) (by decide)
    (by decide)

/-! ## C8, C9, C10: failures of decoding and of derivation -/

theorem slice_length (s r : GoString) (lo hi : Nat) (h : slice s lo hi = .ok r) :
    r.length = hi - lo := by
  unfold slice at h
  split_ifs at h with hc
  cases h
  simp only [List.length_drop, List.length_take]
  omega

theorem decode_v1_hash_length (fileID : GoString) (d : fileInfo)
    (h : newFileInfoFromFileID fileID = .ok d) (hv : d.fileIDVersion = FileIDV1) :
    d.fileMD5.length = 32 := by
  unfold newFileInfoFromFileID at h
  simp only [bind, Except.bind, pure, Except.pure] at h
  split at h
  · cases h
  · rename_i ver hver
    by_cases h1 : ver = FileIDV1
    · subst h1
      simp only [if_true] at h
      split at h
      · cases h
      · rename_i md5 hmd5
        have hl := slice_length _ _ _ _ hmd5
        repeat' (split at h)
        all_goals first | (cases h; done) | (cases h; simpa using hl)
    · simp only [h1, if_false] at h
      by_cases h2 : ver = FileIDV2
      · subst h2
        simp only [if_true] at h
        repeat' (split at h)
        all_goals first | (cases h; done) | (cases h; exact absurd hv FileIDV2_ne_FileIDV1)
      · simp only [h2, if_false] at h
        cases h

/-- C8, at the failing input `v2-7-abc-x`: decoding succeeds with the 3-byte hash `abc`, although
the constructor from raw fields rejects that hash and a decoded V1 identity always has a
32-byte hash; deriving the data file of the decoded identity then panics on `fileMD5[0:4]`. -/
theorem C8_v2_hash_length_unchecked :
    newFileInfoFromFileID "v2-7-abc-x".toList
      = .ok (fileInfo.mk FileIDV2 "abc".toList 7 "x".toList [])
    ∧ (fileInfo.mk FileIDV2 "abc".toList 7 "x".toList []).fileMD5.length ≠ 32
    ∧ newFileInfoFromRawInfoWithVersion FileIDV2 "abc".toList 7 "x".toList
      = .error .errorInvalidFileID
    ∧ (fileInfo.mk FileIDV2 "abc".toList 7 "x".toList []).getDataFile
      = .error .panicOutOfRange := by
  refine ⟨rfl, by decide, rfl, rfl⟩

/-- C9, at the failing input `v2-x-81d95db337a18c65384d35ba7ea2efda-a`: the size field `x` is not
a number and decoding fails with the syntax error of `strconv.ParseUint`, not with
`errorInvalidFileID`; a size field out of the 64-bit range fails with the range error; the V1
identifier with the same size field fails with `errorInvalidFileID`. -/
theorem C9_v2_size_error_not_wrapped :
    newFileInfoFromFileID "v2-x-81d95db337a18c65384d35ba7ea2efda-a".toList
      = .error .numErrSyntax
    ∧ newFileInfoFromFileID "v2-18446744073709551616-81d95db337a18c65384d35ba7ea2efda-a".toList
      = .error .numErrRange
    ∧ newFileInfoFromFileID "81d95db337a18c65384d35ba7ea2efda-x.a".toList
      = .error .errorInvalidFileID
    ∧ Failure.numErrSyntax ≠ Failure.errorInvalidFileID
    ∧ Failure.numErrRange ≠ Failure.errorInvalidFileID := by
  refine ⟨rfl, rfl, rfl, by decide, by decide⟩

theorem getDataFileForVer_unknown (fi : fileInfo) (verID : Nat) (hset : fi.fileMD5 ≠ [])
    (h1 : verID ≠ FileIDV1) (h2 : verID ≠ FileIDV2) :
    fi.getDataFileForVer verID = .error .errorUnknownFileID := by
  simp [fileInfo.getDataFileForVer, fileInfo.getDataDirForVer, hset, h1, h2, bind, Except.bind]

theorem getNameFileForVer_unknown (fi : fileInfo) (verID : Nat) (hset : fi.fileMD5 ≠ [])
    (h1 : verID ≠ FileIDV1) (h2 : verID ≠ FileIDV2) :
    fi.getNameFileForVer verID = .error .errorUnknownFileID := by
  simp [fileInfo.getNameFileForVer, fileInfo.getDataDirForVer, hset, h1, h2, bind, Except.bind]

theorem getFileIDByVer_unknown (fi : fileInfo) (verID : Nat) (hset : fi.fileMD5 ≠ [])
    (h1 : verID ≠ FileIDV1) (h2 : verID ≠ FileIDV2) :
    fi.getFileIDByVer verID = .error .errorInvalidFileID := by
  simp [fileInfo.getFileIDByVer, hset, h1, h2]

/-- C10, at the failing input of version 3 with the hash set: deriving the data file and the
record file fails with `errorUnknownFileID`, but encoding the identifier fails with
`errorInvalidFileID`. -/
theorem C10_unknown_version_identifier :
    (fileInfo.mk 3 sampleHash 7 "ab.test".toList []).getDataFile = .error .errorUnknownFileID
    ∧ (fileInfo.mk 3 sampleHash 7 "ab.test".toList []).getNameFile = .error .errorUnknownFileID
    ∧ (fileInfo.mk 3 sampleHash 7 "ab.test".toList []).getFileID = .error .errorInvalidFileID
    ∧ Failure.errorInvalidFileID ≠ Failure.errorUnknownFileID := by
  refine ⟨rfl, rfl, rfl, by decide⟩

/-! ## C11: an identity without a hash, and one with a 32-byte hash -/

theorem md5_ne_nil_of_length (h : GoString) (hl : h.length = 32) : h ≠ [] := by
  intro e; rw [e] at hl; simp at hl

theorem getDataFile_ok32 (fi : fileInfo) (hl : fi.fileMD5.length = 32)
    (hv : fi.fileIDVersion = FileIDV1 ∨ fi.fileIDVersion = FileIDV2) :
    ∃ dataFile, fi.getDataFile = .ok dataFile := by
  have hne := md5_ne_nil_of_length _ hl
  have hseg := md5Segments_eq _ hl
  rcases hv with hv | hv
  · simp only [fileInfo.getDataFile, fileInfo.getDataFileForVer, fileInfo.getDataDirForVer,
        hv, hne, hseg, if_true, if_false, bind, Except.bind, pure, Except.pure]
    exact ⟨_, rfl⟩
  · simp only [fileInfo.getDataFile, fileInfo.getDataFileForVer, fileInfo.getDataDirForVer,
        hv, hne, hseg, FileIDV2_ne_FileIDV1, if_true, if_false, bind, Except.bind, pure,
        Except.pure]
    exact ⟨_, rfl⟩

theorem getNameFile_ok32 (fi : fileInfo) (hl : fi.fileMD5.length = 32)
    (hv : fi.fileIDVersion = FileIDV1 ∨ fi.fileIDVersion = FileIDV2) :
    ∃ nameFile, fi.getNameFile = .ok nameFile := by
  have hne := md5_ne_nil_of_length _ hl
  have hseg := md5Segments_eq _ hl
  rcases hv with hv | hv
  · cases h : stringsLastIndex fi.fileName ['.'] with
    | none =>
      simp only [fileInfo.getNameFile, fileInfo.getNameFileForVer,
          fileInfo.getDataDirForVer, hv, hne, hseg, h, if_true, if_false, bind, Except.bind,
          pure, Except.pure]
      exact ⟨_, rfl⟩
    | some i =>
      simp only [fileInfo.getNameFile, fileInfo.getNameFileForVer,
          fileInfo.getDataDirForVer, hv, hne, hseg, h, sliceFrom_lastIndex _ _ h, if_true,
          if_false, bind, Except.bind, pure, Except.pure]
      exact ⟨_, rfl⟩
  · simp only [fileInfo.getNameFile, fileInfo.getNameFileForVer,
        fileInfo.getDataDirForVer, hv, hne, hseg, FileIDV2_ne_FileIDV1, if_true, if_false,
        bind, Except.bind, pure, Except.pure]
    exact ⟨_, rfl⟩

theorem getFileID_ok32 (fi : fileInfo) (hl : fi.fileMD5.length = 32)
    (hv : fi.fileIDVersion = FileIDV1 ∨ fi.fileIDVersion = FileIDV2) :
    ∃ fileID, fi.getFileID = .ok fileID := by
  have hne := md5_ne_nil_of_length _ hl
  unfold fileInfo.getFileID
  rcases hv with hv | hv <;> rw [hv]
  · by_cases hname : fi.fileName = []
    · exact ⟨_, getFileIDByVer_V1_empty fi hne hname⟩
    · exact ⟨_, getFileIDByVer_V1_named fi hne hname⟩
  · exact ⟨_, getFileIDByVer_V2 fi hne⟩

/-- C11: for an identity whose hash is unset, whatever its version and name, deriving the
data-file path, deriving the record-file path and encoding the identifier each fail with
`errorNeedInitialized`; for an identity of version 1 or 2 whose hash has 32 bytes, all three
succeed. -/
theorem C11_initialized (fi : fileInfo) :
    (fi.fileMD5 = [] →
      fi.getDataFile = .error .errorNeedInitialized
      ∧ fi.getNameFile = .error .errorNeedInitialized
      ∧ fi.getFileID = .error .errorNeedInitialized)
    ∧ (fi.fileMD5.length = 32 → (fi.fileIDVersion = FileIDV1 ∨ fi.fileIDVersion = FileIDV2) →
      ∃ dataFile nameFile fileID, fi.getDataFile = .ok dataFile
        ∧ fi.getNameFile = .ok nameFile ∧ fi.getFileID = .ok fileID) := by
  constructor
  · intro h
    simp [fileInfo.getDataFile, fileInfo.getDataFileForVer, fileInfo.getNameFile,
      fileInfo.getNameFileForVer, fileInfo.getFileID, fileInfo.getFileIDByVer, h]
  · intro hl hv
    obtain ⟨d, hd⟩ := getDataFile_ok32 fi hl hv
    obtain ⟨n, hn⟩ := getNameFile_ok32 fi hl hv
    obtain ⟨i, hi⟩ := getFileID_ok32 fi hl hv
    exact ⟨d, n, i, hd, hn, hi⟩

/-- C11 at a fresh V2 identity (hash unset) and at the V1 identity of the test suite. -/
theorem C11_initialized_witness :
    (fileInfo.mk FileIDV2 [] 0 "ab.test".toList []).getFileID = .error .errorNeedInitialized
    ∧ ∃ dataFile nameFile fileID,
        (fileInfo.mk FileIDV1 sampleHash 7 "ab.test".toList []).getDataFile = .ok dataFile
        ∧ (fileInfo.mk FileIDV1 sampleHash 7 "ab.test".toList []).getNameFile = .ok nameFile
        ∧ (fileInfo.mk FileIDV1 sampleHash 7 "ab.test".toList []).getFileID = .ok fileID :=
  ⟨((C11_initialized (fileInfo.mk FileIDV2 [] 0 "ab.test".toList [])).1 rfl).2.2,
   (C11_initialized (fileInfo.mk FileIDV1 sampleHash 7 "ab.test".toList [])).2 (by decide)
     (Or.inl rfl)⟩

/-! ## C20: the record file and the data file -/

/-- C20, at the failing input of version 2 named `_data_` (built from raw fields or for a new
upload): the derived record file is the derived data file; the identity decoded from the
identifier of the same blob is renamed `rel-_data_` and derives another record file. Under V1
the name `x.a/../7` with the size 7 does the same. -/
theorem C20_record_is_data_file :
    (fileInfo.mk FileIDV2 sampleHash 7 "_data_".toList []).getNameFile
      = (fileInfo.mk FileIDV2 sampleHash 7 "_data_".toList []).getDataFile
    ∧ (fileInfo.mk FileIDV2 sampleHash 7 "_data_".toList []).getDataFile
      = .ok "7/81d9/5db3/37a1/8c65/384d/35ba/7ea2/efda/_data_".toList
    ∧ newFileInfoFromRawInfo sampleHash 7 "_data_".toList
      = .ok (fileInfo.mk FileIDV2 sampleHash 7 "_data_".toList [])
    ∧ newFileInfoFromFileID "v2-7-81d95db337a18c65384d35ba7ea2efda-_data_".toList
      = .ok (fileInfo.mk FileIDV2 sampleHash 7 "rel-_data_".toList [])
    ∧ (fileInfo.mk FileIDV2 sampleHash 7 "rel-_data_".toList []).getNameFile
      = .ok "7/81d9/5db3/37a1/8c65/384d/35ba/7ea2/efda/rel-_data_".toList
    ∧ (fileInfo.mk FileIDV1 sampleHash 7 "x.a/../7".toList []).getNameFile
      = (fileInfo.mk FileIDV1 sampleHash 7 "x.a/../7".toList []).getDataFile := by
  refine ⟨by decide, by decide, by decide, by decide, by decide, by decide⟩

/-! ## Searching a key in a path -/

theorem isPrefixOf_iff (k s : GoString) : k.isPrefixOf s = true ↔ ∃ t, s = k ++ t := by
  induction k generalizing s with
  | nil => simp
  | cons a k ih =>
    cases s with
    | nil => simp [List.isPrefixOf]
    | cons b s =>
      simp only [List.isPrefixOf, Bool.and_eq_true, beq_iff_eq, ih, List.cons_append,
        List.cons.injEq]
      constructor
      · rintro ⟨rfl, t, rfl⟩; exact ⟨t, rfl, rfl⟩
      · rintro ⟨t, rfl, rfl⟩; exact ⟨rfl, t, rfl⟩

theorem stringsIndex_some_split (key : GoString) :
    ∀ (s : GoString) (i : Nat), stringsIndex s key = some i →
      ∃ pre rest, s = pre ++ (key ++ rest) ∧ pre.length = i := by
  intro s
  induction s with
  | nil =>
    intro i h
    unfold stringsIndex at h
    split_ifs at h with hk
    cases h
    exact ⟨[], [], by simp [hk], rfl⟩
  | cons c cs ih =>
    intro i h
    unfold stringsIndex at h
    split_ifs at h with hp
    · cases h
      obtain ⟨t, ht⟩ := (isPrefixOf_iff key (c :: cs)).1 hp
      exact ⟨[], t, by simpa using ht, rfl⟩
    · cases hcs : stringsIndex cs key with
      | none => rw [hcs] at h; cases h
      | some j =>
        rw [hcs] at h
        simp only [Option.map_some', Option.some.injEq] at h
        obtain ⟨pre, rest, e1, e2⟩ := ih j hcs
        exact ⟨c :: pre, rest, by rw [e1]; rfl, by simp [e2, h]⟩

theorem isPrefixOf_append_long (k x b : GoString) (h : k.length ≤ x.length) :
    k.isPrefixOf (x ++ b) = k.isPrefixOf x := by
  induction k generalizing x with
  | nil => simp
  | cons a k ih =>
    cases x with
    | nil => simp at h
    | cons c x =>
      have := ih x (by simpa using h)
      simp only [List.cons_append, List.isPrefixOf, List.append_eq, this]

theorem stringsIndex_append_stable (key b : GoString) :
    ∀ (a : GoString) (i : Nat), stringsIndex a key = some i →
      stringsIndex (a ++ b) key = some i := by
  intro a
  induction a with
  | nil =>
    intro i h
    unfold stringsIndex at h
    split_ifs at h with hk
    cases h
    subst hk
    cases b with
    | nil => simp [stringsIndex]
    | cons c cs => simp [stringsIndex]
  | cons c cs ih =>
    intro i h
    have h' := h
    unfold stringsIndex at h
    split_ifs at h with hp
    · cases h
      obtain ⟨t, ht⟩ := (isPrefixOf_iff key (c :: cs)).1 hp
      have : key.isPrefixOf (c :: cs ++ b) = true :=
        (isPrefixOf_iff _ _).2 ⟨t ++ b, by rw [ht]; simp⟩
      simp only [List.cons_append] at this ⊢
      unfold stringsIndex
      simp [this]
    · cases hcs : stringsIndex cs key with
      | none => rw [hcs] at h; cases h
      | some j =>
        rw [hcs] at h
        simp only [Option.map_some', Option.some.injEq] at h
        obtain ⟨pre, rest, e1, _⟩ := stringsIndex_some_split key cs j hcs
        have hlen : key.length ≤ (c :: cs).length := by
          rw [e1]; simp; omega
        have hnp : ¬ key.isPrefixOf (c :: cs ++ b) = true := by
          rw [isPrefixOf_append_long key (c :: cs) b hlen]; exact hp
        simp only [List.cons_append] at hnp ⊢
        unfold stringsIndex
        simp [hnp, ih j hcs, h]

theorem stringsSplit_length (sep : Char) (s : GoString) :
    (stringsSplit sep s).length = s.count sep + 1 := by
  induction s with
  | nil => rfl
  | cons c cs ih =>
    unfold stringsSplit
    by_cases h : c = sep
    · subst h; simp [ih]
    · have h2 : ¬ (c == sep) = true := by simpa using h
      simp only [h, if_false, List.count_cons, h2]
      cases hs : stringsSplit sep cs with
      | nil => rw [hs] at ih; simp at ih
      | cons x xs => rw [hs] at ih; simp at ih ⊢; omega

theorem suffix_of_count (X Y a b : GoString) (h : X ++ '/' :: a = Y ++ '/' :: b)
    (hc : a.count '/' = b.count '/') : a = b := by
  have key : ∀ (X Y a b : GoString), X ++ '/' :: a = Y ++ '/' :: b → a.length ≤ b.length →
      a.count '/' = b.count '/' → a = b := by
    intro X Y a b h hl hc
    rcases List.append_eq_append_iff.1 h with ⟨m, hY, hm⟩ | ⟨m, hX, hm⟩
    · -- Y = X ++ m, '/' :: a = m ++ '/' :: b
      cases m with
      | nil => simpa using hm
      | cons c m =>
        have := congrArg List.length hm
        simp at this
        omega
    · -- X = Y ++ m, '/' :: b = m ++ '/' :: a
      cases m with
      | nil => simpa using hm.symm
      | cons c m =>
        simp only [List.cons_append, List.cons.injEq] at hm
        have hb : b = m ++ '/' :: a := hm.2
        rw [hb] at hc
        simp only [List.count_append, List.count_cons_self] at hc
        omega
  rcases Nat.le_total a.length b.length with hl | hl
  · exact key X Y a b h hl hc
  · exact (key Y X b a h.symm hl hc.symm).symm

theorem count_stringsJoin (es : List GoString) (hne : es ≠ []) (h : ∀ e ∈ es, '/' ∉ e) :
    (stringsJoin es ['/']).count '/' + 1 = es.length := by
  have := stringsSplit_length '/' (stringsJoin es ['/'])
  rw [stringsSplit_join es hne h] at this
  omega

/-! ## Reading an identifier off a path -/

theorem stringsJoin_nil_sep (es : List GoString) : stringsJoin es [] = es.flatten := by
  induction es with
  | nil => rfl
  | cons a rest ih =>
    cases rest with
    | nil => simp [stringsJoin]
    | cons b rest =>
      rw [stringsJoin_cons_cons, ih]; simp

theorem hexHash_trim (h : GoString) (hh : hexHash h) (cutset : GoString)
    (hc : ∀ c ∈ cutset, ¬ isHexChar c) : stringsTrim h cutset = h := by
  apply stringsTrim_eq_self
  · intro c hc1 hm
    have : c ∈ h := by
      cases h with
      | nil => cases hc1
      | cons x xs => simp at hc1; subst hc1; simp
    exact hc c hm (hh.2 c this)
  · intro c hc1 hm
    exact hc c hm (hh.2 c (List.mem_of_getLast?_eq_some hc1))

theorem newFileInfoFromRawInfoWithVersion_hex (ver : Nat) (h : GoString) (n : Nat)
    (name : GoString) (hh : hexHash h) :
    newFileInfoFromRawInfoWithVersion ver h n name =
      .ok { fileIDVersion := ver, fileMD5 := h, fileSize := n, fileName := name } := by
  have ht := hexHash_trim h hh [' ', '\r', '\n', '\t'] (by decide)
  simp [newFileInfoFromRawInfoWithVersion, ht, hh.1]

theorem parse_V1_rel (h : GoString) (n : Nat) (hh : hexHash h) (hn : n ≤ maxUint64)
    (filePath : GoString) (idx : Nat)
    (hidx : stringsIndex filePath (versionKey FileIDV1) = some idx)
    (hrest : filePath.drop (idx + 4) = relDataPath FileIDV1 h n)
    (hlen : idx + 4 ≤ filePath.length) :
    parseFileIDFromFilePath filePath FileIDV1 = .ok (listedID FileIDV1 h n) := by
  have hkey : Separators ++ rPathV1 ++ Separators = versionKey FileIDV1 := by
    simp [versionKey]
  have hkl : (versionKey FileIDV1).length = 4 := by decide
  have hsplit : stringsSplit '/' (relDataPath FileIDV1 h n)
      = hashSegments h ++ [formatUint n] := by
    simp only [relDataPath, if_true]
    exact stringsSplit_join _ (by simp) (fun e he => (plainElem_V1_file
      (fileInfo.mk 1 h n [] []) hh e he).2.1)
  have hjoin : stringsJoin (hashSegments h) [] = h := by
    rw [stringsJoin_nil_sep, hashSegments_join h hh.1]
  have hid : (fileInfo.mk FileIDV1 h n BuildInDataName []).getFileID
      = .ok (listedID FileIDV1 h n) := by
    unfold fileInfo.getFileID
    rw [getFileIDByVer_V1_named _ (hexHash_ne_nil h hh)
      (show BuildInDataName ≠ [] by decide)]
    simp [listedID, v1Extension_no_dot BuildInDataName (by decide)]
  unfold parseFileIDFromFilePath
  simp only [if_true, hkey, hidx, hkl, sliceFrom, hlen, hrest, hsplit, bind, Except.bind, pure,
    Except.pure]
  simp [hashSegments, hjoin, ParseUint_formatUint n hn,
    newFileInfoFromRawInfoWithVersion_hex FileIDV1 h n BuildInDataName hh]
  have h8 : stringsJoin [segment h 0, segment h 1, segment h 2, segment h 3, segment h 4,
      segment h 5, segment h 6, segment h 7] [] = h := hjoin
  simp [h8, newFileInfoFromRawInfoWithVersion_hex FileIDV1 h n BuildInDataName hh, hid]

theorem parse_V2_rel (h : GoString) (n : Nat) (hh : hexHash h) (hn : n ≤ maxUint64)
    (filePath : GoString) (idx : Nat)
    (hidx : stringsIndex filePath (versionKey FileIDV2) = some idx)
    (hrest : filePath.drop (idx + 4) = relDataPath FileIDV2 h n)
    (hlen : idx + 4 ≤ filePath.length) :
    parseFileIDFromFilePath filePath FileIDV2 = .ok (listedID FileIDV2 h n) := by
  have hkey : Separators ++ rPathV2 ++ Separators = versionKey FileIDV2 := by
    simp [versionKey, FileIDV2_ne_FileIDV1]
  have hkl : (versionKey FileIDV2).length = 4 := by decide
  have hsplit : stringsSplit '/' (relDataPath FileIDV2 h n)
      = (formatUint n :: hashSegments h) ++ [BuildInDataName] := by
    simp only [relDataPath, FileIDV2_ne_FileIDV1, if_false]
    exact stringsSplit_join _ (by simp) (fun e he => (plainElem_V2_file
      (fileInfo.mk 2 h n [] []) hh e he).2.1)
  have hjoin : stringsJoin (hashSegments h) [] = h := by
    rw [stringsJoin_nil_sep, hashSegments_join h hh.1]
  have h8 : stringsJoin [segment h 0, segment h 1, segment h 2, segment h 3, segment h 4,
      segment h 5, segment h 6, segment h 7] [] = h := hjoin
  have hid : (fileInfo.mk FileIDV2 h n BuildInDataName []).getFileID
      = .ok (listedID FileIDV2 h n) := by
    unfold fileInfo.getFileID
    rw [getFileIDByVer_V2 _ (hexHash_ne_nil h hh)]
    simp [listedID, FileIDV2_ne_FileIDV1]
  unfold parseFileIDFromFilePath
  simp only [FileIDV2_ne_FileIDV1, if_false, if_true, hkey, hidx, hkl, sliceFrom, hlen, hrest,
    hsplit, bind, Except.bind, pure, Except.pure]
  simp [hashSegments, ParseUint_formatUint n hn, newFileInfoFromRawInfo, FileIDVMAX]
  have hraw := newFileInfoFromRawInfoWithVersion_hex 2 h n BuildInDataName hh
  simp [h8, hraw]
  exact hid

theorem versionKey_length (v : Nat) : (versionKey v).length = 4 := by
  unfold versionKey; split_ifs <;> rfl

theorem listedID_decodes (v : Nat) (hv : v = FileIDV1 ∨ v = FileIDV2) (h : GoString) (n : Nat)
    (hh : hexHash h) (hn : n ≤ maxUint64) :
    newFileInfoFromFileID (listedID v h n) =
      .ok { fileIDVersion := v, fileMD5 := h, fileSize := n,
            fileName := if v = FileIDV1 then BuiltInFileName
              else ['r', 'e', 'l', '-'] ++ BuildInDataName } := by
  rcases hv with hv | hv <;> subst hv
  · have := decode_v1 h BuiltInFileName n hn hh (Or.inr ⟨['n', 'o', 'n', 'e'], rfl⟩)
      (by decide)
    simp only [listedID, if_true]
    have e : h ++ ['-'] ++ formatUint n ++ BuiltInFileName
        = h ++ '-' :: (formatUint n ++ BuiltInFileName) := by simp
    rw [e, this]
    simp [BuiltInFileName]
  · have := decode_v2 h BuildInDataName n hn (not_mem_of_hex _ _ hh.2 (by decide))
      (by decide)
    simp only [listedID, FileIDV2_ne_FileIDV1, if_false]
    have e : ['v', '2', '-'] ++ formatUint n ++ ['-'] ++ h ++ ['-'] ++ BuildInDataName
        = 'v' :: '2' :: '-' :: (formatUint n ++ '-' :: (h ++ '-' :: BuildInDataName)) := by simp
    rw [e, this]
    simp [decodedV2Name]

theorem relDataPath_eq (v : Nat) (hv : v = FileIDV1 ∨ v = FileIDV2) (fi : fileInfo)
    (hh : hexHash fi.fileMD5) :
    fi.getDataFileForVer v = .ok (relDataPath v fi.fileMD5 fi.fileSize) := by
  rcases hv with hv | hv <;> subst hv
  · rw [getDataFileForVer_V1 fi hh]; simp [relDataPath]
  · rw [getDataFileForVer_V2 fi hh]; simp [relDataPath, FileIDV2_ne_FileIDV1]

set_option maxRecDepth 100000 in
/-- C19: under the storage root `.` the item derives the path `V1/81d9/.../efda/7` for the data
file of the 7-byte V1 blob of the test suite and `V2/6/5a8d/.../d877/_data_` for the data file
of its 6-byte V2 blob, and `parseFileIDFromFilePath` reports both as unsupported: it looks for
`/V1/` or `/V2/` with the leading separator that `filepath.Join` has cleaned away. Under the
root `/srv/V1/store` the derived path holds an earlier `/V1/`; the path is cut there and
reported as unsupported too. Under the root `./teststg/root` of the test suite the derived
path is read back as `81d95db337a18c65384d35ba7ea2efda-7.none`. -/
theorem C19_parse_rejects_derived_path :
    hexHash sampleHash ∧ hexHash sampleHash2
    ∧ Item.GetDataFile ⟨".".toList, [], fileInfo.mk FileIDV1 sampleHash 7 [] []⟩
        = .ok "V1/81d9/5db3/37a1/8c65/384d/35ba/7ea2/efda/7".toList
    ∧ parseFileIDFromFilePath "V1/81d9/5db3/37a1/8c65/384d/35ba/7ea2/efda/7".toList FileIDV1
        = .error .unsupportedPath
    ∧ Item.GetDataFile ⟨".".toList, [], fileInfo.mk FileIDV2 sampleHash2 6 "ab.test".toList []⟩
        = .ok "V2/6/5a8d/d3ad/0756/a93d/ed72/b823/b19d/d877/_data_".toList
    ∧ parseFileIDFromFilePath "V2/6/5a8d/d3ad/0756/a93d/ed72/b823/b19d/d877/_data_".toList
        FileIDV2 = .error .unsupportedPath
    ∧ Item.GetDataFile ⟨"/srv/V1/store".toList, [], fileInfo.mk FileIDV1 sampleHash 7 [] []⟩
        = .ok "/srv/V1/store/V1/81d9/5db3/37a1/8c65/384d/35ba/7ea2/efda/7".toList
    ∧ parseFileIDFromFilePath
        "/srv/V1/store/V1/81d9/5db3/37a1/8c65/384d/35ba/7ea2/efda/7".toList FileIDV1
        = .error .unsupportedPath
    ∧ Item.GetDataFile ⟨sampleRoot, [], fileInfo.mk FileIDV1 sampleHash 7 [] []⟩
        = .ok "teststg/root/V1/81d9/5db3/37a1/8c65/384d/35ba/7ea2/efda/7".toList
    ∧ parseFileIDFromFilePath
        "teststg/root/V1/81d9/5db3/37a1/8c65/384d/35ba/7ea2/efda/7".toList FileIDV1
        = .ok "81d95db337a18c65384d35ba7ea2efda-7.none".toList := by
  refine ⟨by decide, by decide, by decide, by decide, by decide, by decide, by decide,
    by decide, by decide, by decide⟩

/-! ## The walk of `getFileList` as a loop of `utilWalk` -/

theorem FsNode.induct (P : FsNode → Prop) (hfile : P .file)
    (hdir : ∀ fis : List (GoString × FsNode), (∀ fi ∈ fis, P fi.2) → P (.dir fis)) :
    ∀ n, P n := by
  intro n
  refine FsNode.rec (motive_1 := P) (motive_2 := fun fis => ∀ fi ∈ fis, P fi.2)
    (motive_3 := fun fi => P fi.2) hfile (fun fis ih => hdir fis ih) ?_ ?_ ?_ n
  · intro fi hfi; cases hfi
  · intro head tail h1 h2 fi hfi
    rcases List.mem_cons.1 hfi with h | h
    · rw [h]; exact h1
    · exact h2 fi h
  · intro name node h; exact h

theorem walkForward_eq (fis : List (GoString × FsNode)) (p : GoString) (v : Nat) (f : Bool)
    (ids : List GoString) :
    ∀ st, walkForward fis p v f ids st = utilWalkLoop (entryCallback p v f ids) fis st := by
  induction fis with
  | nil => intro st; simp [walkForward, utilWalkLoop]
  | cons fi rest ih =>
    intro st
    obtain ⟨name, node⟩ := fi
    simp only [walkForward, utilWalkLoop, entryCallback, ih]

/-- The loop of `utilWalk` that also tells whether it ran to the end. -/
theorem walkBackward_eq (fis : List (GoString × FsNode)) (p : GoString) (v : Nat) (f : Bool)
    (ids : List GoString) :
    ∀ st, (walkBackward fis p v f ids st).1
        = utilWalkLoop (entryCallback p v f ids) fis.reverse st := by
  have key : ∀ (fis : List (GoString × FsNode)) (st : walkState),
      ((walkBackward fis p v f ids st).2 = false → ∀ ys : List (GoString × FsNode),
          utilWalkLoop (entryCallback p v f ids) (fis.reverse ++ ys) st
            = (walkBackward fis p v f ids st).1)
      ∧ ((walkBackward fis p v f ids st).2 = true → ∀ ys : List (GoString × FsNode),
          utilWalkLoop (entryCallback p v f ids) (fis.reverse ++ ys) st
            = utilWalkLoop (entryCallback p v f ids) ys (walkBackward fis p v f ids st).1) := by
    intro fis
    induction fis with
    | nil =>
      intro st
      constructor
      · intro h; simp [walkBackward] at h
      · intro _ ys; simp only [walkBackward, List.reverse_nil, List.nil_append]
    | cons fi rest ih =>
      intro st
      obtain ⟨name, node⟩ := fi
      obtain ⟨ih1, ih2⟩ := ih st
      simp only [walkBackward, List.reverse_cons, List.append_assoc, List.singleton_append]
      cases hr : (walkBackward rest p v f ids st).2 with
      | false =>
        simp only [hr] at ih1
        simp only [Bool.false_eq_true, if_false, hr, true_implies, false_implies, and_true]
        intro ys
        exact ih1 trivial _
      | true =>
        simp only [hr] at ih2
        simp only [if_true]
        have e := fun ys => ih2 trivial ((name, node) :: ys)
        constructor
        · intro h2 ys
          have h3 : (entryCallback p v f ids (name, node)
              (walkBackward rest p v f ids st).1).2 = false := h2
          rw [e ys, utilWalkLoop, h3]
          simp only [Bool.false_eq_true, if_false]
          rfl
        · intro h2 ys
          have h3 : (entryCallback p v f ids (name, node)
              (walkBackward rest p v f ids st).1).2 = true := h2
          rw [e ys, utilWalkLoop, h3]
          simp only [if_true]
          rfl
  intro st
  obtain ⟨k1, k2⟩ := key fis st
  cases hr : (walkBackward fis p v f ids st).2 with
  | false => have := k1 hr []; simp at this; exact this.symm
  | true => have := k2 hr []; simp [utilWalkLoop] at this; exact this.symm

theorem getFileList_dir (fis : List (GoString × FsNode)) (p : GoString) (v : Nat) (f : Bool)
    (ids : List GoString) (c : Int) :
    getFileList (.dir fis) p v f ids c =
      if c = 0 then (none, [])
      else ((utilWalk fis f (entryCallback p v f ids) (walkInit ids c)).err,
            (utilWalk fis f (entryCallback p v f ids) (walkInit ids c)).files) := by
  unfold getFileList utilWalk
  by_cases hc : c = 0
  · simp [hc]
  · simp only [hc, if_false]
    cases f with
    | true => simp [walkForward_eq]
    | false => simp [walkBackward_eq]

theorem listFiles_file (p : GoString) (v : Nat) (f : Bool) (ids : List GoString) (c : Int) :
    listFiles .file p v f ids c = [] := by
  unfold listFiles getFileList
  split_ifs <;> rfl

theorem listFiles_dir (fis : List (GoString × FsNode)) (p : GoString) (v : Nat) (f : Bool)
    (ids : List GoString) (c : Int) :
    listFiles (.dir fis) p v f ids c =
      if c = 0 then []
      else (utilWalkLoop (entryCallback p v f ids) (if f then fis else fis.reverse)
        (walkInit ids c)).files := by
  unfold listFiles
  rw [getFileList_dir]
  split_ifs <;> simp_all [utilWalk]

/-! ## The walk without the error variable -/

theorem walkCallback_dir (p : GoString) (v : Nat) (ids : List GoString) (name : GoString)
    (recur : GoString → List GoString → Int → List GoString) (st : walkState) :
    walkCallback p v ids name true recur st =
      if st.curID ≠ [] ∧ st.curID ≠ name then (st, true)
      else
        ({ curID := [], nextIDs := if st.curID ≠ [] then [] else st.nextIDs,
           leftCount := st.leftCount - (recur (pathJoin [p, name]) st.nextIDs st.leftCount).length,
           files := st.files ++ recur (pathJoin [p, name]) st.nextIDs st.leftCount,
           err := st.err },
         decide (st.leftCount
           - (recur (pathJoin [p, name]) st.nextIDs st.leftCount).length ≠ 0)) := by
  unfold walkCallback
  simp only [not_true_eq_false, if_false]
  generalize recur (pathJoin [p, name]) st.nextIDs st.leftCount = new
  obtain ⟨cur, nxt, lc, fs, er⟩ := st
  cases new with
  | nil =>
    by_cases h1 : cur = []
    · subst h1; by_cases h3 : lc = 0 <;> simp [h3]
    · by_cases h2 : cur = name
      · subst h2; by_cases h3 : lc = 0 <;> simp [h1, h3]
      · by_cases h3 : lc = 0 <;> simp [h1, h2, h3]
  | cons x xs =>
    by_cases h1 : cur = []
    · subst h1; by_cases h3 : lc - ((xs.length : Int) + 1) = 0 <;> simp [h3]
    · by_cases h2 : cur = name
      · subst h2; by_cases h3 : lc - ((xs.length : Int) + 1) = 0 <;> simp [h1, h3]
      · by_cases h3 : lc - ((xs.length : Int) + 1) = 0 <;> simp [h1, h2, h3]

theorem entryCallback_core (p : GoString) (v : Nat) (f : Bool) (ids : List GoString)
    (fi : GoString × FsNode) (st : walkState) :
    (entryCallback p v f ids fi st).2 = (coreCallback p v f ids fi st.core).2
    ∧ (entryCallback p v f ids fi st).1.core = (coreCallback p v f ids fi st.core).1 := by
  obtain ⟨name, node⟩ := fi
  by_cases hd : node.IsDir = true
  · unfold entryCallback coreCallback
    simp only [hd, walkCallback_dir, not_true_eq_false, if_false, listFiles, walkState.core]
    split_ifs <;> simp
  · have hd' : node.IsDir = false := by simpa using hd
    unfold entryCallback walkCallback coreCallback
    simp only [hd', Bool.false_eq_true, not_false_eq_true, if_true]
    by_cases hids : ids.length > 0
    · simp only [hids, if_true, and_self]
    · simp only [hids, if_false, fileOutcome]
      by_cases h1 : v = FileIDV1
      · simp only [h1, if_true]
        cases ParseInt name with
        | error e => simp [walkState.core]
        | ok fileSize =>
          by_cases hz : fileSize = 0
          · simp [hz, walkState.core]
          · simp only [hz, if_false]
            cases parseFileIDFromFilePath (pathJoin [p, name]) FileIDV1 with
            | error e => simp [walkState.core]
            | ok fileID => simp [walkState.core]
      · simp only [h1, if_false]
        by_cases h2 : v = FileIDV2
        · simp only [h2, if_true]
          by_cases hn : name = BuildInDataName
          · simp only [hn, if_true]
            cases parseFileIDFromFilePath (pathJoin [p, BuildInDataName]) FileIDV2 with
            | error e => simp [walkState.core]
            | ok fileID => simp [walkState.core]
          · simp [hn, walkState.core]
        · simp [h2, walkState.core]

theorem utilWalkLoop_core (p : GoString) (v : Nat) (f : Bool) (ids : List GoString)
    (fis : List (GoString × FsNode)) :
    ∀ st, (utilWalkLoop (entryCallback p v f ids) fis st).core
        = utilWalkLoop (coreCallback p v f ids) fis st.core := by
  induction fis with
  | nil => intro st; rfl
  | cons fi rest ih =>
    intro st
    obtain ⟨h1, h2⟩ := entryCallback_core p v f ids fi st
    simp only [utilWalkLoop, h1]
    split_ifs
    · rw [ih, h2]
    · exact h2

theorem listFiles_dir_core (fis : List (GoString × FsNode)) (p : GoString) (v : Nat) (f : Bool)
    (ids : List GoString) (c : Int) :
    listFiles (.dir fis) p v f ids c =
      if c = 0 then []
      else (utilWalkLoop (coreCallback p v f ids) (if f then fis else fis.reverse)
        (coreInit ids c)).files := by
  rw [listFiles_dir]
  split_ifs with h1 h2
  · rfl
  · have := utilWalkLoop_core p v f ids fis (walkInit ids c)
    have e : (walkInit ids c).core = coreInit ids c := rfl
    rw [e] at this; rw [← this]; rfl
  · have := utilWalkLoop_core p v f ids fis.reverse (walkInit ids c)
    have e : (walkInit ids c).core = coreInit ids c := rfl
    rw [e] at this; rw [← this]; rfl

theorem coreCallback_file_guard (p : GoString) (v : Nat) (f : Bool) (ids : List GoString)
    (name : GoString) (s : walkCore) (hids : ids ≠ []) :
    coreCallback p v f ids (name, .file) s = (s, false) := by
  have : ids.length > 0 := List.length_pos.2 hids
  simp [coreCallback, FsNode.IsDir, this]

theorem coreCallback_file_free (p : GoString) (v : Nat) (f : Bool) (name : GoString)
    (s : walkCore) :
    coreCallback p v f [] (name, .file) s =
      ({ s with files := s.files ++ (fileOutcome p v name).2 }, (fileOutcome p v name).1) := by
  simp [coreCallback, FsNode.IsDir]

theorem coreCallback_dir_skip (p : GoString) (v : Nat) (f : Bool) (ids : List GoString)
    (name : GoString) (fis : List (GoString × FsNode)) (s : walkCore)
    (h1 : s.curID ≠ []) (h2 : s.curID ≠ name) :
    coreCallback p v f ids (name, .dir fis) s = (s, true) := by
  simp [coreCallback, FsNode.IsDir, h1, h2]

theorem coreCallback_dir_visit (p : GoString) (v : Nat) (f : Bool) (ids : List GoString)
    (name : GoString) (fis : List (GoString × FsNode)) (s : walkCore)
    (h : s.curID = [] ∨ s.curID = name) :
    coreCallback p v f ids (name, .dir fis) s =
      ({ curID := [], nextIDs := if s.curID ≠ [] then [] else s.nextIDs,
         leftCount := s.leftCount
           - (listFiles (.dir fis) (pathJoin [p, name]) v f s.nextIDs s.leftCount).length,
         files := s.files ++ listFiles (.dir fis) (pathJoin [p, name]) v f s.nextIDs s.leftCount },
       decide (s.leftCount
           - (listFiles (.dir fis) (pathJoin [p, name]) v f s.nextIDs s.leftCount).length
             ≠ 0)) := by
  have : ¬ (s.curID ≠ [] ∧ s.curID ≠ name) := by
    rcases h with h | h
    · simp [h]
    · simp [h]
  simp only [coreCallback, FsNode.IsDir, this, if_false]
  simp

theorem fileOutcome_cases (p : GoString) (v : Nat) (name : GoString) :
    fileOutcome p v name = (true, []) ∨ fileOutcome p v name = (false, [])
    ∨ ∃ fileID, fileOutcome p v name = (false, [fileID])
        ∧ parseFileIDFromFilePath (pathJoin [p, name]) v = .ok fileID := by
  unfold fileOutcome
  by_cases h1 : v = FileIDV1
  · simp only [h1, if_true]
    cases ParseInt name with
    | error e => simp
    | ok n =>
      by_cases hz : n = 0
      · simp [hz]
      · simp only [hz, if_false]
        cases h : parseFileIDFromFilePath (pathJoin [p, name]) FileIDV1 with
        | error e => simp
        | ok fileID => simp
  · simp only [h1, if_false]
    by_cases h2 : v = FileIDV2
    · simp only [h2, if_true]
      by_cases hn : name = BuildInDataName
      · simp only [hn, if_true]
        cases h : parseFileIDFromFilePath (pathJoin [p, BuildInDataName]) FileIDV2 with
        | error e => simp
        | ok fileID => simp
      · simp [hn]
    · simp [h2]

/-! ## C15: the limit -/

theorem loop_bound (p : GoString) (v : Nat) (f : Bool) (ids : List GoString) (c : Int)
    (xs : List (GoString × FsNode))
    (hxs : ∀ fi ∈ xs, ∀ (p' : GoString) (ids' : List GoString) (c' : Int), 0 ≤ c' →
      ((listFiles fi.2 p' v f ids' c').length : Int) ≤ c') :
    ∀ s : walkCore, 1 ≤ s.leftCount → (s.files.length : Int) + s.leftCount = c →
      ((utilWalkLoop (coreCallback p v f ids) xs s).files.length : Int) ≤ c := by
  induction xs with
  | nil => intro s h1 h2; simp only [utilWalkLoop]; omega
  | cons fi rest ih =>
    intro s h1 h2
    obtain ⟨name, node⟩ := fi
    have ih' := ih (fun fi hfi => hxs fi (List.mem_cons_of_mem _ hfi))
    simp only [utilWalkLoop]
    cases node with
    | file =>
      by_cases hids : ids = []
      · subst hids
        rw [coreCallback_file_free]
        rcases fileOutcome_cases p v name with h | h | ⟨fileID, h, _⟩
        · simp only [h, if_true, List.append_nil]
          exact ih' _ h1 h2
        · simp only [h, Bool.false_eq_true, if_false, List.append_nil]; omega
        · simp only [h, Bool.false_eq_true, if_false, List.length_append, List.length_singleton]
          push_cast; omega
      · rw [coreCallback_file_guard p v f ids name s hids]
        simp only [Bool.false_eq_true, if_false]; omega
    | dir fis =>
      by_cases hskip : s.curID ≠ [] ∧ s.curID ≠ name
      · rw [coreCallback_dir_skip p v f ids name fis s hskip.1 hskip.2]
        simp only [if_true]
        exact ih' _ h1 h2
      · have hv : s.curID = [] ∨ s.curID = name := by
          by_cases h : s.curID = []
          · exact Or.inl h
          · right; by_contra h'; exact hskip ⟨h, h'⟩
        rw [coreCallback_dir_visit p v f ids name fis s hv]
        have hb := hxs (name, .dir fis) (List.mem_cons_self _ _) (pathJoin [p, name])
          s.nextIDs s.leftCount (by omega)
        simp only at hb
        generalize listFiles (.dir fis) (pathJoin [p, name]) v f s.nextIDs s.leftCount = new
          at hb ⊢
        generalize (if s.curID ≠ [] then [] else s.nextIDs) = nx
        by_cases hz : s.leftCount - (new.length : Int) = 0
        · simp only [hz, ne_eq, not_true_eq_false, decide_False, Bool.false_eq_true, if_false,
            List.length_append]
          push_cast; omega
        · simp only [hz, ne_eq, not_false_eq_true, decide_True, if_true]
          apply ih'
          · simp only; omega
          · simp only [List.length_append]; push_cast; omega

theorem listFiles_bound (v : Nat) (f : Bool) :
    ∀ (node : FsNode) (p : GoString) (ids : List GoString) (c : Int), 0 ≤ c →
      ((listFiles node p v f ids c).length : Int) ≤ c := by
  intro node
  induction node using FsNode.induct with
  | hfile => intro p ids c hc; rw [listFiles_file]; simpa using hc
  | hdir fis ih =>
    intro p ids c hc
    rw [listFiles_dir_core]
    by_cases h0 : c = 0
    · simp [h0]
    · simp only [h0, if_false]
      apply loop_bound p v f ids c
      · intro fi hfi
        apply ih fi
        cases f with
        | true => simpa using hfi
        | false => simpa using hfi
      · simp [coreInit]; omega
      · simp [coreInit]

theorem getFileListAt_bound (o : Option FsNode) (p : GoString) (v : Nat) (f : Bool)
    (ids : List GoString) (c : Int) (hc : 0 ≤ c) :
    (((getFileListAt o p v f ids c).2.length : Int) ≤ c) := by
  cases o with
  | none => unfold getFileListAt; split_ifs <;> simpa using hc
  | some n => exact listFiles_bound v f n p ids c hc

theorem decodeCursor_cases (lastFileID : GoString) :
    (lastFileID = [] ∧ decodeCursor lastFileID = .ok (none, FileIDV1, []))
    ∨ (lastFileID ≠ [] ∧ ∃ ver ids, pathInfosFromFileID lastFileID = .ok (ver, ids)
        ∧ decodeCursor lastFileID = .ok (none, ver, ids ++ [guardID]))
    ∨ (lastFileID ≠ [] ∧ pathInfosFromFileID lastFileID = .error .panicOutOfRange
        ∧ decodeCursor lastFileID = .error .panicOutOfRange)
    ∨ (lastFileID ≠ [] ∧ ∃ e, e ≠ .panicOutOfRange ∧ pathInfosFromFileID lastFileID = .error e
        ∧ decodeCursor lastFileID = .ok (some e, 0, [])) := by
  unfold decodeCursor
  by_cases h : lastFileID = []
  · left; simp [h]
  · right
    simp only [ne_eq, h, not_false_eq_true, if_true, true_and]
    cases hp : pathInfosFromFileID lastFileID with
    | ok r => obtain ⟨ver, ids⟩ := r; left; exact ⟨ver, ids, rfl, rfl⟩
    | error e =>
      right
      by_cases he : e = .panicOutOfRange
      · left; simp [he]
      · right; exact ⟨e, he, rfl, by simp [he]⟩

theorem walkVersions_V1 (fis : List (GoString × FsNode)) (rootPath : GoString) (f : Bool)
    (err0 : Option Failure) (ids0 : List GoString) (count : Int) :
    (walkVersions fis rootPath f err0 FileIDV1 ids0 count).2 =
      listFilesAt ((FsNode.dir fis).child rPathV1) (pathJoin [rootPath, rPathV1]) FileIDV1 f
          ids0 count
        ++ listFilesAt ((FsNode.dir fis).child rPathV2) (pathJoin [rootPath, rPathV2]) FileIDV2
          f [] (count - (listFilesAt ((FsNode.dir fis).child rPathV1)
            (pathJoin [rootPath, rPathV1]) FileIDV1 f ids0 count).length) := by
  simp [walkVersions, listFilesAt]

theorem walkVersions_V2 (fis : List (GoString × FsNode)) (rootPath : GoString) (f : Bool)
    (err0 : Option Failure) (ids0 : List GoString) (count : Int) :
    (walkVersions fis rootPath f err0 FileIDV2 ids0 count).2 =
      listFilesAt ((FsNode.dir fis).child rPathV2) (pathJoin [rootPath, rPathV2]) FileIDV2
          f ids0 count := by
  simp [walkVersions, listFilesAt, FileIDV2_ne_FileIDV1]

theorem walkVersions_other (fis : List (GoString × FsNode)) (rootPath : GoString) (f : Bool)
    (err0 : Option Failure) (ver0 : Nat) (ids0 : List GoString) (count : Int)
    (h1 : ver0 ≠ FileIDV1) (h2 : ver0 ≠ FileIDV2) :
    (walkVersions fis rootPath f err0 ver0 ids0 count).2 = [] := by
  simp [walkVersions, h1, h2]

theorem walkVersions_err (fis : List (GoString × FsNode)) (rootPath : GoString) (f : Bool)
    (err0 : Option Failure) (ver0 : Nat) (ids0 : List GoString) (count : Int)
    (h : (walkVersions fis rootPath f err0 ver0 ids0 count).2 ≠ []) :
    (walkVersions fis rootPath f err0 ver0 ids0 count).1 = none := by
  have hl := List.length_pos.2 h
  unfold walkVersions at hl ⊢
  simp only at hl ⊢
  rw [if_pos hl]

theorem listFilesAt_bound (o : Option FsNode) (p : GoString) (v : Nat) (f : Bool)
    (ids : List GoString) (c : Int) (hc : 0 ≤ c) :
    (((listFilesAt o p v f ids c).length : Int) ≤ c) :=
  getFileListAt_bound o p v f ids c hc

theorem walkVersions_bound (fis : List (GoString × FsNode)) (rootPath : GoString) (f : Bool)
    (err0 : Option Failure) (ver0 : Nat) (ids0 : List GoString) (count : Int)
    (hc : 0 ≤ count) :
    (((walkVersions fis rootPath f err0 ver0 ids0 count).2.length : Int) ≤ count) := by
  by_cases h1 : ver0 = FileIDV1
  · subst h1
    rw [walkVersions_V1]
    have b1 := listFilesAt_bound ((FsNode.dir fis).child rPathV1) (pathJoin [rootPath, rPathV1])
      FileIDV1 f ids0 count hc
    have b2 := listFilesAt_bound ((FsNode.dir fis).child rPathV2) (pathJoin [rootPath, rPathV2])
      FileIDV2 f [] (count - (listFilesAt ((FsNode.dir fis).child rPathV1)
            (pathJoin [rootPath, rPathV1]) FileIDV1 f ids0 count).length) (by omega)
    simp only [List.length_append]; push_cast; omega
  · by_cases h2 : ver0 = FileIDV2
    · subst h2
      rw [walkVersions_V2]
      exact listFilesAt_bound _ _ _ _ _ _ hc
    · rw [walkVersions_other _ _ _ _ _ _ _ h1 h2]; simpa using hc

/-- The limit of `GetFileList`: for every directory tree, cursor, direction and limit
`count ≥ 0`, the call either panics while it decodes the cursor, returning nothing, or returns at
most `count` identifiers, and none when `count` is 0; when the cursor is empty or decodes to
version 1, the result is the batch of the V1 walk followed by the batch of the V2 walk, and the
V2 walk is given `count` less the length of the V1 batch. -/
theorem GetFileList_limit (fs : Option FsNode) (lastFileID rootPath : GoString) (findNext : Bool)
    (count : Int) (hc : 0 ≤ count) :
    (pathInfosFromFileID lastFileID = .error .panicOutOfRange
      ∧ GetFileList fs lastFileID rootPath findNext count = .error .panicOutOfRange)
    ∨ ∃ err files, GetFileList fs lastFileID rootPath findNext count = .ok (err, files)
        ∧ (files.length : Int) ≤ count ∧ (count = 0 → files = [])
        ∧ ∀ fis ids, fs = some (.dir fis) →
            decodeCursor lastFileID = .ok (none, FileIDV1, ids) →
            files =
              listFilesAt ((FsNode.dir fis).child rPathV1) (pathJoin [rootPath, rPathV1])
                  FileIDV1 findNext ids count
                ++ listFilesAt ((FsNode.dir fis).child rPathV2) (pathJoin [rootPath, rPathV2])
                  FileIDV2 findNext []
                  (count - (listFilesAt ((FsNode.dir fis).child rPathV1)
                    (pathJoin [rootPath, rPathV1]) FileIDV1 findNext ids count).length) := by
  have hnil : ∀ files : List GoString, (files.length : Int) ≤ count → count = 0 → files = [] := by
    intro files h1 h2
    apply List.length_eq_zero.1
    omega
  cases fs with
  | none =>
    right
    exact ⟨_, _, rfl, by simpa using hc, fun _ => rfl, fun fis ids h => by cases h⟩
  | some node =>
    cases node with
    | file =>
      right
      exact ⟨_, _, rfl, by simpa using hc, fun _ => rfl, fun fis ids h => by cases h⟩
    | dir fis =>
      cases hd : decodeCursor lastFileID with
      | error e =>
        left
        rcases decodeCursor_cases lastFileID with h | h | h | h
        · rw [h.2] at hd; cases hd
        · obtain ⟨_, ver, ids, _, h2⟩ := h; rw [h2] at hd; cases hd
        · obtain ⟨_, h1, h2⟩ := h
          rw [h2] at hd; cases hd
          exact ⟨h1, by simp [GetFileList, h2]⟩
        · obtain ⟨_, e', _, _, h2⟩ := h; rw [h2] at hd; cases hd
      | ok r =>
        obtain ⟨err0, ver0, ids0⟩ := r
        right
        have hb := walkVersions_bound fis rootPath findNext err0 ver0 ids0 count hc
        refine ⟨(walkVersions fis rootPath findNext err0 ver0 ids0 count).1,
          (walkVersions fis rootPath findNext err0 ver0 ids0 count).2,
          by simp only [GetFileList, hd], hb, hnil _ hb, ?_⟩
        intro fis' ids hfs hdec
        have e1 : fis = fis' := by
          simp only [Option.some.injEq, FsNode.dir.injEq] at hfs
          exact hfs
        have e2 : (none, FileIDV1, ids) = (err0, ver0, ids0) :=
          Except.ok.inj hdec.symm
        simp only [Prod.mk.injEq] at e2
        obtain ⟨e3, e4, e5⟩ := e2
        subst e1 e3 e4 e5
        exact walkVersions_V1 _ _ _ _ _ _

set_option maxRecDepth 100000 in
/-- C15: on the store of the test suite with the limit 0, `GetFileList` at the cursor
`v2-6-abc-x` does not return: the cursor decodes to an identity with the 3-byte hash `abc`, and
the slice `fileMD5[0:4]` of `getDataDirForVer` panics before any walk. The same happens
backward at the V1 cursor `81d95db337a18c65384d35ba7ea2.fda-7.none`, whose first `.` stands
before the size. A cursor that fails to decode, such as `x`, is answered with the error and no
identifier, and the empty cursor with no error and no identifier. -/
theorem C15_limit_zero_panics :
    newFileInfoFromFileID "v2-6-abc-x".toList
        = .ok (fileInfo.mk FileIDV2 "abc".toList 6 "x".toList [])
    ∧ GetFileList (some sampleStore) "v2-6-abc-x".toList sampleRoot true 0
        = .error .panicOutOfRange
    ∧ GetFileList (some sampleStore) "81d95db337a18c65384d35ba7ea2.fda-7.none".toList
        sampleRoot false 0 = .error .panicOutOfRange
    ∧ GetFileList (some sampleStore) "x".toList sampleRoot true 0
        = .ok (some .errorInvalidFileID, [])
    ∧ GetFileList (some sampleStore) [] sampleRoot true 0 = .ok (none, []) := by
  refine ⟨by decide, by decide, by decide, by decide, by decide⟩

/-! ## C21: decoding a cursor -/

/-- C21, at the failing inputs: the V1 cursor `81d95db337a18c65384d35ba7ea2.fda-7.none`, whose
first `.` stands before byte 33, passes the tests of `newFileInfoFromFileID` and panics on the
slice `fileID[33:dotIdx]`; the V2 cursor `v2-6-abc-x` decodes and panics on `fileMD5[0:4]` in
`getDataDirForVer`; the V2 cursor `v2-7-81d95db337a18c65384d35ba7ea2a/..-x` gives 8 segments,
not 9. The well-formed cursors give 8 segments under V1 and 9 under V2. -/
theorem C21_cursor_decoding_panics :
    pathInfosFromFileID "81d95db337a18c65384d35ba7ea2.fda-7.none".toList
      = .error .panicOutOfRange
    ∧ pathInfosFromFileID "v2-6-abc-x".toList = .error .panicOutOfRange
    ∧ pathInfosFromFileID "v2-7-81d95db337a18c65384d35ba7ea2a/..-x".toList
      = .ok (FileIDV2, ["7".toList, "81d9".toList, "5db3".toList, "37a1".toList, "8c65".toList,
          "384d".toList, "35ba".toList, "7ea2".toList])
    ∧ pathInfosFromFileID "81d95db337a18c65384d35ba7ea2efda-7.none".toList
      = .ok (FileIDV1, ["81d9".toList, "5db3".toList, "37a1".toList, "8c65".toList,
          "384d".toList, "35ba".toList, "7ea2".toList, "efda".toList])
    ∧ pathInfosFromFileID "v2-6-81d95db337a18c65384d35ba7ea2efda-ab.test".toList
      = .ok (FileIDV2, ["6".toList, "81d9".toList, "5db3".toList, "37a1".toList, "8c65".toList,
          "384d".toList, "35ba".toList, "7ea2".toList, "efda".toList]) := by
  refine ⟨by decide, by decide, by decide, by decide, by decide⟩

/-! ## The limit cuts the unlimited walk -/

theorem fileOutcome_continue (p : GoString) (v : Nat) (name : GoString)
    (h : (fileOutcome p v name).1 = true) : (fileOutcome p v name).2 = [] := by
  rcases fileOutcome_cases p v name with h1 | h1 | ⟨fileID, h1, _⟩
  · rw [h1]
  · rw [h1] at h; cases h
  · rw [h1] at h; cases h

theorem fileOutcome_length (p : GoString) (v : Nat) (name : GoString) :
    (fileOutcome p v name).2.length ≤ 1 := by
  rcases fileOutcome_cases p v name with h1 | h1 | ⟨fileID, h1, _⟩ <;> rw [h1] <;> simp

/-- The callback never reads the files collected so far. -/
theorem coreCallback_shift (p : GoString) (v : Nat) (f : Bool) (ids : List GoString)
    (fi : GoString × FsNode) (cur : GoString) (nx : List GoString) (l : Int)
    (fl : List GoString) :
    (coreCallback p v f ids fi ⟨cur, nx, l, fl⟩).2 = (coreCallback p v f ids fi ⟨cur, nx, l, []⟩).2
    ∧ (coreCallback p v f ids fi ⟨cur, nx, l, fl⟩).1.curID
        = (coreCallback p v f ids fi ⟨cur, nx, l, []⟩).1.curID
    ∧ (coreCallback p v f ids fi ⟨cur, nx, l, fl⟩).1.nextIDs
        = (coreCallback p v f ids fi ⟨cur, nx, l, []⟩).1.nextIDs
    ∧ (coreCallback p v f ids fi ⟨cur, nx, l, fl⟩).1.leftCount
        = (coreCallback p v f ids fi ⟨cur, nx, l, []⟩).1.leftCount
    ∧ (coreCallback p v f ids fi ⟨cur, nx, l, fl⟩).1.files
        = fl ++ (coreCallback p v f ids fi ⟨cur, nx, l, []⟩).1.files := by
  unfold coreCallback
  split_ifs <;> simp

theorem loop_files_shift (p : GoString) (v : Nat) (f : Bool) (ids : List GoString)
    (xs : List (GoString × FsNode)) :
    ∀ (cur : GoString) (nx : List GoString) (l : Int) (fl : List GoString),
      (utilWalkLoop (coreCallback p v f ids) xs ⟨cur, nx, l, fl⟩).files
        = fl ++ (utilWalkLoop (coreCallback p v f ids) xs ⟨cur, nx, l, []⟩).files := by
  induction xs with
  | nil => intro cur nx l fl; simp [utilWalkLoop]
  | cons fi rest ih =>
    intro cur nx l fl
    obtain ⟨h1, h2, h3, h4, h5⟩ := coreCallback_shift p v f ids fi cur nx l fl
    simp only [utilWalkLoop, h1]
    generalize coreCallback p v f ids fi ⟨cur, nx, l, fl⟩ = a at h1 h2 h3 h4 h5
    generalize coreCallback p v f ids fi ⟨cur, nx, l, []⟩ = b at h1 h2 h3 h4 h5
    obtain ⟨⟨c1, n1, l1, f1⟩, g1⟩ := a
    obtain ⟨⟨c2, n2, l2, f2⟩, g2⟩ := b
    simp only at h1 h2 h3 h4 h5
    subst h1 h2 h3 h4 h5
    split_ifs
    · rw [ih c1 n1 l1 (fl ++ f2), ih c1 n1 l1 f2, List.append_assoc]
    · rfl

theorem loop_neg (p : GoString) (v : Nat) (f : Bool) (ids : List GoString)
    (xs : List (GoString × FsNode))
    (hxs : ∀ fi ∈ xs, ∀ (p' : GoString) (ids' : List GoString) (c c' : Int), c < 0 → c' < 0 →
      listFiles fi.2 p' v f ids' c = listFiles fi.2 p' v f ids' c') :
    ∀ (cur : GoString) (nx : List GoString) (fl : List GoString) (l l' : Int), l < 0 → l' < 0 →
      (utilWalkLoop (coreCallback p v f ids) xs ⟨cur, nx, l, fl⟩).files
        = (utilWalkLoop (coreCallback p v f ids) xs ⟨cur, nx, l', fl⟩).files := by
  induction xs with
  | nil => intro cur nx fl l l' _ _; rfl
  | cons fi rest ih =>
    intro cur nx fl l l' hl hl'
    obtain ⟨name, node⟩ := fi
    have ih' := ih (fun fi hfi => hxs fi (List.mem_cons_of_mem _ hfi))
    simp only [utilWalkLoop]
    cases node with
    | file =>
      by_cases hids : ids = []
      · subst hids
        rw [coreCallback_file_free, coreCallback_file_free]
        simp only
        split_ifs
        · exact ih' _ _ _ _ _ hl hl'
        · rfl
      · rw [coreCallback_file_guard p v f ids name _ hids,
          coreCallback_file_guard p v f ids name _ hids]
        simp
    | dir fis =>
      by_cases hskip : cur ≠ [] ∧ cur ≠ name
      · rw [coreCallback_dir_skip p v f ids name fis _ hskip.1 hskip.2,
          coreCallback_dir_skip p v f ids name fis _ hskip.1 hskip.2]
        simp only [if_true]
        exact ih' _ _ _ _ _ hl hl'
      · have hv : cur = [] ∨ cur = name := by
          by_cases h : cur = []
          · exact Or.inl h
          · right; by_contra h'; exact hskip ⟨h, h'⟩
        rw [coreCallback_dir_visit p v f ids name fis _ hv,
          coreCallback_dir_visit p v f ids name fis _ hv]
        simp only
        have hr := hxs (name, .dir fis) (List.mem_cons_self _ _) (pathJoin [p, name]) nx l l'
          hl hl'
        simp only at hr
        rw [hr]
        generalize listFiles (.dir fis) (pathJoin [p, name]) v f nx l' = new
        have g1 : l - (new.length : Int) ≠ 0 := by omega
        have g2 : l' - (new.length : Int) ≠ 0 := by omega
        simp only [g1, g2, ne_eq, not_false_eq_true, decide_True, if_true]
        exact ih' _ _ _ _ _ (by omega) (by omega)

theorem listFiles_neg (v : Nat) (f : Bool) :
    ∀ (node : FsNode) (p : GoString) (ids : List GoString) (c c' : Int), c < 0 → c' < 0 →
      listFiles node p v f ids c = listFiles node p v f ids c' := by
  intro node
  induction node using FsNode.induct with
  | hfile => intro p ids c c' _ _; rw [listFiles_file, listFiles_file]
  | hdir fis ih =>
    intro p ids c c' hc hc'
    rw [listFiles_dir_core, listFiles_dir_core]
    have h0 : c ≠ 0 := by omega
    have h0' : c' ≠ 0 := by omega
    simp only [h0, h0', if_false]
    apply loop_neg p v f ids _ _ _ _ _ _ _ hc hc'
    intro fi hfi
    apply ih fi
    cases f with
    | true => simpa using hfi
    | false => simpa using hfi

theorem loop_take (p : GoString) (v : Nat) (f : Bool) (ids : List GoString)
    (xs : List (GoString × FsNode))
    (hneg : ∀ fi ∈ xs, ∀ (p' : GoString) (ids' : List GoString) (c c' : Int), c < 0 → c' < 0 →
      listFiles fi.2 p' v f ids' c = listFiles fi.2 p' v f ids' c')
    (htake : ∀ fi ∈ xs, ∀ (p' : GoString) (ids' : List GoString) (c : Int), 0 ≤ c →
      listFiles fi.2 p' v f ids' c = (listFiles fi.2 p' v f ids' (-1)).take c.toNat) :
    ∀ (cur : GoString) (nx : List GoString) (l l' : Int), 0 < l → l' < 0 →
      (utilWalkLoop (coreCallback p v f ids) xs ⟨cur, nx, l, []⟩).files
        = ((utilWalkLoop (coreCallback p v f ids) xs ⟨cur, nx, l', []⟩).files).take l.toNat := by
  induction xs with
  | nil => intro cur nx l l' _ _; simp [utilWalkLoop]
  | cons fi rest ih =>
    intro cur nx l l' hl hl'
    obtain ⟨name, node⟩ := fi
    have hl2 : (l.toNat : Int) = l := Int.toNat_of_nonneg (by omega)
    have ih' := ih (fun fi hfi => hneg fi (List.mem_cons_of_mem _ hfi))
      (fun fi hfi => htake fi (List.mem_cons_of_mem _ hfi))
    simp only [utilWalkLoop]
    cases node with
    | file =>
      by_cases hids : ids = []
      · subst hids
        rw [coreCallback_file_free, coreCallback_file_free]
        simp only [List.nil_append]
        by_cases ho : (fileOutcome p v name).1 = true
        · simp only [ho, if_true, fileOutcome_continue p v name ho]
          exact ih' _ _ _ _ hl hl'
        · simp only [ho, if_false]
          have := fileOutcome_length p v name
          have e : List.take l.toNat (fileOutcome p v name).2 = (fileOutcome p v name).2 :=
            List.take_of_length_le (by omega)
          exact e.symm
      · rw [coreCallback_file_guard p v f ids name _ hids,
          coreCallback_file_guard p v f ids name _ hids]
        simp
    | dir fis =>
      by_cases hskip : cur ≠ [] ∧ cur ≠ name
      · rw [coreCallback_dir_skip p v f ids name fis _ hskip.1 hskip.2,
          coreCallback_dir_skip p v f ids name fis _ hskip.1 hskip.2]
        simp only [if_true]
        exact ih' _ _ _ _ hl hl'
      · have hv : cur = [] ∨ cur = name := by
          by_cases h : cur = []
          · exact Or.inl h
          · right; by_contra h'; exact hskip ⟨h, h'⟩
        rw [coreCallback_dir_visit p v f ids name fis _ hv,
          coreCallback_dir_visit p v f ids name fis _ hv]
        simp only [List.nil_append]
        have hr1 := htake (name, .dir fis) (List.mem_cons_self _ _) (pathJoin [p, name]) nx l
          (by omega)
        have hr2 := hneg (name, .dir fis) (List.mem_cons_self _ _) (pathJoin [p, name]) nx l'
          (-1) hl' (by omega)
        simp only at hr1 hr2
        rw [hr1, hr2]
        generalize listFiles (.dir fis) (pathJoin [p, name]) v f nx (-1) = r
        generalize (if cur ≠ [] then [] else nx) = nx2
        have g2 : l' - (r.length : Int) ≠ 0 := by omega
        simp only [g2, ne_eq, not_false_eq_true, decide_True, if_true]
        rw [loop_files_shift p v f ids rest [] nx2 (l' - r.length) r]
        by_cases hlt : (r.length : Int) < l
        · have e1 : List.take l.toNat r = r := List.take_of_length_le (by omega)
          have g1 : l - (r.length : Int) ≠ 0 := by omega
          simp only [e1, g1, ne_eq, not_false_eq_true, decide_True, if_true]
          rw [loop_files_shift p v f ids rest [] nx2 (l - r.length) r,
            ih' [] nx2 (l - r.length) (l' - r.length) (by omega) (by omega),
            List.take_append_eq_append_take, e1]
          congr 2
          omega
        · have e1 : (List.take l.toNat r).length = l.toNat := by
            rw [List.length_take]; omega
          have g1 : l - ((List.take l.toNat r).length : Int) = 0 := by rw [e1]; omega
          simp only [g1, ne_eq, not_true_eq_false, decide_False, Bool.false_eq_true, if_false]
          rw [List.take_append_of_le_length (by omega)]

theorem listFiles_take (v : Nat) (f : Bool) :
    ∀ (node : FsNode) (p : GoString) (ids : List GoString) (c : Int), 0 ≤ c →
      listFiles node p v f ids c = (listFiles node p v f ids (-1)).take c.toNat := by
  intro node
  induction node using FsNode.induct with
  | hfile => intro p ids c _; rw [listFiles_file, listFiles_file]; simp
  | hdir fis ih =>
    intro p ids c hc
    rw [listFiles_dir_core, listFiles_dir_core]
    by_cases h0 : c = 0
    · simp [h0]
    · have h1 : (-1 : Int) ≠ 0 := by omega
      simp only [h0, h1, if_false]
      have hm : ∀ fi ∈ (if f then fis else fis.reverse), fi ∈ fis := by
        intro fi hfi
        cases f with
        | true => simpa using hfi
        | false => simpa using hfi
      apply loop_take p v f ids _ _ _ _ _ _ _ (by omega) (by omega)
      · intro fi hfi; exact listFiles_neg v f fi.2
      · intro fi hfi; exact ih fi (hm fi hfi)

/-- The files of the walk with a limit `c`: all the files of the unlimited walk when `c` is
negative, the first `c` of them otherwise. -/
theorem listFiles_limit (v : Nat) (f : Bool) (node : FsNode) (p : GoString)
    (ids : List GoString) (c : Int) :
    listFiles node p v f ids c =
      if c < 0 then listFiles node p v f ids (-1)
      else (listFiles node p v f ids (-1)).take c.toNat := by
  split_ifs with h
  · exact listFiles_neg v f node p ids c (-1) h (by omega)
  · exact listFiles_take v f node p ids c (by omega)

/-! ## The unlimited walk of a shard tree -/

theorem mem_walkOrder {α : Type} (f : Bool) (fis : List α) (x : α) :
    x ∈ walkOrder f fis ↔ x ∈ fis := by
  unfold walkOrder; cases f <;> simp

theorem shardTree_isDir (v k : Nat) (n : FsNode) (h : shardTree v k n) : n.IsDir = true := by
  cases n with
  | file => cases k <;> simp [shardTree] at h
  | dir fis => rfl

theorem isDir_eq_dir (n : FsNode) (h : n.IsDir = true) : ∃ fis, n = .dir fis := by
  cases n with
  | file => cases h
  | dir fis => exact ⟨fis, rfl⟩

theorem isDir_eq_file (n : FsNode) (h : n.IsDir = false) : n = .file := by
  cases n with
  | file => rfl
  | dir fis => cases h

/-- The loop over a directory of files with no segment pending. -/
theorem loop_leaf_free (p : GoString) (v : Nat) (f : Bool) (xs : List (GoString × FsNode))
    (hxs : ∀ fi ∈ xs, fi.2.IsDir = false) :
    ∀ (cur : GoString) (nx : List GoString) (l : Int),
      (utilWalkLoop (coreCallback p v f []) xs ⟨cur, nx, l, []⟩).files = leafEmit p v xs := by
  induction xs with
  | nil => intro cur nx l; rfl
  | cons fi rest ih =>
    intro cur nx l
    obtain ⟨name, node⟩ := fi
    have hn : node = .file := isDir_eq_file node (hxs (name, node) (List.mem_cons_self _ _))
    subst hn
    have ih' := ih (fun fi hfi => hxs fi (List.mem_cons_of_mem _ hfi))
    simp only [utilWalkLoop, coreCallback_file_free, leafEmit, List.nil_append]
    split_ifs
    · rw [loop_files_shift, ih']
    · simp

/-- The loop over a directory of files with a segment pending (the guard). -/
theorem loop_leaf_guard (p : GoString) (v : Nat) (f : Bool) (ids : List GoString)
    (hids : ids ≠ []) (xs : List (GoString × FsNode)) (hxs : ∀ fi ∈ xs, fi.2.IsDir = false)
    (s : walkCore) :
    (utilWalkLoop (coreCallback p v f ids) xs s).files = s.files := by
  cases xs with
  | nil => rfl
  | cons fi rest =>
    obtain ⟨name, node⟩ := fi
    have hn : node = .file := isDir_eq_file node (hxs (name, node) (List.mem_cons_self _ _))
    subst hn
    simp [utilWalkLoop, coreCallback_file_guard p v f ids name s hids]

/-- The loop over a directory of directories with no segment pending. -/
theorem loop_free_dirs (p : GoString) (v : Nat) (f : Bool) (ids : List GoString)
    (xs : List (GoString × FsNode)) (hxs : ∀ fi ∈ xs, fi.2.IsDir = true) :
    ∀ (l : Int), l < 0 →
      (utilWalkLoop (coreCallback p v f ids) xs ⟨[], [], l, []⟩).files
        = xs.flatMap (fun fi => listFiles fi.2 (pathJoin [p, fi.1]) v f [] (-1)) := by
  induction xs with
  | nil => intro l _; rfl
  | cons fi rest ih =>
    intro l hl
    obtain ⟨name, node⟩ := fi
    obtain ⟨fis, hn⟩ := isDir_eq_dir node (hxs (name, node) (List.mem_cons_self _ _))
    subst hn
    have ih' := ih (fun fi hfi => hxs fi (List.mem_cons_of_mem _ hfi))
    rw [utilWalkLoop, coreCallback_dir_visit p v f ids name fis _ (Or.inl rfl)]
    simp only [List.nil_append, List.flatMap_cons]
    rw [listFiles_neg v f (.dir fis) (pathJoin [p, name]) [] l (-1) hl (by omega)]
    generalize listFiles (.dir fis) (pathJoin [p, name]) v f [] (-1) = r
    have g : l - (r.length : Int) ≠ 0 := by omega
    simp only [g, ne_eq, not_false_eq_true, decide_True, if_true, not_true_eq_false, if_false]
    rw [loop_files_shift, ih' _ (by omega)]

/-- The loop over a directory of directories with the segment `q0` pending. -/
theorem loop_seek_dirs (p : GoString) (v : Nat) (f : Bool) (ids : List GoString)
    (q0 : GoString) (hq0 : q0 ≠ []) (nx : List GoString)
    (xs : List (GoString × FsNode)) (hxs : ∀ fi ∈ xs, fi.2.IsDir = true) :
    ∀ (l : Int), l < 0 →
      (utilWalkLoop (coreCallback p v f ids) xs ⟨q0, nx, l, []⟩).files
        = match xs.dropWhile (fun fi => fi.1 ≠ q0) with
          | [] => []
          | fi :: rest =>
            listFiles fi.2 (pathJoin [p, fi.1]) v f nx (-1)
              ++ rest.flatMap (fun fi => listFiles fi.2 (pathJoin [p, fi.1]) v f [] (-1)) := by
  induction xs with
  | nil => intro l _; rfl
  | cons fi rest ih =>
    intro l hl
    obtain ⟨name, node⟩ := fi
    obtain ⟨fis, hn⟩ := isDir_eq_dir node (hxs (name, node) (List.mem_cons_self _ _))
    subst hn
    have hrest := fun fi hfi => hxs fi (List.mem_cons_of_mem _ hfi)
    have ih' := ih hrest
    rw [utilWalkLoop, List.dropWhile_cons]
    by_cases hname : name = q0
    · subst hname
      rw [coreCallback_dir_visit p v f ids name fis _ (Or.inr rfl)]
      simp only [List.nil_append, ne_eq, not_true_eq_false, decide_False, Bool.false_eq_true,
        if_false]
      rw [listFiles_neg v f (.dir fis) (pathJoin [p, name]) nx l (-1) hl (by omega)]
      generalize listFiles (.dir fis) (pathJoin [p, name]) v f nx (-1) = r
      have g : l - (r.length : Int) ≠ 0 := by omega
      simp only [g, hq0, not_false_eq_true, decide_True, if_true]
      rw [loop_files_shift, loop_free_dirs p v f ids rest hrest _ (by omega)]
    · have h2 : q0 ≠ name := fun h => hname h.symm
      rw [coreCallback_dir_skip p v f ids name fis _ hq0 h2]
      simp only [if_true, ne_eq, hname, not_false_eq_true, decide_True]
      exact ih' l hl

theorem emitAt_cons (p : GoString) (v : Nat) (name : GoString)
    (a : List GoString × List (GoString × FsNode)) :
    emitAt p v (name :: a.1, a.2) = emitAt (pathJoin [p, name]) v a := by
  simp [emitAt, nodePath]

theorem flatMap_emitAt_cons (p : GoString) (v : Nat) (name : GoString)
    (as : List (List GoString × List (GoString × FsNode))) :
    (as.map (fun a => (name :: a.1, a.2))).flatMap (emitAt p v)
      = as.flatMap (emitAt (pathJoin [p, name]) v) := by
  rw [List.flatMap_map]
  rfl

/-- The unlimited walk of a shard tree with no segment pending collects, leaf directory by leaf
directory in the order of the walk, what each leaf directory gives. -/
theorem listFiles_free (v : Nat) (f : Bool) :
    ∀ (k : Nat) (node : FsNode) (p : GoString), shardTree v k node →
      listFiles node p v f [] (-1) = (walkDirs f k node).flatMap (emitAt p v) := by
  intro k
  induction k with
  | zero =>
    intro node p h
    cases node with
    | file => simp [shardTree] at h
    | dir fis =>
      simp only [shardTree] at h
      rw [listFiles_dir_core]
      simp only [show (-1 : Int) ≠ 0 by omega, if_false, walkDirs, List.flatMap_cons,
        List.flatMap_nil, List.append_nil, emitAt, nodePath, List.foldl_nil]
      have := loop_leaf_free p v f (walkOrder f fis)
        (fun fi hfi => (h.2 fi ((mem_walkOrder f fis fi).1 hfi)).1)
      exact this _ _ _
  | succ k ih =>
    intro node p h
    cases node with
    | file => simp [shardTree] at h
    | dir fis =>
      simp only [shardTree] at h
      rw [listFiles_dir_core]
      simp only [show (-1 : Int) ≠ 0 by omega, if_false, walkDirs]
      have hd : ∀ fi ∈ walkOrder f fis, fi.2.IsDir = true := fun fi hfi =>
        shardTree_isDir v k fi.2 (h.2 fi ((mem_walkOrder f fis fi).1 hfi)).2
      have := loop_free_dirs p v f [] (walkOrder f fis) hd (-1) (by omega)
      have e : coreInit [] (-1) = ⟨[], [], -1, []⟩ := rfl
      rw [e]
      unfold walkOrder at this ⊢
      rw [this, List.flatMap_assoc]
      apply List.flatMap_congr
      intro fi hfi
      rw [flatMap_emitAt_cons]
      exact ih fi.2 (pathJoin [p, fi.1])
        (h.2 fi ((mem_walkOrder f fis fi).1 hfi)).2

/-- The unlimited walk of a shard tree that resumes at the segments `q`. -/
theorem listFiles_seek (v : Nat) (f : Bool) :
    ∀ (k : Nat) (node : FsNode) (p : GoString) (q : List GoString), shardTree v k node →
      q.length = k → (∀ s ∈ q, s ≠ []) →
      listFiles node p v f (q ++ [guardID]) (-1) = (seekDirs f k node q).flatMap (emitAt p v) := by
  intro k
  induction k with
  | zero =>
    intro node p q h hq _
    cases node with
    | file => simp [shardTree] at h
    | dir fis =>
      simp only [shardTree] at h
      have hq' : q = [] := List.length_eq_zero.1 hq
      subst hq'
      rw [listFiles_dir_core]
      simp only [show (-1 : Int) ≠ 0 by omega, if_false, List.nil_append]
      have := loop_leaf_guard p v f [guardID] (by simp) (walkOrder f fis)
        (fun fi hfi => (h.2 fi ((mem_walkOrder f fis fi).1 hfi)).1) (coreInit [guardID] (-1))
      unfold walkOrder at this
      rw [this]
      simp [coreInit, seekDirs]
  | succ k ih =>
    intro node p q h hq hne
    cases node with
    | file => simp [shardTree] at h
    | dir fis =>
      simp only [shardTree] at h
      obtain ⟨q0, qs, rfl⟩ : ∃ q0 qs, q = q0 :: qs := by
        cases q with
        | nil => simp at hq
        | cons a b => exact ⟨a, b, rfl⟩
      have hqs : qs.length = k := by simpa using hq
      have hq0 : q0 ≠ [] := hne q0 (List.mem_cons_self _ _)
      rw [listFiles_dir_core]
      simp only [show (-1 : Int) ≠ 0 by omega, if_false]
      have e : coreInit (q0 :: qs ++ [guardID]) (-1) = ⟨q0, qs ++ [guardID], -1, []⟩ := by
        simp [coreInit]
      rw [e]
      have hd : ∀ fi ∈ walkOrder f fis, fi.2.IsDir = true := fun fi hfi =>
        shardTree_isDir v k fi.2 (h.2 fi ((mem_walkOrder f fis fi).1 hfi)).2
      have := loop_seek_dirs p v f (q0 :: qs ++ [guardID]) q0 hq0 (qs ++ [guardID])
        (walkOrder f fis) hd (-1) (by omega)
      unfold walkOrder at this hd
      rw [this]
      simp only [seekDirs, walkOrder]
      have hsub : ∀ fi ∈ (if f = true then fis else fis.reverse).dropWhile
          (fun fi => decide (fi.1 ≠ q0)), fi ∈ fis := by
        intro fi hfi
        have h1 := (List.dropWhile_suffix _).subset hfi
        cases f with
        | true => simpa using h1
        | false => simpa using h1
      generalize (if f = true then fis else fis.reverse).dropWhile
          (fun fi => decide (fi.1 ≠ q0)) = ys at hsub
      cases ys with
      | nil => rfl
      | cons fi rest =>
        simp only [List.flatMap_append]
        rw [flatMap_emitAt_cons, List.flatMap_assoc]
        congr 1
        · exact ih fi.2 (pathJoin [p, fi.1]) qs (h.2 fi (hsub fi (List.mem_cons_self _ _))).2
            hqs (fun s hs => hne s (List.mem_cons_of_mem _ hs))
        · apply List.flatMap_congr
          intro fi2 hfi2
          rw [flatMap_emitAt_cons]
          exact listFiles_free v f k fi2.2 (pathJoin [p, fi2.1])
            (h.2 fi2 (hsub fi2 (List.mem_cons_of_mem _ hfi2))).2

/-! ## Joining names onto a cleaned path -/

theorem stringsSplit_ne_nil (sep : Char) (s : GoString) : stringsSplit sep s ≠ [] := by
  intro h
  have := stringsSplit_length sep s
  rw [h] at this
  simp at this

theorem stringsSplit_append_sep (sep : Char) (a b : GoString) :
    stringsSplit sep (a ++ sep :: b) = stringsSplit sep a ++ stringsSplit sep b := by
  induction a with
  | nil => simp [stringsSplit]
  | cons c cs ih =>
    by_cases h : c = sep
    · simp [stringsSplit, h, ih]
    · simp only [List.cons_append, stringsSplit, h, if_false]
      cases hs : stringsSplit sep cs with
      | nil => exact absurd hs (stringsSplit_ne_nil sep cs)
      | cons x xs =>
        have ih2 : stringsSplit sep (cs.append (sep :: b)) = x :: xs ++ stringsSplit sep b := by
          rw [← hs]; exact ih
        rw [ih2]; rfl

theorem stringsSplit_mem_no_sep (sep : Char) (s : GoString) :
    ∀ e ∈ stringsSplit sep s, sep ∉ e := by
  induction s with
  | nil => intro e he; simp [stringsSplit] at he; subst he; simp
  | cons c cs ih =>
    intro e he
    by_cases h : c = sep
    · simp only [stringsSplit, h, if_true, List.mem_cons] at he
      rcases he with he | he
      · subst he; simp
      · exact ih e he
    · simp only [stringsSplit, h, if_false] at he
      cases hs : stringsSplit sep cs with
      | nil => exact absurd hs (stringsSplit_ne_nil sep cs)
      | cons x xs =>
        rw [hs] at he ih
        simp only [List.mem_cons] at he
        rcases he with he | he
        · subst he
          have := ih x (List.mem_cons_self _ _)
          simp only [List.mem_cons, not_or]
          exact ⟨fun hh => h hh.symm, this⟩
        · exact ih e (List.mem_cons_of_mem _ he)

theorem pathClean_eq (p : GoString) (hp : p ≠ []) :
    pathClean p =
      if (if p.head? = some '/' then ['/'] else []) ++ stringsJoin (cleanStack p).reverse ['/']
          = [] then ['.']
      else (if p.head? = some '/' then ['/'] else [])
        ++ stringsJoin (cleanStack p).reverse ['/'] := by
  simp [pathClean, hp, cleanStack]

theorem stringsJoin_ne_nil (es : List GoString) (hne : es ≠ []) (h : ∀ e ∈ es, e ≠ []) :
    stringsJoin es ['/'] ≠ [] := by
  cases es with
  | nil => exact absurd rfl hne
  | cons a rest =>
    obtain ⟨tail, ht⟩ := stringsJoin_head a rest ['/']
    rw [ht]
    simp [h a (List.mem_cons_self _ _)]

theorem cleanStack_snoc (b x : GoString) (hb : b ≠ []) (hx : plainElem x) :
    cleanStack (b ++ '/' :: x) = x :: cleanStack b := by
  have hh : (b ++ '/' :: x).head? = b.head? := by
    cases b with
    | nil => exact absurd rfl hb
    | cons c cs => rfl
  unfold cleanStack
  rw [stringsSplit_append_sep, stringsSplit_no_sep _ _ hx.2.1, List.foldl_append, hh]
  simp only [List.foldl_cons, List.foldl_nil]
  exact cleanStep_plain _ _ _ hx

theorem pathJoin_pair (b x : GoString) (hb : b ≠ []) (hx : x ≠ []) :
    pathJoin [b, x] = pathClean (b ++ '/' :: x) := by
  simp [pathJoin, hb, hx, stringsJoin]

/-- Joining a plain name onto a cleaned path appends it. -/
theorem pathJoin_cleanBase (b x : GoString) (hb : CleanBase b) (hx : plainElem x) :
    pathJoin [b, x] = b ++ '/' :: x ∧ CleanBase (b ++ '/' :: x) := by
  obtain ⟨hb1, hb2, hb3⟩ := hb
  have hne : b ++ '/' :: x ≠ [] := by simp
  have hh : (b ++ '/' :: x).head? = b.head? := by
    cases b with
    | nil => exact absurd rfl hb1
    | cons c cs => rfl
  have hclean : pathClean (b ++ '/' :: x) = b ++ '/' :: x := by
    rw [pathClean_eq _ hne, cleanStack_snoc b x hb1 hx, hh]
    rw [pathClean_eq b hb1] at hb3
    have hrev : (x :: cleanStack b).reverse = (cleanStack b).reverse ++ [x] := by simp
    rw [hrev, stringsJoin_snoc _ _ _ (by simpa using hb2)]
    have hout : (if b.head? = some '/' then ['/'] else [])
        ++ stringsJoin (cleanStack b).reverse ['/'] = b := by
      by_cases ho : (if b.head? = some '/' then ['/'] else [])
        ++ stringsJoin (cleanStack b).reverse ['/'] = []
      · rw [if_pos ho] at hb3
        -- b = "." : its stack is empty
        rw [← hb3] at hb2
        exact absurd (by decide) hb2
      · rw [if_neg ho] at hb3; exact hb3
    have e : (if b.head? = some '/' then ['/'] else [])
        ++ (stringsJoin (cleanStack b).reverse ['/'] ++ ['/'] ++ x) = b ++ '/' :: x := by
      rw [← List.append_assoc, ← List.append_assoc, hout]; simp
    rw [e]
    simp
  refine ⟨by rw [pathJoin_pair b x hb1 hx.1, hclean], hne, ?_, hclean⟩
  rw [cleanStack_snoc b x hb1 hx]
  simp

/-! ## `path.Clean` is idempotent -/

theorem normalStack_mem (r : Bool) (K : List GoString) (hK : normalStack r K) :
    ∀ e ∈ K, e ≠ [] ∧ '/' ∉ e := by
  induction K with
  | nil => intro e he; cases he
  | cons a rest ih =>
    intro e he
    simp only [normalStack] at hK
    rcases List.mem_cons.1 he with h | h
    · subst h; exact ⟨hK.1, hK.2.1⟩
    · exact ih hK.2.2.2.2 e h

theorem cleanStep_normal (r : Bool) (K : List GoString) (e : GoString) (he : '/' ∉ e)
    (hK : normalStack r K) : normalStack r (cleanStep r K e) := by
  unfold cleanStep
  by_cases h1 : e = [] ∨ e = ['.']
  · simp only [h1, if_true]; exact hK
  · simp only [h1, if_false]
    have h1a : e ≠ [] := fun h => h1 (Or.inl h)
    have h1b : e ≠ ['.'] := fun h => h1 (Or.inr h)
    by_cases h2 : e = ['.', '.']
    · simp only [h2, if_true]
      cases K with
      | nil =>
        cases r with
        | true => simp [normalStack]
        | false => simp [normalStack]
      | cons top below =>
        simp only
        by_cases h3 : top = ['.', '.']
        · simp only [h3, if_true]
          cases r with
          | true => simpa [h3] using hK
          | false =>
            simp only [Bool.false_eq_true, if_false]
            subst h3
            have hK' := hK
            rw [normalStack] at hK'
            rw [normalStack]
            refine ⟨by simp, by simp, by simp, fun _ => ⟨rfl, ?_⟩, hK⟩
            intro x hx
            rcases List.mem_cons.1 hx with h | h
            · exact h
            · exact (hK'.2.2.2.1 rfl).2 x h
        · simp only [h3, if_false]
          simp only [normalStack] at hK
          exact hK.2.2.2.2
    · simp only [h2, if_false]
      simp only [normalStack]
      exact ⟨h1a, he, h1b, fun h => absurd h h2, hK⟩

theorem foldl_cleanStep_normal (r : Bool) (es : List GoString) (hes : ∀ e ∈ es, '/' ∉ e) :
    ∀ K, normalStack r K → normalStack r (es.foldl (cleanStep r) K) := by
  induction es with
  | nil => intro K hK; exact hK
  | cons a rest ih =>
    intro K hK
    rw [List.foldl_cons]
    exact ih (fun e he => hes e (List.mem_cons_of_mem _ he)) _
      (cleanStep_normal r K a (hes a (List.mem_cons_self _ _)) hK)

theorem cleanStack_normal (p : GoString) :
    normalStack (decide (p.head? = some '/')) (cleanStack p) :=
  foldl_cleanStep_normal _ _ (stringsSplit_mem_no_sep '/' p) [] trivial

theorem foldl_cleanStep_reverse (r : Bool) (K : List GoString) (hK : normalStack r K) :
    K.reverse.foldl (cleanStep r) [] = K := by
  induction K with
  | nil => rfl
  | cons e rest ih =>
    simp only [normalStack] at hK
    obtain ⟨h1, _, h3, h4, h5⟩ := hK
    rw [List.reverse_cons, List.foldl_append, ih h5]
    simp only [List.foldl_cons, List.foldl_nil]
    unfold cleanStep
    simp only [h1, h3, or_self, if_false]
    by_cases h2 : e = ['.', '.']
    · obtain ⟨hr, hall⟩ := h4 h2
      subst hr
      simp only [h2, if_true]
      cases rest with
      | nil => simp
      | cons top below =>
        have := hall top (List.mem_cons_self _ _)
        simp [this]
    · simp only [h2, if_false]

theorem render_clean (r : Bool) (K : List GoString) (hK : normalStack r K) (hne : K ≠ []) :
    (if r = true then ['/'] else []) ++ stringsJoin K.reverse ['/'] ≠ []
    ∧ cleanStack ((if r = true then ['/'] else []) ++ stringsJoin K.reverse ['/']) = K
    ∧ pathClean ((if r = true then ['/'] else []) ++ stringsJoin K.reverse ['/'])
        = (if r = true then ['/'] else []) ++ stringsJoin K.reverse ['/'] := by
  have hmem := normalStack_mem r K hK
  have hrne : K.reverse ≠ [] := by simpa using hne
  have hmem' : ∀ e ∈ K.reverse, e ≠ [] ∧ '/' ∉ e := fun e he => hmem e (List.mem_reverse.1 he)
  have hJ : stringsJoin K.reverse ['/'] ≠ [] :=
    stringsJoin_ne_nil _ hrne (fun e he => (hmem' e he).1)
  have hsplit : stringsSplit '/' (stringsJoin K.reverse ['/']) = K.reverse :=
    stringsSplit_join _ hrne (fun e he => (hmem' e he).2)
  have hb : (if r = true then ['/'] else []) ++ stringsJoin K.reverse ['/'] ≠ [] := by
    simp [hJ]
  have hhead : decide (((if r = true then ['/'] else [])
      ++ stringsJoin K.reverse ['/']).head? = some '/') = r := by
    cases r with
    | true => simp
    | false =>
      simp only [Bool.false_eq_true, if_false, List.nil_append, decide_eq_false_iff_not]
      cases hK' : K.reverse with
      | nil => exact absurd hK' hrne
      | cons a rest =>
        obtain ⟨tail, ht⟩ := stringsJoin_head a rest ['/']
        have ha := hmem' a (by rw [hK']; exact List.mem_cons_self _ _)
        obtain ⟨c, cs, hacs⟩ := List.exists_cons_of_ne_nil ha.1
        have hc : c ≠ '/' := fun hh => ha.2 (by rw [hacs, hh]; simp)
        rw [ht, hacs]
        simp [hc]
  have hstack : cleanStack ((if r = true then ['/'] else []) ++ stringsJoin K.reverse ['/'])
      = K := by
    unfold cleanStack
    rw [hhead]
    cases r with
    | true =>
      have e1 : (if true = true then ['/'] else []) ++ stringsJoin K.reverse ['/']
          = '/' :: stringsJoin K.reverse ['/'] := rfl
      have e2 : stringsSplit '/' ('/' :: stringsJoin K.reverse ['/'])
          = [] :: stringsSplit '/' (stringsJoin K.reverse ['/']) := by simp [stringsSplit]
      rw [e1, e2, hsplit, List.foldl_cons]
      have : cleanStep true [] [] = [] := by simp [cleanStep]
      rw [this]
      exact foldl_cleanStep_reverse true K hK
    | false =>
      simp only [Bool.false_eq_true, if_false, List.nil_append, hsplit]
      exact foldl_cleanStep_reverse false K hK
  refine ⟨hb, hstack, ?_⟩
  rw [pathClean_eq _ hb, hstack]
  have hh2 : ((if r = true then ['/'] else []) ++ stringsJoin K.reverse ['/']).head? = some '/'
      ↔ r = true := by
    have := hhead
    cases r with
    | true => simp
    | false => simpa using this
  simp only [hh2]
  rw [if_neg hb]

/-- The result of `path.Clean` on a path that keeps an element is a cleaned path. -/
theorem cleanBase_pathClean (s : GoString) (hs : s ≠ []) (hk : cleanStack s ≠ []) :
    CleanBase (pathClean s) := by
  have hn := cleanStack_normal s
  obtain ⟨h1, h2, h3⟩ := render_clean _ _ hn hk
  have e : pathClean s = (if decide (s.head? = some '/') = true then ['/'] else [])
      ++ stringsJoin (cleanStack s).reverse ['/'] := by
    rw [pathClean_eq s hs]
    simp only [decide_eq_true_eq] at h1 ⊢
    rw [if_neg h1]
  rw [e]
  exact ⟨h1, by rw [h2]; exact hk, h3⟩

theorem cleanStack_plain (x : GoString) (hx : plainElem x) : cleanStack x = [x] := by
  unfold cleanStack
  rw [stringsSplit_no_sep _ _ hx.2.1]
  simp only [List.foldl_cons, List.foldl_nil]
  exact cleanStep_plain _ _ _ hx

/-- The path of a version directory is a cleaned path, whatever the storage root. -/
theorem cleanBase_pathJoin (rootPath x : GoString) (hx : plainElem x) :
    CleanBase (pathJoin [rootPath, x]) := by
  by_cases hr : rootPath = []
  · subst hr
    have e : pathJoin [[], x] = pathClean x := by simp [pathJoin, hx.1, stringsJoin]
    rw [e]
    exact cleanBase_pathClean x hx.1 (by rw [cleanStack_plain x hx]; simp)
  · rw [pathJoin_pair rootPath x hr hx.1]
    exact cleanBase_pathClean _ (by simp) (by rw [cleanStack_snoc rootPath x hr hx]; simp)

theorem nodePath_cleanBase (a : List GoString) (ha : ∀ x ∈ a, plainElem x) :
    ∀ p, CleanBase p →
      nodePath p a = p ++ a.flatMap (fun x => '/' :: x) ∧ CleanBase (nodePath p a) := by
  induction a with
  | nil => intro p hp; simp [nodePath, hp]
  | cons x rest ih =>
    intro p hp
    obtain ⟨h1, h2⟩ := pathJoin_cleanBase p x hp (ha x (List.mem_cons_self _ _))
    have := ih (fun y hy => ha y (List.mem_cons_of_mem _ hy)) (p ++ '/' :: x) h2
    simp only [nodePath, List.foldl_cons, h1, List.flatMap_cons] at this ⊢
    exact ⟨by rw [this.1]; simp, this.2⟩

theorem flatMap_sep_join (a : List GoString) (name : GoString) :
    a.flatMap (fun x => '/' :: x) ++ '/' :: name = '/' :: stringsJoin (a ++ [name]) ['/'] := by
  induction a with
  | nil => simp [stringsJoin]
  | cons x rest ih =>
    have hne : rest ++ [name] ≠ [] := by simp
    obtain ⟨y, ys, hy⟩ := List.exists_cons_of_ne_nil hne
    simp only [List.flatMap_cons, List.cons_append, List.append_assoc, ih, hy,
      stringsJoin_cons_cons]
    simp

/-- The path that the walk builds for a file: the path of the version directory, then the names
of the directories and of the file, each after a `/`. -/
theorem filePath_eq (p : GoString) (hp : CleanBase p) (a : List GoString)
    (ha : ∀ x ∈ a, plainElem x) (name : GoString) (hn : plainElem name) :
    pathJoin [nodePath p a, name] = p ++ '/' :: stringsJoin (a ++ [name]) ['/'] := by
  obtain ⟨h1, h2⟩ := nodePath_cleanBase a ha p hp
  rw [(pathJoin_cleanBase _ name h2 hn).1, h1, List.append_assoc, flatMap_sep_join]

/-! ## The hash read off the names of the shard directories -/

theorem flatten_length_four (a : List GoString) (h : ∀ s ∈ a, s.length = 4) :
    a.flatten.length = 4 * a.length := by
  induction a with
  | nil => rfl
  | cons x xs ih =>
    have hx := h x (List.mem_cons_self _ _)
    have := ih (fun s hs => h s (List.mem_cons_of_mem _ hs))
    simp only [List.flatten_cons, List.length_append, List.length_cons, hx, this]
    omega

theorem chunks_unique : ∀ (a b : List GoString), (∀ s ∈ a, s.length = 4) →
    (∀ s ∈ b, s.length = 4) → a.flatten = b.flatten → a = b := by
  intro a
  induction a with
  | nil =>
    intro b _ hb e
    cases b with
    | nil => rfl
    | cons y ys =>
      have hy := hb y (List.mem_cons_self _ _)
      have : (y :: ys).flatten.length = 0 := by rw [← e]; rfl
      simp only [List.flatten_cons, List.length_append, hy] at this
      omega
  | cons x xs ih =>
    intro b ha hb e
    have hx := ha x (List.mem_cons_self _ _)
    cases b with
    | nil =>
      have : (x :: xs).flatten.length = 0 := by rw [e]; rfl
      simp only [List.flatten_cons, List.length_append, hx] at this
      omega
    | cons y ys =>
      have hy := hb y (List.mem_cons_self _ _)
      simp only [List.flatten_cons] at e
      obtain ⟨e1, e2⟩ := List.append_inj e (by rw [hx, hy])
      rw [e1, ih ys (fun s hs => ha s (List.mem_cons_of_mem _ hs))
        (fun s hs => hb s (List.mem_cons_of_mem _ hs)) e2]

theorem hashAddr_flatten (a : List GoString) (ha : a.length = 8)
    (hs : ∀ s ∈ a, hashDirName s) : hexHash a.flatten ∧ hashSegments a.flatten = a := by
  have hl : a.flatten.length = 32 := by
    rw [flatten_length_four a (fun s h => (hs s h).1), ha]
  have hh : hexHash a.flatten := by
    refine ⟨hl, ?_⟩
    intro c hc
    obtain ⟨s, hs1, hs2⟩ := List.mem_flatten.1 hc
    exact (hs s hs1).2 c hs2
  refine ⟨hh, ?_⟩
  apply chunks_unique
  · intro s hs1
    obtain ⟨i, hi, rfl⟩ := hashSegments_mem _ s hs1
    exact segment_length _ hl i hi
  · exact fun s h => (hs s h).1
  · exact hashSegments_join _ hl

theorem hashDirName_plain (s : GoString) (h : hashDirName s) : plainElem s := by
  refine plainElem_of_chars _ ?_ (not_mem_of_hex _ _ h.2 (by decide))
    (not_mem_of_hex _ _ h.2 (by decide))
  intro he; have := h.1; rw [he] at this; simp at this

theorem hashSegments_hashDirName (h : GoString) (hh : hexHash h) :
    ∀ s ∈ hashSegments h, hashDirName s := by
  intro s hs
  obtain ⟨i, hi, rfl⟩ := hashSegments_mem h s hs
  exact ⟨segment_length h hh.1 i hi, fun c hc => hh.2 c (segment_mem h i c hc)⟩

/-! ## Reading an identifier off the path of a file of the walk -/

/-- When `parseFileIDFromFilePath` succeeds on a path that ends in `/` and a relative path
with the number of segments of the version, the part it splits is that relative path, wherever
the first `/V<v>/` stands. -/
theorem parse_cut (v : Nat) (hv : v = FileIDV1 ∨ v = FileIDV2) (X rel id : GoString)
    (h : parseFileIDFromFilePath (X ++ '/' :: rel) v = .ok id)
    (hcount : rel.count '/' + 1 = if v = FileIDV1 then 9 else 10) :
    ∃ idx, stringsIndex (X ++ '/' :: rel) (versionKey v) = some idx
      ∧ (X ++ '/' :: rel).drop (idx + 4) = rel ∧ idx + 4 ≤ (X ++ '/' :: rel).length := by
  have hkl : (versionKey v).length = 4 := versionKey_length v
  cases hidx : stringsIndex (X ++ '/' :: rel) (versionKey v) with
  | none =>
    exfalso
    rcases hv with hv | hv <;> subst hv
    · have hkey : Separators ++ rPathV1 ++ Separators = versionKey FileIDV1 := by
        simp [versionKey]
      simp [parseFileIDFromFilePath, hkey, hidx] at h
    · have hkey : Separators ++ rPathV2 ++ Separators = versionKey FileIDV2 := by
        simp [versionKey, FileIDV2_ne_FileIDV1]
      simp [parseFileIDFromFilePath, FileIDV2_ne_FileIDV1, hkey, hidx] at h
  | some idx =>
    obtain ⟨pre, rest, hsplit, hpre⟩ := stringsIndex_some_split _ _ _ hidx
    have hdrop : (X ++ '/' :: rel).drop (idx + 4) = rest := by
      rw [hsplit, ← hpre, ← hkl, ← List.append_assoc, ← List.length_append, List.drop_left]
    have hlen : idx + 4 ≤ (X ++ '/' :: rel).length := by
      rw [hsplit, ← hpre]; simp only [List.length_append, hkl]; omega
    have hsl : sliceFrom (X ++ '/' :: rel) (idx + 4) = .ok rest := by
      unfold sliceFrom; rw [if_pos hlen, hdrop]
    have hlast : ∃ Y, versionKey v = Y ++ ['/'] := by
      rcases hv with hv | hv <;> subst hv
      · exact ⟨['/', 'V', '1'], rfl⟩
      · exact ⟨['/', 'V', '2'], rfl⟩
    obtain ⟨Y, hY⟩ := hlast
    have heq : X ++ '/' :: rel = (pre ++ Y) ++ '/' :: rest := by
      rw [hsplit, hY]; simp
    have hrest : (stringsSplit '/' rest).length = if v = FileIDV1 then 9 else 10 := by
      by_contra hne
      rcases hv with hv | hv <;> subst hv
      · have hkey : Separators ++ rPathV1 ++ Separators = versionKey FileIDV1 := by
          simp [versionKey]
        simp only [if_true] at hne
        simp [parseFileIDFromFilePath, hkey, hidx, hkl, hsl, bind, Except.bind, hne] at h
      · have hkey : Separators ++ rPathV2 ++ Separators = versionKey FileIDV2 := by
          simp [versionKey, FileIDV2_ne_FileIDV1]
        simp only [FileIDV2_ne_FileIDV1, if_false] at hne
        simp [parseFileIDFromFilePath, FileIDV2_ne_FileIDV1, hkey, hidx, hkl, hsl, bind,
          Except.bind, hne] at h
    rw [stringsSplit_length] at hrest
    have hc : rel.count '/' = rest.count '/' := by omega
    have := suffix_of_count X (pre ++ Y) rel rest heq hc
    exact ⟨idx, rfl, by rw [hdrop, this], hlen⟩

theorem snoc_take_getD (a : List GoString) (name : GoString) (k : Nat) (ha : a.length = k) :
    (a ++ [name]).length = k + 1 ∧ (a ++ [name]).take k = a
      ∧ (a ++ [name]).getD k [] = name := by
  subst ha
  refine ⟨by simp, by simp, ?_⟩
  simp [List.getD, List.getElem?_append_right]

theorem parse_V1_names (a : List GoString) (name : GoString) (ha : a.length = 8)
    (hs : ∀ s ∈ a, hashDirName s) (hn : '/' ∉ name)
    (filePath : GoString) (idx : Nat)
    (hidx : stringsIndex filePath (versionKey FileIDV1) = some idx)
    (hrest : filePath.drop (idx + 4) = stringsJoin (a ++ [name]) ['/'])
    (hlen : idx + 4 ≤ filePath.length) :
    parseFileIDFromFilePath filePath FileIDV1 =
      match ParseUint name with
      | .ok n => .ok (listedID FileIDV1 a.flatten n)
      | .error e => .error e := by
  have hkey : Separators ++ rPathV1 ++ Separators = versionKey FileIDV1 := by
    simp [versionKey]
  have hkl : (versionKey FileIDV1).length = 4 := by decide
  obtain ⟨hh, _⟩ := hashAddr_flatten a ha hs
  have hsplit : stringsSplit '/' (stringsJoin (a ++ [name]) ['/']) = a ++ [name] := by
    apply stringsSplit_join _ (by simp)
    intro e he
    rcases List.mem_append.1 he with he | he
    · exact (hashDirName_plain e (hs e he)).2.1
    · simp only [List.mem_singleton] at he; rw [he]; exact hn
  obtain ⟨h9, htake, hget⟩ := snoc_take_getD a name 8 ha
  have hid : ∀ n, (fileInfo.mk FileIDV1 a.flatten n BuildInDataName []).getFileID
      = .ok (listedID FileIDV1 a.flatten n) := by
    intro n
    unfold fileInfo.getFileID
    rw [getFileIDByVer_V1_named _ (hexHash_ne_nil _ hh)
      (show BuildInDataName ≠ [] by decide)]
    simp [listedID, v1Extension_no_dot BuildInDataName (by decide)]
  unfold parseFileIDFromFilePath
  simp only [if_true, hkey, hidx, hkl, sliceFrom, hlen, hrest, hsplit, bind, Except.bind, pure,
    Except.pure, h9, htake, hget, stringsJoin_nil_sep, ne_eq, not_true_eq_false, if_false]
  cases ParseUint name with
  | error e => rfl
  | ok n =>
    simp only [newFileInfoFromRawInfoWithVersion_hex FileIDV1 a.flatten n BuildInDataName hh]
    exact hid n

theorem snoc_take_drop_getD (sz : GoString) (a : List GoString) (name : GoString)
    (ha : a.length = 8) :
    (sz :: a ++ [name]).length = 10 ∧ ((sz :: a ++ [name]).take 9).drop 1 = a
      ∧ (sz :: a ++ [name]).getD 0 [] = sz := by
  refine ⟨by simp [ha], ?_, rfl⟩
  have : (sz :: a ++ [name]).take 9 = sz :: a := by
    have h1 : (sz :: a).length = 9 := by simp [ha]
    rw [← h1]
    exact List.take_left _ _
  rw [this]; rfl

theorem parse_V2_names (sz : GoString) (a : List GoString) (ha : a.length = 8)
    (hs : ∀ s ∈ a, hashDirName s) (hsz : '/' ∉ sz)
    (filePath : GoString) (idx : Nat)
    (hidx : stringsIndex filePath (versionKey FileIDV2) = some idx)
    (hrest : filePath.drop (idx + 4) = stringsJoin (sz :: a ++ [BuildInDataName]) ['/'])
    (hlen : idx + 4 ≤ filePath.length) :
    parseFileIDFromFilePath filePath FileIDV2 =
      match ParseUint sz with
      | .ok n => .ok (listedID FileIDV2 a.flatten n)
      | .error e => .error e := by
  have hkey : Separators ++ rPathV2 ++ Separators = versionKey FileIDV2 := by
    simp [versionKey, FileIDV2_ne_FileIDV1]
  have hkl : (versionKey FileIDV2).length = 4 := by decide
  obtain ⟨hh, _⟩ := hashAddr_flatten a ha hs
  have hsplit : stringsSplit '/' (stringsJoin (sz :: a ++ [BuildInDataName]) ['/'])
      = sz :: a ++ [BuildInDataName] := by
    apply stringsSplit_join _ (by simp)
    intro e he
    simp only [List.cons_append, List.mem_cons, List.mem_append, List.mem_singleton,
      List.not_mem_nil, or_false] at he
    rcases he with he | he | he
    · rw [he]; exact hsz
    · exact (hashDirName_plain e (hs e he)).2.1
    · rw [he]; decide
  obtain ⟨h10, htake, hget⟩ := snoc_take_drop_getD sz a BuildInDataName ha
  have hid : ∀ n, (fileInfo.mk FileIDV2 a.flatten n BuildInDataName []).getFileID
      = .ok (listedID FileIDV2 a.flatten n) := by
    intro n
    unfold fileInfo.getFileID
    rw [getFileIDByVer_V2 _ (hexHash_ne_nil _ hh)]
    simp [listedID, FileIDV2_ne_FileIDV1]
  unfold parseFileIDFromFilePath
  simp only [FileIDV2_ne_FileIDV1, if_false, if_true, hkey, hidx, hkl, sliceFrom, hlen, hrest,
    hsplit, bind, Except.bind, pure, Except.pure, h10, htake, hget, stringsJoin_nil_sep, ne_eq,
    not_true_eq_false]
  cases ParseUint sz with
  | error e => rfl
  | ok n =>
    have hraw := newFileInfoFromRawInfoWithVersion_hex 2 a.flatten n BuildInDataName hh
    simp only [newFileInfoFromRawInfo, FileIDVMAX, hraw]
    exact hid n

/-! ## What a file of a leaf directory gives -/

theorem parseUintLoop_digits : ∀ (s : GoString) (acc n : Nat), parseUintLoop s acc = .ok n →
    ∀ c ∈ s, isDigit c := by
  intro s
  induction s with
  | nil => intro acc n _ c hc; cases hc
  | cons x xs ih =>
    intro acc n h c hc
    unfold parseUintLoop at h
    by_cases hx : '0' ≤ x ∧ x ≤ '9'
    · simp only [hx, and_self, if_true] at h
      split_ifs at h with h1 h2
      rcases List.mem_cons.1 hc with hc | hc
      · rw [hc]; exact hx
      · exact ih _ _ h c hc
    · simp only [hx, if_false] at h
      cases h

theorem ParseUint_digits (s : GoString) (n : Nat) (h : ParseUint s = .ok n) :
    s ≠ [] ∧ ∀ c ∈ s, isDigit c := by
  unfold ParseUint at h
  by_cases hs : s = []
  · simp [hs] at h
  · simp only [hs, if_false] at h
    exact ⟨hs, parseUintLoop_digits s 0 n h⟩

theorem ParseInt_plain (s : GoString) (m : Int) (h : ParseInt s = .ok m) : plainElem s := by
  cases s with
  | nil => simp [ParseInt] at h
  | cons c cs =>
    simp only [ParseInt] at h
    cases hb : ParseUint (if c = '+' ∨ c = '-' then cs else c :: cs) with
    | error e => rw [hb] at h; cases h
    | ok un =>
      obtain ⟨hne, hd⟩ := ParseUint_digits _ _ hb
      have hall : ∀ x ∈ c :: cs, isDigit x ∨ x = '+' ∨ x = '-' := by
        intro x hx
        by_cases hc : c = '+' ∨ c = '-'
        · simp only [hc, if_true] at hd
          rcases List.mem_cons.1 hx with hx | hx
          · rw [hx]; exact Or.inr hc
          · exact Or.inl (hd x hx)
        · simp only [hc, if_false] at hd
          exact Or.inl (hd x hx)
      apply plainElem_of_chars _ (by simp)
      · intro hm
        rcases hall _ hm with h1 | h1 | h1
        · exact absurd h1 (by decide)
        · exact absurd h1 (by decide)
        · exact absurd h1 (by decide)
      · intro hm
        rcases hall _ hm with h1 | h1 | h1
        · exact absurd h1 (by decide)
        · exact absurd h1 (by decide)
        · exact absurd h1 (by decide)

theorem sizeDirName_spec (sz : GoString) (h : sizeDirName sz) :
    ∃ n, n ≤ maxUint64 ∧ ParseUint sz = .ok n ∧ formatUint n = sz := by
  unfold sizeDirName at h
  cases hp : ParseUint sz with
  | error e => rw [hp] at h; exact absurd h (by simp)
  | ok n =>
    rw [hp] at h
    simp only at h
    refine ⟨n, ?_, rfl, h⟩
    by_contra hgt
    have hd : decimalValue sz = n := by rw [← h]; exact decimalValue_formatUint n
    -- the parsed value is within the range
    have : ∀ (s : GoString) (acc r : Nat), parseUintLoop s acc = .ok r → acc ≤ maxUint64 →
        r ≤ maxUint64 := by
      intro s
      induction s with
      | nil => intro acc r hr ha; simp only [parseUintLoop] at hr; cases hr; exact ha
      | cons x xs ih =>
        intro acc r hr _
        unfold parseUintLoop at hr
        dsimp only at hr
        split_ifs at hr with h1 h2 h3
        exact ih _ _ hr (Nat.le_of_not_gt h3)
    unfold ParseUint at hp
    split_ifs at hp with h0
    exact hgt (this sz 0 n hp (by decide))

theorem sizeDirName_plain (sz : GoString) (h : sizeDirName sz) : plainElem sz := by
  obtain ⟨n, _, _, hn⟩ := sizeDirName_spec sz h
  rw [← hn]; exact plainElem_formatUint n

/-- The identifier that a file of a V1 leaf directory gives, whatever the storage root: the
listed identifier of the hash that the directories spell and of the size that the name reads
as. -/
theorem fileOutcome_V1_sound (p : GoString) (hp : CleanBase p) (a : List GoString)
    (ha : a.length = 8) (hs : ∀ s ∈ a, hashDirName s) (name id : GoString)
    (h : id ∈ (fileOutcome (nodePath p a) FileIDV1 name).2) :
    ∃ n, ParseUint name = .ok n ∧ id = listedID FileIDV1 a.flatten n := by
  unfold fileOutcome at h
  simp only [if_true] at h
  cases hpi : ParseInt name with
  | error e => rw [hpi] at h; simp at h
  | ok m =>
    rw [hpi] at h
    simp only at h
    by_cases hm : m = 0
    · simp [hm] at h
    · simp only [hm, if_false] at h
      have hplain := ParseInt_plain name m hpi
      have hpath := filePath_eq p hp a (fun x hx => hashDirName_plain x (hs x hx)) name hplain
      rw [hpath] at h
      cases hparse : parseFileIDFromFilePath (p ++ '/' :: stringsJoin (a ++ [name]) ['/'])
          FileIDV1 with
      | error e => rw [hparse] at h; simp at h
      | ok id' =>
        rw [hparse] at h
        simp only [List.mem_singleton] at h
        subst h
        have hall : ∀ e ∈ a ++ [name], '/' ∉ e := by
          intro e he
          rcases List.mem_append.1 he with he | he
          · exact (hashDirName_plain e (hs e he)).2.1
          · simp only [List.mem_singleton] at he; rw [he]; exact hplain.2.1
        have hcount := count_stringsJoin (a ++ [name]) (by simp) hall
        obtain ⟨idx, hidx, hdrop, hlen⟩ := parse_cut FileIDV1 (Or.inl rfl) p _ id hparse
          (by simp only [if_true]; rw [hcount]; simp [ha])
        rw [parse_V1_names a name ha hs hplain.2.1 _ idx hidx hdrop hlen] at hparse
        cases hu : ParseUint name with
        | error e => rw [hu] at hparse; cases hparse
        | ok n =>
          rw [hu] at hparse
          simp only [Except.ok.injEq] at hparse
          exact ⟨n, rfl, hparse.symm⟩

/-- The identifier that a file of a V2 leaf directory gives, whatever the storage root. -/
theorem fileOutcome_V2_sound (p : GoString) (hp : CleanBase p) (sz : GoString)
    (hsz : sizeDirName sz) (a : List GoString)
    (ha : a.length = 8) (hs : ∀ s ∈ a, hashDirName s) (name id : GoString)
    (h : id ∈ (fileOutcome (nodePath p (sz :: a)) FileIDV2 name).2) :
    ∃ n, n ≤ maxUint64 ∧ formatUint n = sz ∧ name = BuildInDataName
      ∧ id = listedID FileIDV2 a.flatten n := by
  unfold fileOutcome at h
  simp only [FileIDV2_ne_FileIDV1, if_false, if_true] at h
  by_cases hname : name = BuildInDataName
  · subst hname
    simp only [if_true] at h
    have hszp := sizeDirName_plain sz hsz
    have hplain : ∀ x ∈ sz :: a, plainElem x := by
      intro x hx
      rcases List.mem_cons.1 hx with hx | hx
      · rw [hx]; exact hszp
      · exact hashDirName_plain x (hs x hx)
    have hpath := filePath_eq p hp (sz :: a) hplain BuildInDataName plainElem_BuildInDataName
    rw [hpath] at h
    cases hparse : parseFileIDFromFilePath
        (p ++ '/' :: stringsJoin (sz :: a ++ [BuildInDataName]) ['/']) FileIDV2 with
    | error e => rw [hparse] at h; simp at h
    | ok id' =>
      rw [hparse] at h
      simp only [List.mem_singleton] at h
      subst h
      have hall : ∀ e ∈ sz :: a ++ [BuildInDataName], '/' ∉ e := by
        intro e he
        rcases List.mem_append.1 he with he | he
        · exact (hplain e he).2.1
        · simp only [List.mem_singleton] at he; rw [he]; decide
      have hcount := count_stringsJoin (sz :: a ++ [BuildInDataName]) (by simp) hall
      obtain ⟨idx, hidx, hdrop, hlen⟩ := parse_cut FileIDV2 (Or.inr rfl) p _ id hparse
        (by simp only [FileIDV2_ne_FileIDV1, if_false]; rw [hcount]; simp [ha])
      rw [parse_V2_names sz a ha hs hszp.2.1 _ idx hidx hdrop hlen] at hparse
      obtain ⟨n, hn, hu, hf⟩ := sizeDirName_spec sz hsz
      rw [hu] at hparse
      simp only [Except.ok.injEq] at hparse
      exact ⟨n, hn, hf, rfl, hparse.symm⟩
  · simp [hname] at h

/-! ## The key of an identifier -/

theorem decode_shape (X : GoString) (d : fileInfo) (h : newFileInfoFromFileID X = .ok d) :
    (d.fileIDVersion = FileIDV1 ∨ d.fileIDVersion = FileIDV2) ∧ d.rDataDir = [] := by
  unfold newFileInfoFromFileID at h
  simp only [bind, Except.bind, pure, Except.pure] at h
  split at h
  · cases h
  · rename_i ver hver
    by_cases h1 : ver = FileIDV1
    · subst h1
      simp only [if_true] at h
      repeat' (split at h)
      all_goals first | (cases h; done) | (cases h; exact ⟨Or.inl rfl, rfl⟩)
    · simp only [h1, if_false] at h
      by_cases h2 : ver = FileIDV2
      · subst h2
        simp only [if_true] at h
        repeat' (split at h)
        all_goals first | (cases h; done) | (cases h; exact ⟨Or.inr rfl, rfl⟩)
      · simp only [h2, if_false] at h
        cases h

theorem decode_ne_nil (X : GoString) (d : fileInfo) (h : newFileInfoFromFileID X = .ok d) :
    X ≠ [] := by
  intro hX
  subst hX
  have e : newFileInfoFromFileID [] = .error .errorInvalidFileID := by decide
  rw [e] at h
  cases h

theorem shardKey_plain (v : Nat) (h : GoString) (n : Nat) (hh : hexHash h) :
    ∀ e ∈ shardKey v h n, plainElem e := by
  intro e he
  unfold shardKey at he
  split_ifs at he
  · exact plainElem_hashSegments h hh e he
  · rcases List.mem_cons.1 he with he | he
    · rw [he]; exact plainElem_formatUint n
    · exact plainElem_hashSegments h hh e he

theorem shardKey_ne_nil (v : Nat) (h : GoString) (n : Nat) : shardKey v h n ≠ [] := by
  unfold shardKey; split_ifs <;> simp [hashSegments]

theorem shardKey_length (v : Nat) (h : GoString) (n : Nat) :
    (shardKey v h n).length = shardDepth v := by
  unfold shardKey shardDepth; split_ifs <;> simp [hashSegments]

/-- The key that `pathInfosFromFileID` gives for an identifier that decodes to an identity with
a 32-digit hexadecimal hash: its version and the segments of its shard directory. -/
theorem pathInfos_of_decode (X : GoString) (fx : fileInfo)
    (h : newFileInfoFromFileID X = .ok fx) (hh : hexHash fx.fileMD5) :
    pathInfosFromFileID X
      = .ok (fx.fileIDVersion, shardKey fx.fileIDVersion fx.fileMD5 fx.fileSize) := by
  obtain ⟨hv, hr⟩ := decode_shape X fx h
  have hsplit : stringsSplit '/'
      (stringsJoin (shardKey fx.fileIDVersion fx.fileMD5 fx.fileSize) ['/'])
      = shardKey fx.fileIDVersion fx.fileMD5 fx.fileSize :=
    stringsSplit_join _ (shardKey_ne_nil _ _ _)
      (fun e he => (shardKey_plain _ _ _ hh e he).2.1)
  have hdir : fx.getDataDir
      = .ok (stringsJoin (shardKey fx.fileIDVersion fx.fileMD5 fx.fileSize) ['/']) := by
    unfold fileInfo.getDataDir
    simp only [hexHash_ne_nil _ hh, hr, ne_eq, not_true_eq_false, if_false]
    rcases hv with hv | hv
    · rw [hv, getDataDirForVer_V1 fx hh]; simp [shardKey]
    · rw [hv, getDataDirForVer_V2 fx hh]; simp [shardKey, FileIDV2_ne_FileIDV1]
  unfold pathInfosFromFileID
  simp only [h, hdir, bind, Except.bind, pure, Except.pure, hsplit]

theorem pathInfos_listedID (v : Nat) (hv : v = FileIDV1 ∨ v = FileIDV2) (h : GoString)
    (n : Nat) (hh : hexHash h) (hn : n ≤ maxUint64) :
    pathInfosFromFileID (listedID v h n) = .ok (v, shardKey v h n) := by
  have hd := listedID_decodes v hv h n hh hn
  exact pathInfos_of_decode _ _ hd hh

/-! ## The order of the names -/

theorem nameLt_irrefl : ∀ a : GoString, ¬ nameLt a a := by
  intro a
  induction a with
  | nil => simp [nameLt]
  | cons c cs ih =>
    rw [nameLt]
    rintro (h | ⟨_, h⟩)
    · exact absurd h (lt_irrefl c)
    · exact ih h

theorem segsLt_irrefl : ∀ a : List GoString, ¬ segsLt a a := by
  intro a
  induction a with
  | nil => simp [segsLt]
  | cons c cs ih =>
    rw [segsLt]
    rintro (h | ⟨_, h⟩)
    · exact nameLt_irrefl c h
    · exact ih h

theorem keyLt_irrefl (a : Nat × List GoString) : ¬ keyLt a a := by
  unfold keyLt
  rintro (h | ⟨_, h⟩)
  · exact absurd h (lt_irrefl _)
  · exact segsLt_irrefl _ h

theorem walkSegsLt_cons_lt (f : Bool) (x y : GoString) (a b : List GoString)
    (h : walkLt f x y) : walkSegsLt f (x :: a) (y :: b) := by
  unfold walkLt at h
  unfold walkSegsLt
  cases f with
  | true => simp only [if_true] at h ⊢; rw [segsLt]; exact Or.inl h
  | false =>
    simp only [Bool.false_eq_true, if_false] at h ⊢; rw [segsLt]; exact Or.inl h

theorem walkSegsLt_cons_eq (f : Bool) (x : GoString) (a b : List GoString)
    (h : walkSegsLt f a b) : walkSegsLt f (x :: a) (x :: b) := by
  unfold walkSegsLt at h ⊢
  cases f with
  | true => simp only [if_true] at h ⊢; rw [segsLt]; exact Or.inr ⟨rfl, h⟩
  | false =>
    simp only [Bool.false_eq_true, if_false] at h ⊢; rw [segsLt]; exact Or.inr ⟨rfl, h⟩

theorem walkSegsLt_irrefl (f : Bool) (a : List GoString) : ¬ walkSegsLt f a a := by
  unfold walkSegsLt; cases f <;> simp [segsLt_irrefl]

theorem walkLt_irrefl (f : Bool) (a : GoString) : ¬ walkLt f a a := by
  unfold walkLt; cases f <;> simp [nameLt_irrefl]

/-- The entries of a sorted directory in the order of the walk. -/
theorem walkOrder_sorted (f : Bool) (fis : List (GoString × FsNode)) (h : sortedNames fis) :
    (walkOrder f fis).Pairwise (fun a b => walkLt f a.1 b.1) := by
  unfold sortedNames at h
  rw [List.pairwise_map] at h
  unfold walkOrder walkLt
  cases f with
  | true => simpa using h
  | false =>
    simp only [Bool.false_eq_true, if_false]
    rw [List.pairwise_reverse]
    exact h

theorem dropWhile_cons_spec {α : Type} (p : α → Bool) :
    ∀ (l : List α) (x : α) (rest : List α), l.dropWhile p = x :: rest →
      p x = false ∧ ∃ pre, l = pre ++ x :: rest ∧ ∀ y ∈ pre, p y = true := by
  intro l
  induction l with
  | nil => intro x rest h; simp at h
  | cons a as ih =>
    intro x rest h
    rw [List.dropWhile_cons] at h
    by_cases hp : p a = true
    · rw [if_pos hp] at h
      obtain ⟨h1, pre, h2, h3⟩ := ih x rest h
      refine ⟨h1, a :: pre, by rw [h2]; rfl, ?_⟩
      intro y hy
      rcases List.mem_cons.1 hy with hy | hy
      · rw [hy]; exact hp
      · exact h3 y hy
    · rw [if_neg hp] at h
      simp only [List.cons.injEq] at h
      obtain ⟨h1, h2⟩ := h
      subst h1 h2
      exact ⟨by simpa using hp, [], rfl, fun y hy => by cases hy⟩

theorem seekDirs_zero (f : Bool) (node : FsNode) (q : List GoString) :
    seekDirs f 0 node q = [] := by
  unfold seekDirs; rfl

theorem seekDirs_file (f : Bool) (k : Nat) (q : List GoString) :
    seekDirs f k .file q = [] := by
  unfold seekDirs; cases k <;> rfl

theorem seekDirs_nil (f : Bool) (k : Nat) (node : FsNode) :
    seekDirs f k node [] = [] := by
  unfold seekDirs
  cases k with
  | zero => rfl
  | succ k => cases node <;> rfl

theorem seekDirs_succ (f : Bool) (k : Nat) (fis : List (GoString × FsNode)) (q0 : GoString)
    (qs : List GoString) :
    seekDirs f (k + 1) (.dir fis) (q0 :: qs) =
      match (walkOrder f fis).dropWhile (fun fi => fi.1 ≠ q0) with
      | [] => []
      | fi :: rest =>
        (seekDirs f k fi.2 qs).map (fun a => (fi.1 :: a.1, a.2))
          ++ rest.flatMap
            (fun fi2 => (walkDirs f k fi2.2).map (fun a => (fi2.1 :: a.1, a.2))) := by
  simp only [seekDirs]

theorem walkDirs_succ (f : Bool) (k : Nat) (fis : List (GoString × FsNode)) :
    walkDirs f (k + 1) (.dir fis) =
      (walkOrder f fis).flatMap
        (fun fi => (walkDirs f k fi.2).map (fun a => (fi.1 :: a.1, a.2))) := by
  rw [walkDirs]

theorem walkDirs_zero (f : Bool) (fis : List (GoString × FsNode)) :
    walkDirs f 0 (.dir fis) = [([], walkOrder f fis)] := by
  rw [walkDirs]

theorem walkDirs_file (f : Bool) (k : Nat) : walkDirs f k .file = [] := by
  cases k <;> rw [walkDirs]

/-! ## The leaf directories that the walk reaches -/

theorem shardTree_child (v k : Nat) (fis : List (GoString × FsNode))
    (h : shardTree v (k + 1) (.dir fis)) :
    sortedNames fis ∧ ∀ fi ∈ fis, dirNameOK v (k + 1) fi.1 ∧ shardTree v k fi.2 := by
  rw [shardTree] at h; exact h

theorem shardTree_leaf (v : Nat) (fis : List (GoString × FsNode))
    (h : shardTree v 0 (.dir fis)) :
    sortedNames fis ∧ ∀ fi ∈ fis, fi.2.IsDir = false ∧ leafNameOK v fi.1 := by
  rw [shardTree] at h; exact h

theorem shardTree_file (v k : Nat) : ¬ shardTree v k .file := by
  cases k <;> simp [shardTree]

theorem mem_walkDirs_succ (f : Bool) (k : Nat) (fis : List (GoString × FsNode))
    (x : List GoString × List (GoString × FsNode)) :
    x ∈ walkDirs f (k + 1) (.dir fis) ↔
      ∃ fi ∈ walkOrder f fis, ∃ y ∈ walkDirs f k fi.2, x = (fi.1 :: y.1, y.2) := by
  rw [walkDirs_succ, List.mem_flatMap]
  constructor
  · rintro ⟨fi, hfi, hx⟩
    obtain ⟨y, hy, rfl⟩ := List.mem_map.1 hx
    exact ⟨fi, hfi, y, hy, rfl⟩
  · rintro ⟨fi, hfi, y, hy, rfl⟩
    exact ⟨fi, hfi, List.mem_map.2 ⟨y, hy, rfl⟩⟩

/-- A leaf directory that the resumed walk reaches is one that the full walk reaches. -/
theorem seekDirs_subset (f : Bool) :
    ∀ (k : Nat) (node : FsNode) (q : List GoString)
      (x : List GoString × List (GoString × FsNode)),
      x ∈ seekDirs f k node q → x ∈ walkDirs f k node := by
  intro k
  induction k with
  | zero => intro node q x h; rw [seekDirs_zero] at h; cases h
  | succ k ih =>
    intro node q x h
    cases node with
    | file => rw [seekDirs_file] at h; cases h
    | dir fis =>
      cases q with
      | nil => rw [seekDirs_nil] at h; cases h
      | cons q0 qs =>
        rw [seekDirs_succ] at h
        cases hd : (walkOrder f fis).dropWhile (fun fi => fi.1 ≠ q0) with
        | nil => rw [hd] at h; cases h
        | cons fi rest =>
          rw [hd] at h
          simp only at h
          obtain ⟨_, pre, hl, _⟩ := dropWhile_cons_spec _ _ _ _ hd
          rw [mem_walkDirs_succ]
          rcases List.mem_append.1 h with h | h
          · obtain ⟨y, hy, rfl⟩ := List.mem_map.1 h
            exact ⟨fi, by rw [hl]; simp, y, ih fi.2 qs y hy, rfl⟩
          · obtain ⟨fi2, hfi2, hx⟩ := List.mem_flatMap.1 h
            obtain ⟨y, hy, rfl⟩ := List.mem_map.1 hx
            exact ⟨fi2, by rw [hl]; simp [hfi2], y, hy, rfl⟩

/-- In a shard tree the leaf directories that the resumed walk reaches come after the segments
at which it resumes, in the order of the walk. -/
theorem seek_order (v : Nat) (f : Bool) :
    ∀ (k : Nat) (node : FsNode) (q : List GoString)
      (x : List GoString × List (GoString × FsNode)),
      shardTree v k node → x ∈ seekDirs f k node q → walkSegsLt f q x.1 := by
  intro k
  induction k with
  | zero => intro node q x _ h; rw [seekDirs_zero] at h; cases h
  | succ k ih =>
    intro node q x ht h
    cases node with
    | file => rw [seekDirs_file] at h; cases h
    | dir fis =>
      cases q with
      | nil => rw [seekDirs_nil] at h; cases h
      | cons q0 qs =>
        obtain ⟨hsort, hch⟩ := shardTree_child v k fis ht
        rw [seekDirs_succ] at h
        cases hd : (walkOrder f fis).dropWhile (fun fi => fi.1 ≠ q0) with
        | nil => rw [hd] at h; cases h
        | cons fi rest =>
          rw [hd] at h
          simp only at h
          obtain ⟨hq, pre, hl, _⟩ := dropWhile_cons_spec _ _ _ _ hd
          have hq0 : fi.1 = q0 := by simpa using hq
          have hpw := walkOrder_sorted f fis hsort
          rw [hl, List.pairwise_append] at hpw
          have hrest := (List.pairwise_cons.1 hpw.2.1).1
          have hfi : fi ∈ fis := (mem_walkOrder f fis fi).1 (by rw [hl]; simp)
          rcases List.mem_append.1 h with h | h
          · obtain ⟨y, hy, rfl⟩ := List.mem_map.1 h
            rw [hq0]
            exact walkSegsLt_cons_eq f q0 qs y.1 (ih fi.2 qs y (hch fi hfi).2 hy)
          · obtain ⟨fi2, hfi2, hx⟩ := List.mem_flatMap.1 h
            obtain ⟨y, hy, rfl⟩ := List.mem_map.1 hx
            have := hrest fi2 hfi2
            rw [hq0] at this
            exact walkSegsLt_cons_lt f q0 fi2.1 qs y.1 this

/-- In a shard tree the walk reaches the leaf directories in the order of their segments. -/
theorem walkDirs_sorted (v : Nat) (f : Bool) :
    ∀ (k : Nat) (node : FsNode), shardTree v k node →
      (walkDirs f k node).Pairwise (fun x y => walkSegsLt f x.1 y.1) := by
  intro k
  induction k with
  | zero =>
    intro node ht
    cases node with
    | file => exact absurd ht (shardTree_file v 0)
    | dir fis => rw [walkDirs_zero]; simp
  | succ k ih =>
    intro node ht
    cases node with
    | file => exact absurd ht (shardTree_file v _)
    | dir fis =>
      obtain ⟨hsort, hch⟩ := shardTree_child v k fis ht
      rw [walkDirs_succ, List.pairwise_flatMap]
      constructor
      · intro fi hfi
        rw [List.pairwise_map]
        exact (ih fi.2 (hch fi ((mem_walkOrder f fis fi).1 hfi)).2).imp
          (fun h => walkSegsLt_cons_eq f fi.1 _ _ h)
      · refine (walkOrder_sorted f fis hsort).imp ?_
        intro a b hab x hx y hy
        obtain ⟨x', _, rfl⟩ := List.mem_map.1 hx
        obtain ⟨y', _, rfl⟩ := List.mem_map.1 hy
        exact walkSegsLt_cons_lt f a.1 b.1 _ _ hab

theorem walkDirs_distinct (v : Nat) (f : Bool) (k : Nat) (node : FsNode)
    (ht : shardTree v k node) :
    (walkDirs f k node).Pairwise (fun x y => x.1 ≠ y.1) :=
  by
  refine (walkDirs_sorted v f k node ht).imp ?_
  intro a b h e
  rw [e] at h
  exact walkSegsLt_irrefl f _ h

/-- The names on the way to a leaf directory of a tree of hash directories, and its files. -/
theorem walkDirs_names (v : Nat) (f : Bool) :
    ∀ (k : Nat) (node : FsNode) (x : List GoString × List (GoString × FsNode)), k ≤ 8 →
      shardTree v k node → x ∈ walkDirs f k node →
      x.1.length = k ∧ (∀ s ∈ x.1, hashDirName s)
        ∧ (∀ fi ∈ x.2, fi.2.IsDir = false ∧ leafNameOK v fi.1)
        ∧ x.2.Pairwise (fun a b => walkLt f a.1 b.1) := by
  intro k
  induction k with
  | zero =>
    intro node x _ ht hx
    cases node with
    | file => exact absurd ht (shardTree_file v 0)
    | dir fis =>
      obtain ⟨hsort, hl⟩ := shardTree_leaf v fis ht
      rw [walkDirs_zero] at hx
      simp only [List.mem_singleton] at hx
      subst hx
      exact ⟨rfl, fun s hs => absurd hs (List.not_mem_nil s),
        fun fi hfi => hl fi ((mem_walkOrder f fis fi).1 hfi), walkOrder_sorted f fis hsort⟩
  | succ k ih =>
    intro node x hk ht hx
    cases node with
    | file => exact absurd ht (shardTree_file v _)
    | dir fis =>
      obtain ⟨_, hch⟩ := shardTree_child v k fis ht
      obtain ⟨fi, hfi, y, hy, rfl⟩ := (mem_walkDirs_succ f k fis x).1 hx
      have hfi' := (mem_walkOrder f fis fi).1 hfi
      obtain ⟨h1, h2, h3, h4⟩ := ih fi.2 y (by omega) (hch fi hfi').2 hy
      have hname : hashDirName fi.1 := by
        have := (hch fi hfi').1
        unfold dirNameOK at this
        rw [if_neg (by omega)] at this
        exact this
      refine ⟨by simp [h1], ?_, h3, h4⟩
      intro s hs
      rcases List.mem_cons.1 hs with hs | hs
      · rw [hs]; exact hname
      · exact h2 s hs

theorem walkDirs_names_V2 (f : Bool) (node : FsNode)
    (x : List GoString × List (GoString × FsNode))
    (ht : shardTree FileIDV2 9 node) (hx : x ∈ walkDirs f 9 node) :
    ∃ sz a, x.1 = sz :: a ∧ sizeDirName sz ∧ a.length = 8 ∧ (∀ s ∈ a, hashDirName s) := by
  cases node with
  | file => exact absurd ht (shardTree_file _ _)
  | dir fis =>
    obtain ⟨_, hch⟩ := shardTree_child FileIDV2 8 fis ht
    obtain ⟨fi, hfi, y, hy, rfl⟩ := (mem_walkDirs_succ f 8 fis x).1 hx
    have hfi' := (mem_walkOrder f fis fi).1 hfi
    obtain ⟨h1, h2, _, _⟩ := walkDirs_names FileIDV2 f 8 fi.2 y (by omega) (hch fi hfi').2 hy
    have hname : sizeDirName fi.1 := by
      have := (hch fi hfi').1
      unfold dirNameOK at this
      rw [if_pos ⟨rfl, rfl⟩] at this
      exact this
    exact ⟨fi.1, y.1, rfl, hname, h1, h2⟩

/-! ## `GetFileList` on a store -/

theorem limitCut_subset {α : Type} (c : Int) (l : List α) : ∀ x ∈ limitCut c l, x ∈ l := by
  intro x hx
  unfold limitCut at hx
  split_ifs at hx
  · exact hx
  · exact List.mem_of_mem_take hx

theorem listFilesAt_some (n : FsNode) (p : GoString) (v : Nat) (f : Bool)
    (ids : List GoString) (c : Int) :
    listFilesAt (some n) p v f ids c = listFiles n p v f ids c := rfl

theorem listFilesAt_none (p : GoString) (v : Nat) (f : Bool) (ids : List GoString) (c : Int) :
    listFilesAt none p v f ids c = [] := by
  unfold listFilesAt getFileListAt
  split_ifs <;> rfl

theorem listFilesAt_free (v : Nat) (f : Bool) (k : Nat) (o : Option FsNode) (p : GoString)
    (c : Int) (ht : ∀ n, o = some n → shardTree v k n) :
    listFilesAt o p v f [] c = limitCut c ((walkDirsAt f k o).flatMap (emitAt p v)) := by
  cases o with
  | none => rw [listFilesAt_none]; unfold limitCut walkDirsAt; split_ifs <;> simp
  | some n =>
    rw [listFilesAt_some, listFiles_limit, listFiles_free v f k n p (ht n rfl)]
    rfl

theorem listFilesAt_seek (v : Nat) (f : Bool) (k : Nat) (o : Option FsNode) (p : GoString)
    (q : List GoString) (c : Int) (ht : ∀ n, o = some n → shardTree v k n)
    (hq : q.length = k) (hne : ∀ s ∈ q, s ≠ []) :
    listFilesAt o p v f (q ++ [guardID]) c
      = limitCut c ((seekDirsAt f k o q).flatMap (emitAt p v)) := by
  cases o with
  | none => rw [listFilesAt_none]; unfold limitCut seekDirsAt; split_ifs <;> simp
  | some n =>
    rw [listFilesAt_some, listFiles_limit, listFiles_seek v f k n p q (ht n rfl) hq hne]
    rfl

theorem storeTree_dir (root : FsNode) (hs : storeTree root) :
    ∃ fis, root = .dir fis
      ∧ (∀ n, root.child rPathV1 = some n → shardTree FileIDV1 8 n)
      ∧ (∀ n, root.child rPathV2 = some n → shardTree FileIDV2 9 n) := by
  obtain ⟨h1, h2, h3⟩ := hs
  obtain ⟨fis, rfl⟩ := isDir_eq_dir root h1
  refine ⟨fis, rfl, ?_, ?_⟩
  · intro n hn; rw [hn] at h2; exact h2
  · intro n hn; rw [hn] at h3; exact h3

/-- The call with the empty cursor on a store: the identifiers of the V1 tree in the order of
the walk, cut at the limit, then those of the V2 tree, cut at what is left of the limit. -/
theorem GetFileList_empty (root : FsNode) (hs : storeTree root) (rootPath : GoString) (f : Bool)
    (N : Int) :
    ∃ err, GetFileList (some root) [] rootPath f N = .ok (err,
      limitCut N (listAll f FileIDV1 root rootPath)
        ++ limitCut (N - (limitCut N (listAll f FileIDV1 root rootPath)).length)
          (listAll f FileIDV2 root rootPath))
      ∧ (limitCut N (listAll f FileIDV1 root rootPath)
        ++ limitCut (N - (limitCut N (listAll f FileIDV1 root rootPath)).length)
          (listAll f FileIDV2 root rootPath) ≠ [] → err = none) := by
  obtain ⟨fis, rfl, h1, h2⟩ := storeTree_dir root hs
  have hd : decodeCursor [] = .ok (none, FileIDV1, []) := rfl
  refine ⟨(walkVersions fis rootPath f none FileIDV1 [] N).1, ?_⟩
  have e := walkVersions_V1 fis rootPath f none [] N
  have herr := walkVersions_err fis rootPath f none FileIDV1 [] N
  rw [listFilesAt_free FileIDV1 f 8 _ _ _ h1, listFilesAt_free FileIDV2 f 9 _ _ _ h2] at e
  refine ⟨?_, ?_⟩
  · simp only [GetFileList, hd]
    exact congrArg Except.ok (Prod.ext rfl e)
  · intro hne
    apply herr
    rw [e]
    exact hne

/-- The call with a cursor that decodes to a V1 identity on a store. -/
theorem GetFileList_V1 (root : FsNode) (hs : storeTree root) (rootPath : GoString) (f : Bool)
    (N : Int) (X : GoString) (fx : fileInfo) (hdec : newFileInfoFromFileID X = .ok fx)
    (hh : hexHash fx.fileMD5) (hv : fx.fileIDVersion = FileIDV1) :
    ∃ err, GetFileList (some root) X rootPath f N = .ok (err,
      limitCut N (listAfter f FileIDV1 root rootPath (hashSegments fx.fileMD5))
        ++ limitCut (N - (limitCut N
              (listAfter f FileIDV1 root rootPath (hashSegments fx.fileMD5))).length)
          (listAll f FileIDV2 root rootPath))
      ∧ (limitCut N (listAfter f FileIDV1 root rootPath (hashSegments fx.fileMD5))
        ++ limitCut (N - (limitCut N
              (listAfter f FileIDV1 root rootPath (hashSegments fx.fileMD5))).length)
          (listAll f FileIDV2 root rootPath) ≠ [] → err = none) := by
  obtain ⟨fis, rfl, h1, h2⟩ := storeTree_dir root hs
  have hk := pathInfos_of_decode X fx hdec hh
  rw [hv] at hk
  have hkey : shardKey FileIDV1 fx.fileMD5 fx.fileSize = hashSegments fx.fileMD5 := by
    simp [shardKey]
  rw [hkey] at hk
  have hd : decodeCursor X = .ok (none, FileIDV1, hashSegments fx.fileMD5 ++ [guardID]) := by
    unfold decodeCursor
    simp only [decode_ne_nil X fx hdec, ne_eq, not_false_eq_true, if_true, hk]
  refine ⟨(walkVersions fis rootPath f none FileIDV1
    (hashSegments fx.fileMD5 ++ [guardID]) N).1, ?_⟩
  have e := walkVersions_V1 fis rootPath f none (hashSegments fx.fileMD5 ++ [guardID]) N
  have herr := walkVersions_err fis rootPath f none FileIDV1
    (hashSegments fx.fileMD5 ++ [guardID]) N
  rw [listFilesAt_seek FileIDV1 f 8 _ _ _ _ h1 (hashSegments_length _)
      (fun s hs => (plainElem_hashSegments _ hh s hs).1),
    listFilesAt_free FileIDV2 f 9 _ _ _ h2] at e
  refine ⟨?_, ?_⟩
  · simp only [GetFileList, hd]
    exact congrArg Except.ok (Prod.ext rfl e)
  · intro hne
    apply herr
    rw [e]
    exact hne

/-- The call with a cursor that decodes to a V2 identity on a store. -/
theorem GetFileList_V2 (root : FsNode) (hs : storeTree root) (rootPath : GoString) (f : Bool)
    (N : Int) (X : GoString) (fx : fileInfo) (hdec : newFileInfoFromFileID X = .ok fx)
    (hh : hexHash fx.fileMD5) (hv : fx.fileIDVersion = FileIDV2) :
    ∃ err, GetFileList (some root) X rootPath f N = .ok (err,
      limitCut N (listAfter f FileIDV2 root rootPath
        (formatUint fx.fileSize :: hashSegments fx.fileMD5)))
      ∧ (limitCut N (listAfter f FileIDV2 root rootPath
        (formatUint fx.fileSize :: hashSegments fx.fileMD5)) ≠ [] → err = none) := by
  obtain ⟨fis, rfl, h1, h2⟩ := storeTree_dir root hs
  have hk := pathInfos_of_decode X fx hdec hh
  rw [hv] at hk
  have hkey : shardKey FileIDV2 fx.fileMD5 fx.fileSize
      = formatUint fx.fileSize :: hashSegments fx.fileMD5 := by
    simp [shardKey, FileIDV2_ne_FileIDV1]
  rw [hkey] at hk
  have hd : decodeCursor X
      = .ok (none, FileIDV2, (formatUint fx.fileSize :: hashSegments fx.fileMD5)
          ++ [guardID]) := by
    unfold decodeCursor
    simp only [decode_ne_nil X fx hdec, ne_eq, not_false_eq_true, if_true, hk]
  refine ⟨(walkVersions fis rootPath f none FileIDV2
    ((formatUint fx.fileSize :: hashSegments fx.fileMD5) ++ [guardID]) N).1, ?_⟩
  have e := walkVersions_V2 fis rootPath f none
    ((formatUint fx.fileSize :: hashSegments fx.fileMD5) ++ [guardID]) N
  have herr := walkVersions_err fis rootPath f none FileIDV2
    ((formatUint fx.fileSize :: hashSegments fx.fileMD5) ++ [guardID]) N
  rw [listFilesAt_seek FileIDV2 f 9 _ _ _ _ h2 (by simp [hashSegments_length])
      (by
        intro s hs
        rcases List.mem_cons.1 hs with hs | hs
        · rw [hs]; exact formatUint_ne_nil _
        · exact (plainElem_hashSegments _ hh s hs).1)] at e
  refine ⟨?_, ?_⟩
  · simp only [GetFileList, hd]
    exact congrArg Except.ok (Prod.ext rfl e)
  · intro hne
    apply herr
    rw [e]
    exact hne

/-! ## The identifiers of the leaf directories -/

theorem mem_leafEmit (p : GoString) (v : Nat) :
    ∀ (fl : List (GoString × FsNode)) (id : GoString), id ∈ leafEmit p v fl →
      ∃ fi ∈ fl, id ∈ (fileOutcome p v fi.1).2 := by
  intro fl
  induction fl with
  | nil => intro id h; cases h
  | cons fi rest ih =>
    intro id h
    rw [leafEmit] at h
    rcases List.mem_append.1 h with h | h
    · exact ⟨fi, List.mem_cons_self _ _, h⟩
    · split_ifs at h
      · obtain ⟨fi2, h1, h2⟩ := ih id h
        exact ⟨fi2, List.mem_cons_of_mem _ h1, h2⟩
      · cases h

theorem parseUintLoop_le : ∀ (s : GoString) (acc r : Nat), parseUintLoop s acc = .ok r →
    acc ≤ maxUint64 → r ≤ maxUint64 := by
  intro s
  induction s with
  | nil => intro acc r hr ha; simp only [parseUintLoop] at hr; cases hr; exact ha
  | cons x xs ih =>
    intro acc r hr _
    unfold parseUintLoop at hr
    dsimp only at hr
    split_ifs at hr with h1 h2 h3
    exact ih _ _ hr (Nat.le_of_not_gt h3)

theorem ParseUint_le (s : GoString) (n : Nat) (h : ParseUint s = .ok n) : n ≤ maxUint64 := by
  unfold ParseUint at h
  split_ifs at h
  exact parseUintLoop_le s 0 n h (by decide)

theorem versionDir_plain (v : Nat) : plainElem (versionDir v) := by
  unfold versionDir; split_ifs <;> decide

theorem cleanBase_versionDir (rootPath : GoString) (v : Nat) :
    CleanBase (pathJoin [rootPath, versionDir v]) :=
  cleanBase_pathJoin rootPath (versionDir v) (versionDir_plain v)

/-- An identifier that a leaf directory of a shard tree gives is the listed identifier of the
identity whose shard directory it is, and the leaf directory holds the data file of that
identity. -/
theorem emitAt_sound (v : Nat) (hv : v = FileIDV1 ∨ v = FileIDV2) (f : Bool) (node : FsNode)
    (ht : shardTree v (shardDepth v) node) (p : GoString) (hp : CleanBase p)
    (x : List GoString × List (GoString × FsNode)) (hx : x ∈ walkDirs f (shardDepth v) node)
    (id : GoString) (hid : id ∈ emitAt p v x) :
    ∃ h n, hexHash h ∧ n ≤ maxUint64 ∧ id = listedID v h n ∧ x.1 = shardKey v h n
      ∧ ∃ fi ∈ x.2, fi.1 = if v = FileIDV1 then formatUint n else BuildInDataName := by
  unfold emitAt at hid
  obtain ⟨fi, hfi, hout⟩ := mem_leafEmit _ _ _ _ hid
  rcases hv with hv | hv <;> subst hv
  · have hd : shardDepth FileIDV1 = 8 := rfl
    rw [hd] at ht hx
    obtain ⟨h1, h2, h3, _⟩ := walkDirs_names FileIDV1 f 8 node x (by omega) ht hx
    obtain ⟨n, hn, hidn⟩ := fileOutcome_V1_sound p hp x.1 h1 h2 fi.1 id hout
    obtain ⟨hh, hseg⟩ := hashAddr_flatten x.1 h1 h2
    refine ⟨x.1.flatten, n, hh, ParseUint_le _ _ hn, hidn, ?_, fi, hfi, ?_⟩
    · simp [shardKey, hseg]
    · have := (h3 fi hfi).2
      unfold leafNameOK at this
      simp only [if_true, hn] at this
      simp [this]
  · have hd : shardDepth FileIDV2 = 9 := rfl
    rw [hd] at ht hx
    obtain ⟨sz, a, hx1, hsz, ha, hs⟩ := walkDirs_names_V2 f node x ht hx
    rw [hx1] at hout
    obtain ⟨n, hn, hf, hname, hidn⟩ := fileOutcome_V2_sound p hp sz hsz a ha hs fi.1 id hout
    obtain ⟨hh, hseg⟩ := hashAddr_flatten a ha hs
    refine ⟨a.flatten, n, hh, hn, hidn, ?_, fi, hfi, ?_⟩
    · simp [shardKey, FileIDV2_ne_FileIDV1, hseg, hf, hx1]
    · simp [FileIDV2_ne_FileIDV1, hname]

theorem storeTree_child (root : FsNode) (hs : storeTree root) (v : Nat)
    (hv : v = FileIDV1 ∨ v = FileIDV2) :
    ∀ n, root.child (versionDir v) = some n → shardTree v (shardDepth v) n := by
  obtain ⟨fis, rfl, h1, h2⟩ := storeTree_dir root hs
  rcases hv with hv | hv <;> subst hv
  · exact h1
  · exact h2

theorem mem_walkDirsAt (f : Bool) (k : Nat) (o : Option FsNode)
    (x : List GoString × List (GoString × FsNode)) (h : x ∈ walkDirsAt f k o) :
    ∃ n, o = some n ∧ x ∈ walkDirs f k n := by
  cases o with
  | none => cases h
  | some n => exact ⟨n, rfl, h⟩

theorem mem_seekDirsAt (f : Bool) (k : Nat) (o : Option FsNode) (q : List GoString)
    (x : List GoString × List (GoString × FsNode)) (h : x ∈ seekDirsAt f k o q) :
    ∃ n, o = some n ∧ x ∈ seekDirs f k n q := by
  cases o with
  | none => cases h
  | some n => exact ⟨n, rfl, h⟩

/-- An identifier of the walk of the tree of one version of a store. -/
theorem listAll_sound (v : Nat) (hv : v = FileIDV1 ∨ v = FileIDV2) (f : Bool) (root : FsNode)
    (hs : storeTree root) (rootPath id : GoString) (h : id ∈ listAll f v root rootPath) :
    ∃ h n, hexHash h ∧ n ≤ maxUint64 ∧ id = listedID v h n := by
  unfold listAll at h
  obtain ⟨x, hx, hid⟩ := List.mem_flatMap.1 h
  obtain ⟨node, hnode, hx'⟩ := mem_walkDirsAt _ _ _ _ hx
  obtain ⟨h, n, h1, h2, h3, _⟩ := emitAt_sound v hv f node (storeTree_child root hs v hv node hnode)
    _ (cleanBase_versionDir rootPath v) x hx' id hid
  exact ⟨h, n, h1, h2, h3⟩

/-- An identifier of the resumed walk of the tree of one version of a store comes after the
segments at which the walk resumes, in the order of the walk. -/
theorem listAfter_sound (v : Nat) (hv : v = FileIDV1 ∨ v = FileIDV2) (f : Bool)
    (root : FsNode) (hs : storeTree root) (rootPath : GoString) (q : List GoString)
    (id : GoString) (h : id ∈ listAfter f v root rootPath q) :
    ∃ h n, hexHash h ∧ n ≤ maxUint64 ∧ id = listedID v h n
      ∧ walkSegsLt f q (shardKey v h n) := by
  unfold listAfter at h
  obtain ⟨x, hx, hid⟩ := List.mem_flatMap.1 h
  obtain ⟨node, hnode, hx'⟩ := mem_seekDirsAt _ _ _ _ _ hx
  have ht := storeTree_child root hs v hv node hnode
  obtain ⟨h, n, h1, h2, h3, h4, _⟩ := emitAt_sound v hv f node ht
    _ (cleanBase_versionDir rootPath v) x (seekDirs_subset f _ node q x hx') id hid
  refine ⟨h, n, h1, h2, h3, ?_⟩
  rw [← h4]
  exact seek_order v f _ node q x ht hx'

/-! ## C13 and C16: the identifiers after and before a cursor -/

theorem shardKey_congr (v : Nat) (h h' : GoString) (n n' : Nat) (e1 : h = h') (e2 : n = n') :
    shardKey v h n = shardKey v h' n' := by rw [e1, e2]

/-- An identifier listed with a key other than the key of the cursor decodes to another
identity than the cursor. -/
theorem listed_other (v : Nat) (hv : v = FileIDV1 ∨ v = FileIDV2) (h : GoString) (n : Nat)
    (hh : hexHash h) (hn : n ≤ maxUint64) (fx : fileInfo)
    (hne : (v, shardKey v h n)
      ≠ (fx.fileIDVersion, shardKey fx.fileIDVersion fx.fileMD5 fx.fileSize)) :
    ∃ fi, newFileInfoFromFileID (listedID v h n) = .ok fi
      ∧ pathInfosFromFileID (listedID v h n) = .ok (v, shardKey v h n)
      ∧ ¬ (fi.fileIDVersion = fx.fileIDVersion ∧ fi.fileMD5 = fx.fileMD5
          ∧ fi.fileSize = fx.fileSize) := by
  refine ⟨_, listedID_decodes v hv h n hh hn, pathInfos_listedID v hv h n hh hn, ?_⟩
  rintro ⟨e1, e2, e3⟩
  simp only at e1 e2 e3
  apply hne
  rw [← e1, ← e2, ← e3]

theorem keyLt_ne (a b : Nat × List GoString) (h : keyLt a b) : b ≠ a := by
  intro e; rw [e] at h; exact keyLt_irrefl a h

/-- C13: for every storage tree laid out as in section 6, every cursor `X` that decodes to an
identity with a 32-digit hexadecimal hash and every limit `N`, `GetFileList(X, forward, N)`
returns, and every identifier it returns decodes to another identity than `X` (not the version,
hash and size of `X`) whose key comes strictly after the key of `X` in the total order: the
scheme version, then the segments of the shard directory (under V2 the size segment first). -/
theorem C13_forward_after_cursor (root : FsNode) (rootPath X : GoString) (N : Int)
    (fx : fileInfo) (hs : storeTree root) (hdec : newFileInfoFromFileID X = .ok fx)
    (hh : hexHash fx.fileMD5) :
    ∃ err files kx, GetFileList (some root) X rootPath true N = .ok (err, files)
      ∧ pathInfosFromFileID X = .ok kx
      ∧ ∀ id ∈ files, ∃ fi ki, newFileInfoFromFileID id = .ok fi
          ∧ pathInfosFromFileID id = .ok ki ∧ keyLt kx ki
          ∧ ¬ (fi.fileIDVersion = fx.fileIDVersion ∧ fi.fileMD5 = fx.fileMD5
              ∧ fi.fileSize = fx.fileSize) := by
  have hk := pathInfos_of_decode X fx hdec hh
  rcases (decode_shape X fx hdec).1 with hv | hv
  · obtain ⟨err, he, _⟩ := GetFileList_V1 root hs rootPath true N X fx hdec hh hv
    refine ⟨err, _, _, he, hk, ?_⟩
    intro id hid
    rcases List.mem_append.1 hid with hid | hid
    · obtain ⟨h, n, h1, h2, rfl, hlt⟩ := listAfter_sound FileIDV1 (Or.inl rfl) true root hs
        rootPath _ id (limitCut_subset _ _ id hid)
      have hkl : keyLt (fx.fileIDVersion, shardKey fx.fileIDVersion fx.fileMD5 fx.fileSize)
          (FileIDV1, shardKey FileIDV1 h n) := by
        rw [hv]
        refine Or.inr ⟨rfl, ?_⟩
        have e : shardKey FileIDV1 fx.fileMD5 fx.fileSize = hashSegments fx.fileMD5 := by
          simp [shardKey]
        simp only [e]
        simpa [walkSegsLt] using hlt
      obtain ⟨fi, hd1, hd2, hd3⟩ := listed_other FileIDV1 (Or.inl rfl) h n h1 h2 fx
        (keyLt_ne _ _ hkl)
      exact ⟨fi, _, hd1, hd2, hkl, hd3⟩
    · obtain ⟨h, n, h1, h2, rfl⟩ := listAll_sound FileIDV2 (Or.inr rfl) true root hs
        rootPath id (limitCut_subset _ _ id hid)
      have hkl : keyLt (fx.fileIDVersion, shardKey fx.fileIDVersion fx.fileMD5 fx.fileSize)
          (FileIDV2, shardKey FileIDV2 h n) := by
        rw [hv]
        exact Or.inl (show FileIDV1 < FileIDV2 by decide)
      obtain ⟨fi, hd1, hd2, hd3⟩ := listed_other FileIDV2 (Or.inr rfl) h n h1 h2 fx
        (keyLt_ne _ _ hkl)
      exact ⟨fi, _, hd1, hd2, hkl, hd3⟩
  · obtain ⟨err, he, _⟩ := GetFileList_V2 root hs rootPath true N X fx hdec hh hv
    refine ⟨err, _, _, he, hk, ?_⟩
    intro id hid
    obtain ⟨h, n, h1, h2, rfl, hlt⟩ := listAfter_sound FileIDV2 (Or.inr rfl) true root hs
      rootPath _ id (limitCut_subset _ _ id hid)
    have hkl : keyLt (fx.fileIDVersion, shardKey fx.fileIDVersion fx.fileMD5 fx.fileSize)
        (FileIDV2, shardKey FileIDV2 h n) := by
      rw [hv]
      refine Or.inr ⟨rfl, ?_⟩
      have e : shardKey FileIDV2 fx.fileMD5 fx.fileSize
          = formatUint fx.fileSize :: hashSegments fx.fileMD5 := by
        simp [shardKey, FileIDV2_ne_FileIDV1]
      simp only [e]
      simpa [walkSegsLt] using hlt
    obtain ⟨fi, hd1, hd2, hd3⟩ := listed_other FileIDV2 (Or.inr rfl) h n h1 h2 fx
      (keyLt_ne _ _ hkl)
    exact ⟨fi, _, hd1, hd2, hkl, hd3⟩

set_option maxRecDepth 100000 in
/-- C13 on the store of the test suite, with the identifier of its V1 blob as the cursor and the
limit 2. -/
theorem C13_forward_after_cursor_witness :
    storeTree sampleStore
    ∧ newFileInfoFromFileID sampleV1ID
        = .ok (fileInfo.mk FileIDV1 sampleHash 7 BuiltInFileName [])
    ∧ hexHash (fileInfo.mk FileIDV1 sampleHash 7 BuiltInFileName []).fileMD5
    ∧ ∃ err files kx,
        GetFileList (some sampleStore) sampleV1ID sampleRoot true 2 = .ok (err, files)
        ∧ pathInfosFromFileID sampleV1ID = .ok kx
        ∧ ∀ id ∈ files, ∃ fi ki, newFileInfoFromFileID id = .ok fi
            ∧ pathInfosFromFileID id = .ok ki ∧ keyLt kx ki
            ∧ ¬ (fi.fileIDVersion
                  = (fileInfo.mk FileIDV1 sampleHash 7 BuiltInFileName []).fileIDVersion
                ∧ fi.fileMD5 = (fileInfo.mk FileIDV1 sampleHash 7 BuiltInFileName []).fileMD5
                ∧ fi.fileSize
                  = (fileInfo.mk FileIDV1 sampleHash 7 BuiltInFileName []).fileSize) :=
  ⟨by decide, by decide, by decide,
    C13_forward_after_cursor sampleStore sampleRoot sampleV1ID 2
      (fileInfo.mk FileIDV1 sampleHash 7 BuiltInFileName []) (by decide) (by decide)
      (by decide)⟩

/-- C16, amended: for every storage tree laid out as in section 6, every cursor `X` that decodes
to an identity with a 32-digit hexadecimal hash and every limit `N`,
`GetFileList(X, backward, N)` returns, and every identifier it returns decodes to another
identity than `X`, which either has the scheme version of `X` and a key strictly before the key
of `X` in the total order, or is of scheme V2 while `X` is of scheme V1 (the V2 walk follows the
V1 walk in this direction too). -/
theorem C16_backward_before_cursor (root : FsNode) (rootPath X : GoString) (N : Int)
    (fx : fileInfo) (hs : storeTree root) (hdec : newFileInfoFromFileID X = .ok fx)
    (hh : hexHash fx.fileMD5) :
    ∃ err files kx, GetFileList (some root) X rootPath false N = .ok (err, files)
      ∧ pathInfosFromFileID X = .ok kx
      ∧ ∀ id ∈ files, ∃ fi ki, newFileInfoFromFileID id = .ok fi
          ∧ pathInfosFromFileID id = .ok ki
          ∧ ((ki.1 = kx.1 ∧ keyLt ki kx) ∨ (kx.1 = FileIDV1 ∧ ki.1 = FileIDV2))
          ∧ ¬ (fi.fileIDVersion = fx.fileIDVersion ∧ fi.fileMD5 = fx.fileMD5
              ∧ fi.fileSize = fx.fileSize) := by
  have hk := pathInfos_of_decode X fx hdec hh
  rcases (decode_shape X fx hdec).1 with hv | hv
  · obtain ⟨err, he, _⟩ := GetFileList_V1 root hs rootPath false N X fx hdec hh hv
    refine ⟨err, _, _, he, hk, ?_⟩
    intro id hid
    rcases List.mem_append.1 hid with hid | hid
    · obtain ⟨h, n, h1, h2, rfl, hlt⟩ := listAfter_sound FileIDV1 (Or.inl rfl) false root hs
        rootPath _ id (limitCut_subset _ _ id hid)
      have hkl : keyLt (FileIDV1, shardKey FileIDV1 h n)
          (fx.fileIDVersion, shardKey fx.fileIDVersion fx.fileMD5 fx.fileSize) := by
        rw [hv]
        refine Or.inr ⟨rfl, ?_⟩
        have e : shardKey FileIDV1 fx.fileMD5 fx.fileSize = hashSegments fx.fileMD5 := by
          simp [shardKey]
        simp only [e]
        simpa [walkSegsLt] using hlt
      obtain ⟨fi, hd1, hd2, hd3⟩ := listed_other FileIDV1 (Or.inl rfl) h n h1 h2 fx
        (keyLt_ne _ _ hkl).symm
      exact ⟨fi, _, hd1, hd2, Or.inl ⟨hv.symm, hkl⟩, hd3⟩
    · obtain ⟨h, n, h1, h2, rfl⟩ := listAll_sound FileIDV2 (Or.inr rfl) false root hs
        rootPath id (limitCut_subset _ _ id hid)
      have hne : (FileIDV2, shardKey FileIDV2 h n)
          ≠ (fx.fileIDVersion, shardKey fx.fileIDVersion fx.fileMD5 fx.fileSize) := by
        rw [hv]
        intro e
        exact FileIDV2_ne_FileIDV1 (congrArg Prod.fst e)
      obtain ⟨fi, hd1, hd2, hd3⟩ := listed_other FileIDV2 (Or.inr rfl) h n h1 h2 fx hne
      exact ⟨fi, _, hd1, hd2, Or.inr ⟨hv, rfl⟩, hd3⟩
  · obtain ⟨err, he, _⟩ := GetFileList_V2 root hs rootPath false N X fx hdec hh hv
    refine ⟨err, _, _, he, hk, ?_⟩
    intro id hid
    obtain ⟨h, n, h1, h2, rfl, hlt⟩ := listAfter_sound FileIDV2 (Or.inr rfl) false root hs
      rootPath _ id (limitCut_subset _ _ id hid)
    have hkl : keyLt (FileIDV2, shardKey FileIDV2 h n)
        (fx.fileIDVersion, shardKey fx.fileIDVersion fx.fileMD5 fx.fileSize) := by
      rw [hv]
      refine Or.inr ⟨rfl, ?_⟩
      have e : shardKey FileIDV2 fx.fileMD5 fx.fileSize
          = formatUint fx.fileSize :: hashSegments fx.fileMD5 := by
        simp [shardKey, FileIDV2_ne_FileIDV1]
      simp only [e]
      simpa [walkSegsLt] using hlt
    obtain ⟨fi, hd1, hd2, hd3⟩ := listed_other FileIDV2 (Or.inr rfl) h n h1 h2 fx
      (keyLt_ne _ _ hkl).symm
    exact ⟨fi, _, hd1, hd2, Or.inl ⟨hv.symm, hkl⟩, hd3⟩

set_option maxRecDepth 100000 in
/-- C16, amended, on the store of the test suite, with the identifier of its V2 blob as the
cursor and the limit 2. -/
theorem C16_backward_before_cursor_witness :
    storeTree sampleStore
    ∧ newFileInfoFromFileID sampleV2ID
        = .ok (fileInfo.mk FileIDV2 sampleHash2 6 ("rel-_data_".toList) [])
    ∧ hexHash (fileInfo.mk FileIDV2 sampleHash2 6 ("rel-_data_".toList) []).fileMD5
    ∧ ∃ err files kx,
        GetFileList (some sampleStore) sampleV2ID sampleRoot false 2 = .ok (err, files)
        ∧ pathInfosFromFileID sampleV2ID = .ok kx
        ∧ ∀ id ∈ files, ∃ fi ki, newFileInfoFromFileID id = .ok fi
            ∧ pathInfosFromFileID id = .ok ki
            ∧ ((ki.1 = kx.1 ∧ keyLt ki kx) ∨ (kx.1 = FileIDV1 ∧ ki.1 = FileIDV2))
            ∧ ¬ (fi.fileIDVersion
                  = (fileInfo.mk FileIDV2 sampleHash2 6 ("rel-_data_".toList) []).fileIDVersion
                ∧ fi.fileMD5
                  = (fileInfo.mk FileIDV2 sampleHash2 6 ("rel-_data_".toList) []).fileMD5
                ∧ fi.fileSize
                  = (fileInfo.mk FileIDV2 sampleHash2 6 ("rel-_data_".toList) []).fileSize) :=
  ⟨by decide, by decide, by decide,
    C16_backward_before_cursor sampleStore sampleRoot sampleV2ID 2
      (fileInfo.mk FileIDV2 sampleHash2 6 ("rel-_data_".toList) []) (by decide) (by decide)
      (by decide)⟩

/-! ## C16 and C18: the test of the repository -/

set_option maxRecDepth 100000 in
/-- C16, a counterexample: on the store of the test suite, `GetFileList` backward from the
identifier of the V1 blob with the limit 2 returns the identifier of the V2 blob, whose key comes
after the key of the cursor in the total order, not before it (the test of the repository
expects this one identifier). -/
theorem C16_backward_before_cursor_counterexample :
    storeTree sampleStore
    ∧ GetFileList (some sampleStore) sampleV1ID sampleRoot false 2 = .ok (none, [sampleV2ID])
    ∧ pathInfosFromFileID sampleV1ID = .ok (FileIDV1, hashSegments sampleHash)
    ∧ pathInfosFromFileID sampleV2ID
        = .ok (FileIDV2, "6".toList :: hashSegments sampleHash2)
    ∧ keyLt (FileIDV1, hashSegments sampleHash)
        (FileIDV2, "6".toList :: hashSegments sampleHash2)
    ∧ ¬ keyLt (FileIDV2, "6".toList :: hashSegments sampleHash2)
        (FileIDV1, hashSegments sampleHash) := by
  refine ⟨by decide, ?_, by decide, by decide, by decide, by decide⟩
  obtain ⟨err, he, hn⟩ := GetFileList_V1 sampleStore (by decide) sampleRoot false 2 sampleV1ID
    (fileInfo.mk FileIDV1 sampleHash 7 BuiltInFileName []) (by decide) (by decide) rfl
  have e1 : listAfter false FileIDV1 sampleStore sampleRoot
      (hashSegments (fileInfo.mk FileIDV1 sampleHash 7 BuiltInFileName []).fileMD5) = [] := by
    decide
  have e2 : listAll false FileIDV2 sampleStore sampleRoot = [sampleV2ID] := by decide
  rw [e1, e2] at he hn
  have e3 : limitCut 2 ([] : List GoString)
      ++ limitCut (2 - ((limitCut 2 ([] : List GoString)).length : Int)) [sampleV2ID]
      = [sampleV2ID] := by decide
  rw [e3] at he hn
  rw [he, hn (by simp)]

/-! ## Under a supported root every data file is read -/

theorem parse_supported (v : Nat) (rootPath : GoString) (hsup : storeSupported rootPath v)
    (rel : GoString) :
    ∃ idx, stringsIndex (pathJoin [rootPath, versionDir v] ++ '/' :: rel) (versionKey v)
        = some idx
      ∧ (pathJoin [rootPath, versionDir v] ++ '/' :: rel).drop (idx + 4) = rel
      ∧ idx + 4 ≤ (pathJoin [rootPath, versionDir v] ++ '/' :: rel).length := by
  unfold storeSupported at hsup
  generalize pathJoin [rootPath, versionDir v] = p at hsup ⊢
  have hkl := versionKey_length v
  obtain ⟨pre, rest, hsplit, hpre⟩ := stringsIndex_some_split _ _ _ hsup
  have hlen := congrArg List.length hsplit
  simp only [List.length_append, Separators, List.length_singleton, List.length_cons,
    List.length_nil, hkl] at hlen
  have hp3 : 3 ≤ p.length := by omega
  have hst := stringsIndex_append_stable (versionKey v) rel (p ++ Separators) _ hsup
  have e : p ++ Separators ++ rel = p ++ '/' :: rel := by simp [Separators]
  rw [e] at hst
  refine ⟨p.length - 3, hst, ?_, ?_⟩
  · have e2 : p.length - 3 + 4 = (p ++ ['/']).length := by
      simp only [List.length_append, List.length_singleton]; omega
    have e3 : p ++ '/' :: rel = (p ++ ['/']) ++ rel := by simp
    rw [e2, e3, List.drop_left]
  · simp only [List.length_append, List.length_cons]; omega

theorem ParseInt_formatUint (n : Nat) (hn : n < 2 ^ 63) :
    ParseInt (formatUint n) = .ok (n : Int) := by
  have hu := ParseUint_formatUint n (by unfold maxUint64; omega)
  have hd := formatUint_isDigit n
  obtain ⟨c, cs, hcs⟩ := List.exists_cons_of_ne_nil (formatUint_ne_nil n)
  rw [hcs] at hu hd ⊢
  have hc := hd c (List.mem_cons_self _ _)
  have h1 : c ≠ '+' := isDigit_ne c '+' hc (by decide)
  have h2 : c ≠ '-' := isDigit_ne c '-' hc (by decide)
  simp only [ParseInt, h1, h2, or_self, if_false, hu, decide_False, Bool.false_eq_true,
    false_and, not_false_eq_true, true_and, ge_iff_le]
  rw [if_neg (by omega)]

/-- Under a supported root the data file of a V2 leaf directory gives the listed identifier of
its blob. -/
theorem fileOutcome_V2_data (rootPath : GoString) (hsup : storeSupported rootPath FileIDV2)
    (sz : GoString) (hsz : sizeDirName sz) (a : List GoString) (ha : a.length = 8)
    (hs : ∀ s ∈ a, hashDirName s) :
    ∃ n, n ≤ maxUint64 ∧ formatUint n = sz
      ∧ fileOutcome (nodePath (pathJoin [rootPath, versionDir FileIDV2]) (sz :: a)) FileIDV2
          BuildInDataName = (false, [listedID FileIDV2 a.flatten n]) := by
  obtain ⟨n, hn, hu, hf⟩ := sizeDirName_spec sz hsz
  refine ⟨n, hn, hf, ?_⟩
  have hszp := sizeDirName_plain sz hsz
  have hplain : ∀ x ∈ sz :: a, plainElem x := by
    intro x hx
    rcases List.mem_cons.1 hx with hx | hx
    · rw [hx]; exact hszp
    · exact hashDirName_plain x (hs x hx)
  have hpath := filePath_eq _ (cleanBase_versionDir rootPath FileIDV2) (sz :: a) hplain
    BuildInDataName plainElem_BuildInDataName
  obtain ⟨idx, hidx, hdrop, hlen⟩ := parse_supported FileIDV2 rootPath hsup
    (stringsJoin (sz :: a ++ [BuildInDataName]) ['/'])
  have hparse := parse_V2_names sz a ha hs hszp.2.1 _ idx hidx hdrop hlen
  rw [hu] at hparse
  unfold fileOutcome
  simp only [FileIDV2_ne_FileIDV1, if_false, if_true, hpath, hparse]

/-- Under a supported root the data file of a V1 leaf directory, of a size from 1 to
`2^63 - 1`, gives the listed identifier of its blob. -/
theorem fileOutcome_V1_data (rootPath : GoString) (hsup : storeSupported rootPath FileIDV1)
    (a : List GoString) (ha : a.length = 8) (hs : ∀ s ∈ a, hashDirName s) (n : Nat)
    (h0 : 0 < n) (hn : n < 2 ^ 63) :
    fileOutcome (nodePath (pathJoin [rootPath, versionDir FileIDV1]) a) FileIDV1
        (formatUint n) = (false, [listedID FileIDV1 a.flatten n]) := by
  have hplain : ∀ x ∈ a, plainElem x := fun x hx => hashDirName_plain x (hs x hx)
  have hpath := filePath_eq _ (cleanBase_versionDir rootPath FileIDV1) a hplain
    (formatUint n) (plainElem_formatUint n)
  obtain ⟨idx, hidx, hdrop, hlen⟩ := parse_supported FileIDV1 rootPath hsup
    (stringsJoin (a ++ [formatUint n]) ['/'])
  have hparse := parse_V1_names a (formatUint n) ha hs (plainElem_formatUint n).2.1 _ idx hidx
    hdrop hlen
  rw [ParseUint_formatUint n (by unfold maxUint64; omega)] at hparse
  unfold fileOutcome
  have hz : ¬ ((n : Int) = 0) := by omega
  simp only [if_true, ParseInt_formatUint n hn, hz, if_false, hpath, hparse]

/-- What a V2 leaf directory gives: what its data file `_data_` gives, when it holds one. -/
theorem leafEmit_V2 (p : GoString) :
    ∀ fl : List (GoString × FsNode),
      leafEmit p FileIDV2 fl =
        if BuildInDataName ∈ fl.map Prod.fst then (fileOutcome p FileIDV2 BuildInDataName).2
        else [] := by
  intro fl
  induction fl with
  | nil => rfl
  | cons fi rest ih =>
    rw [leafEmit, ih]
    by_cases hname : fi.1 = BuildInDataName
    · have hstop : (fileOutcome p FileIDV2 BuildInDataName).1 = false := by
        unfold fileOutcome
        simp only [FileIDV2_ne_FileIDV1, if_false, if_true]
        cases parseFileIDFromFilePath (pathJoin [p, BuildInDataName]) FileIDV2 <;> rfl
      simp [hname, hstop]
    · have hout : fileOutcome p FileIDV2 fi.1 = (true, []) := by
        unfold fileOutcome
        simp [FileIDV2_ne_FileIDV1, hname]
      have hne : ¬ BuildInDataName = fi.1 := fun e => hname e.symm
      have hm : BuildInDataName ∈ List.map Prod.fst (fi :: rest)
          ↔ BuildInDataName ∈ List.map Prod.fst rest := by
        rw [List.map_cons, List.mem_cons]; exact or_iff_right hne
      rw [hout, if_congr hm rfl rfl]
      simp

/-! ## A chain of directories -/

theorem chainDirs_cons (x : GoString) (a : List GoString) (leaf : FsNode) :
    chainDirs (x :: a) leaf = .dir [(x, chainDirs a leaf)] := rfl

theorem walkOrder_singleton {α : Type} (f : Bool) (x : α) : walkOrder f [x] = [x] := by
  cases f <;> rfl

theorem walkDirs_chain (f : Bool) (fl : List (GoString × FsNode)) :
    ∀ a : List GoString,
      walkDirs f a.length (chainDirs a (.dir fl)) = [(a, walkOrder f fl)] := by
  intro a
  induction a with
  | nil => exact walkDirs_zero f fl
  | cons x a ih =>
    rw [chainDirs_cons, List.length_cons, walkDirs_succ, walkOrder_singleton]
    simp [ih]

theorem seekDirs_chain (f : Bool) (leaf : FsNode) :
    ∀ (a q : List GoString), seekDirs f a.length (chainDirs a leaf) q = [] := by
  intro a
  induction a with
  | nil => intro q; exact seekDirs_zero f _ q
  | cons x a ih =>
    intro q
    cases q with
    | nil => exact seekDirs_nil f _ _
    | cons q0 qs =>
      rw [chainDirs_cons, List.length_cons, seekDirs_succ, walkOrder_singleton]
      by_cases hx : x = q0
      · simp [List.dropWhile, hx, ih]
      · simp [List.dropWhile, hx]

/-- Backward from a V1 cursor under a supported root: for every storage tree laid out as in
section 6 whose V1 tree is one chain of eight directories down to one leaf directory (one V1
blob) and whose V2 tree is one chain of nine directories down to one leaf directory that holds
the data file `_data_` (one V2 blob), under a storage root whose path, cleaned and followed by
`/V2/`, holds no earlier `/V2/`, `GetFileList` called with a cursor that decodes to a V1
identity with a 32-digit hexadecimal hash, backward, with the limit 2, returns no error and
exactly one identifier: the listed identifier of the V2 blob. -/
theorem backward_v1_cursor_supported (root : FsNode) (rootPath X : GoString) (fx : fileInfo)
    (a1 a2 : List GoString) (leaf1 : FsNode) (leaf2 : List (GoString × FsNode))
    (hs : storeTree root)
    (hV1 : root.child rPathV1 = some (chainDirs a1 leaf1)) (ha1 : a1.length = 8)
    (hV2 : root.child rPathV2 = some (chainDirs a2 (.dir leaf2))) (ha2 : a2.length = 9)
    (hdata : BuildInDataName ∈ leaf2.map Prod.fst)
    (hsup : storeSupported rootPath FileIDV2)
    (hdec : newFileInfoFromFileID X = .ok fx) (hh : hexHash fx.fileMD5)
    (hv : fx.fileIDVersion = FileIDV1) :
    ∃ h n, hexHash h ∧ a2 = formatUint n :: hashSegments h
      ∧ GetFileList (some root) X rootPath false 2 = .ok (none, [listedID FileIDV2 h n]) := by
  obtain ⟨err, he, hn⟩ := GetFileList_V1 root hs rootPath false 2 X fx hdec hh hv
  have e1 : listAfter false FileIDV1 root rootPath (hashSegments fx.fileMD5) = [] := by
    have hd : shardDepth FileIDV1 = a1.length := by rw [ha1]; rfl
    have hvd : versionDir FileIDV1 = rPathV1 := rfl
    unfold listAfter
    rw [hvd, hV1, hd]
    simp only [seekDirsAt, seekDirs_chain]
    rfl
  have ht := storeTree_child root hs FileIDV2 (Or.inr rfl) _ hV2
  have hd2 : shardDepth FileIDV2 = a2.length := by rw [ha2]; rfl
  rw [hd2] at ht
  have hw := walkDirs_chain false leaf2 a2
  have hx : (a2, walkOrder false leaf2) ∈ walkDirs false 9 (chainDirs a2 (.dir leaf2)) := by
    rw [← ha2, hw]; simp
  rw [ha2] at ht
  obtain ⟨sz, a, hx1, hsz, ha, hsa⟩ := walkDirs_names_V2 false _ _ ht hx
  simp only at hx1
  obtain ⟨n, hn1, hf, hout⟩ := fileOutcome_V2_data rootPath hsup sz hsz a ha hsa
  obtain ⟨hha, hseg⟩ := hashAddr_flatten a ha hsa
  have e2 : listAll false FileIDV2 root rootPath = [listedID FileIDV2 a.flatten n] := by
    have hvd : versionDir FileIDV2 = rPathV2 := rfl
    unfold listAll
    rw [hd2, hvd, hV2]
    simp only [walkDirsAt, hw, List.flatMap_cons, List.flatMap_nil, List.append_nil, emitAt]
    rw [leafEmit_V2, hx1]
    have hm : BuildInDataName ∈ List.map Prod.fst (walkOrder false leaf2) := by
      obtain ⟨fi, hfi, hfi2⟩ := List.mem_map.1 hdata
      exact List.mem_map.2 ⟨fi, (mem_walkOrder false leaf2 fi).2 hfi, hfi2⟩
    rw [if_pos hm]
    have hvd2 : pathJoin [rootPath, rPathV2] = pathJoin [rootPath, versionDir FileIDV2] := rfl
    rw [hvd2, hout]
  rw [e1, e2] at he hn
  have e3 : limitCut 2 ([] : List GoString)
      ++ limitCut (2 - ((limitCut 2 ([] : List GoString)).length : Int))
        [listedID FileIDV2 a.flatten n] = [listedID FileIDV2 a.flatten n] := by
    simp [limitCut]
  rw [e3] at he hn
  refine ⟨a.flatten, n, hha, ?_, ?_⟩
  · rw [hx1, hseg, hf]
  · rw [he, hn (by simp)]

set_option maxRecDepth 100000 in
/-- C18: the store of the test suite (one V1 blob, one V2 blob), listed backward from the
identifier of its V1 blob with the limit 2. Under the root `./teststg/root` of the test suite
the call returns no error and one identifier, the one of the V2 blob, as the test asserts.
Held in the working directory and listed under the root `.`, where the item writes the V2 data
file at `V2/6/5a8d/.../d877/_data_`, the call returns no error and no identifier: the path holds
no `/V2/`, `parseFileIDFromFilePath` reports it as unsupported, and the walk of the directory
above drops that error. -/
theorem C18_root_dot_lists_nothing :
    storeTree sampleStore
    ∧ newFileInfoFromFileID sampleV1ID
        = .ok (fileInfo.mk FileIDV1 sampleHash 7 BuiltInFileName [])
    ∧ blobCountOf FileIDV1 sampleStore = 1 ∧ blobCountOf FileIDV2 sampleStore = 1
    ∧ GetFileList (some sampleStore) sampleV1ID sampleRoot false 2 = .ok (none, [sampleV2ID])
    ∧ Item.GetDataFile ⟨".".toList, [], fileInfo.mk FileIDV2 sampleHash2 6 "ab.test".toList []⟩
        = .ok "V2/6/5a8d/d3ad/0756/a93d/ed72/b823/b19d/d877/_data_".toList
    ∧ parseFileIDFromFilePath "V2/6/5a8d/d3ad/0756/a93d/ed72/b823/b19d/d877/_data_".toList
        FileIDV2 = .error .unsupportedPath
    ∧ GetFileList (some sampleStore) sampleV1ID ".".toList false 2 = .ok (none, []) := by
  refine ⟨by decide, by decide, by decide, by decide, ?_, by decide, by decide, ?_⟩
  · have h1 : decodeCursor sampleV1ID
        = .ok (none, FileIDV1, hashSegments sampleHash ++ [guardID]) := by decide
    have h2 : walkVersions sampleEntries sampleRoot false none FileIDV1
        (hashSegments sampleHash ++ [guardID]) 2 = (none, [sampleV2ID]) := by decide
    simp only [GetFileList, sampleStore, h1, h2]
  · have h1 : decodeCursor sampleV1ID
        = .ok (none, FileIDV1, hashSegments sampleHash ++ [guardID]) := by decide
    have h2 : walkVersions sampleEntries ".".toList false none FileIDV1
        (hashSegments sampleHash ++ [guardID]) 2 = (none, []) := by decide
    simp only [GetFileList, sampleStore, h1, h2]

/-! ## Resuming the walk at a leaf directory of the tree -/

theorem dropWhile_append_stop {α : Type} (p : α → Bool) (x : α) (es2 : List α) :
    ∀ es1 : List α, (∀ e ∈ es1, p e = true) → p x = false →
      (es1 ++ x :: es2).dropWhile p = x :: es2 := by
  intro es1
  induction es1 with
  | nil => intro _ hx; simp [List.dropWhile, hx]
  | cons a as ih =>
    intro h hx
    have ha := h a (List.mem_cons_self _ _)
    simp only [List.cons_append, List.dropWhile, ha]
    exact ih (fun e he => h e (List.mem_cons_of_mem _ he)) hx

/-- In a shard tree the walk resumed at the segments of a leaf directory reaches the leaf
directories that the full walk reaches after it. -/
theorem seekDirs_split (v : Nat) (f : Bool) :
    ∀ (k : Nat) (node : FsNode) (x : List GoString × List (GoString × FsNode)),
      shardTree v k node → x ∈ walkDirs f k node →
      ∃ pre post, walkDirs f k node = pre ++ x :: post ∧ seekDirs f k node x.1 = post := by
  intro k
  induction k with
  | zero =>
    intro node x ht hx
    cases node with
    | file => exact absurd ht (shardTree_file v 0)
    | dir fis =>
      rw [walkDirs_zero] at hx ⊢
      simp only [List.mem_singleton] at hx
      subst hx
      exact ⟨[], [], rfl, seekDirs_zero f _ _⟩
  | succ k ih =>
    intro node x ht hx
    cases node with
    | file => exact absurd ht (shardTree_file v _)
    | dir fis =>
      obtain ⟨hsort, hch⟩ := shardTree_child v k fis ht
      obtain ⟨fi, hfi, y, hy, rfl⟩ := (mem_walkDirs_succ f k fis x).1 hx
      have hfi' := (mem_walkOrder f fis fi).1 hfi
      obtain ⟨pre', post', hw, hseek⟩ := ih fi.2 y (hch fi hfi').2 hy
      obtain ⟨es1, es2, hes⟩ := List.append_of_mem hfi
      have hpw := walkOrder_sorted f fis hsort
      rw [hes, List.pairwise_append] at hpw
      have hbefore : ∀ e ∈ es1, decide (e.1 ≠ fi.1) = true := by
        intro e he
        have := hpw.2.2 e he fi (List.mem_cons_self _ _)
        simp only [ne_eq, decide_not, Bool.not_eq_true', decide_eq_false_iff_not]
        intro heq
        rw [heq] at this
        exact walkLt_irrefl f _ this
      refine ⟨es1.flatMap (fun fi => (walkDirs f k fi.2).map (fun a => (fi.1 :: a.1, a.2)))
          ++ pre'.map (fun a => (fi.1 :: a.1, a.2)),
        post'.map (fun a => (fi.1 :: a.1, a.2))
          ++ es2.flatMap (fun fi => (walkDirs f k fi.2).map (fun a => (fi.1 :: a.1, a.2))),
        ?_, ?_⟩
      · rw [walkDirs_succ, hes, List.flatMap_append, List.flatMap_cons, hw]
        simp
      · rw [seekDirs_succ, hes,
          dropWhile_append_stop (fun e => decide (e.1 ≠ fi.1)) fi es2 es1 hbefore (by simp)]
        simp only
        rw [hseek]

/-- A list whose elements have distinct first components splits at an element in one way. -/
theorem split_unique {α β : Type} :
    ∀ (p1 p2 : List (α × β)) (x y : α × β) (s1 s2 : List (α × β)),
      (p1 ++ x :: s1).Pairwise (fun a b => a.1 ≠ b.1) → p1 ++ x :: s1 = p2 ++ y :: s2 →
      x.1 = y.1 → p1 = p2 ∧ x = y ∧ s1 = s2 := by
  intro p1
  induction p1 with
  | nil =>
    intro p2 x y s1 s2 hpw heq hxy
    cases p2 with
    | nil =>
      simp only [List.nil_append, List.cons.injEq] at heq
      exact ⟨rfl, heq.1, heq.2⟩
    | cons z p2 =>
      exfalso
      simp only [List.nil_append, List.cons_append, List.cons.injEq] at heq
      obtain ⟨hz, hs⟩ := heq
      simp only [List.nil_append] at hpw
      have := (List.pairwise_cons.1 hpw).1 y (by rw [hs]; simp)
      exact this hxy
  | cons z p1 ih =>
    intro p2 x y s1 s2 hpw heq hxy
    cases p2 with
    | nil =>
      exfalso
      simp only [List.nil_append, List.cons_append, List.cons.injEq] at heq
      obtain ⟨hz, hs⟩ := heq
      simp only [List.cons_append] at hpw
      have := (List.pairwise_cons.1 hpw).1 x (by simp)
      rw [hz] at this
      exact this hxy.symm
    | cons z' p2 =>
      simp only [List.cons_append, List.cons.injEq] at heq
      obtain ⟨hz, hs⟩ := heq
      simp only [List.cons_append] at hpw
      obtain ⟨h1, h2, h3⟩ := ih p2 x y s1 s2 (List.pairwise_cons.1 hpw).2 hs hxy
      exact ⟨by rw [hz, h1], h2, h3⟩

/-- The leaf directories in the order of the backward walk: those of the forward walk in the
reverse order, each with its entries in the reverse order. -/
theorem walkDirs_backward :
    ∀ (k : Nat) (node : FsNode),
      walkDirs false k node
        = ((walkDirs true k node).reverse).map (fun y => (y.1, y.2.reverse)) := by
  intro k
  induction k with
  | zero =>
    intro node
    cases node with
    | file => rw [walkDirs_file, walkDirs_file]; rfl
    | dir fis => rw [walkDirs_zero, walkDirs_zero]; rfl
  | succ k ih =>
    intro node
    cases node with
    | file => rw [walkDirs_file, walkDirs_file]; rfl
    | dir fis =>
      rw [walkDirs_succ, walkDirs_succ]
      have e1 : walkOrder false fis = fis.reverse := rfl
      have e2 : walkOrder true fis = fis := rfl
      rw [e1, e2, List.reverse_flatMap, List.map_flatMap]
      apply List.flatMap_congr
      intro fi _
      rw [ih fi.2]
      simp only [List.map_map, ← List.map_reverse, Function.comp_def]

/-! ## Counting the identifiers -/

theorem leafEmit_length (p : GoString) (v : Nat) :
    ∀ fl : List (GoString × FsNode), (leafEmit p v fl).length ≤ 1 := by
  intro fl
  induction fl with
  | nil => simp [leafEmit]
  | cons fi rest ih =>
    rw [leafEmit]
    rcases fileOutcome_cases p v fi.1 with h | h | ⟨id, h, _⟩
    · rw [h]; simpa using ih
    · rw [h]; simp
    · rw [h]; simp

theorem emitAt_length (p : GoString) (v : Nat)
    (x : List GoString × List (GoString × FsNode)) : (emitAt p v x).length ≤ 1 :=
  leafEmit_length _ _ _

theorem length_le_one_cases {α : Type} (l : List α) (h : l.length ≤ 1) :
    l = [] ∨ ∃ a, l = [a] := by
  cases l with
  | nil => exact Or.inl rfl
  | cons a rest =>
    cases rest with
    | nil => exact Or.inr ⟨a, rfl⟩
    | cons b rest => simp at h

theorem flatMap_length_le {α β : Type} (g : α → List β) (c : α → Nat) :
    ∀ l : List α, (∀ x ∈ l, (g x).length ≤ c x) → (l.flatMap g).length ≤ (l.map c).sum := by
  intro l
  induction l with
  | nil => intro _; simp
  | cons a rest ih =>
    intro h
    have h1 := h a (List.mem_cons_self _ _)
    have h2 := ih (fun x hx => h x (List.mem_cons_of_mem _ hx))
    simp only [List.flatMap_cons, List.length_append, List.map_cons, List.sum_cons]
    omega

/-- A list of pieces of at most one element each, flattened, splits at an element where the
list of the pieces splits at the piece that gives it. -/
theorem flatMap_split {α β : Type} (g : α → List β) :
    ∀ (l : List α) (A : List β) (b : β) (B : List β), (∀ x ∈ l, (g x).length ≤ 1) →
      l.flatMap g = A ++ b :: B →
      ∃ pre x post, l = pre ++ x :: post ∧ g x = [b] ∧ pre.flatMap g = A
        ∧ post.flatMap g = B := by
  intro l
  induction l with
  | nil => intro A b B _ h; simp at h
  | cons a rest ih =>
    intro A b B hl h
    have h1 := hl a (List.mem_cons_self _ _)
    have hrest := fun x hx => hl x (List.mem_cons_of_mem _ hx)
    rw [List.flatMap_cons] at h
    rcases length_le_one_cases _ h1 with ha | ⟨c, ha⟩
    · rw [ha, List.nil_append] at h
      obtain ⟨pre, x, post, e1, e2, e3, e4⟩ := ih A b B hrest h
      refine ⟨a :: pre, x, post, by rw [e1]; rfl, e2, ?_, e4⟩
      rw [List.flatMap_cons, ha, e3]; rfl
    · rw [ha] at h
      cases A with
      | nil =>
        simp only [List.singleton_append, List.nil_append, List.cons.injEq] at h
        obtain ⟨hc, hB⟩ := h
        subst hc
        exact ⟨[], a, rest, rfl, ha, rfl, hB⟩
      | cons a0 A =>
        simp only [List.singleton_append, List.cons_append, List.cons.injEq] at h
        obtain ⟨hc, hB⟩ := h
        subst hc
        obtain ⟨pre, x, post, e1, e2, e3, e4⟩ := ih A b B hrest hB
        refine ⟨a :: pre, x, post, by rw [e1]; rfl, e2, ?_, e4⟩
        rw [List.flatMap_cons, ha, e3]; rfl

theorem reverse_flatMap_le_one {α β : Type} (g : α → List β) :
    ∀ l : List α, (∀ x ∈ l, (g x).length ≤ 1) →
      (l.flatMap g).reverse = l.reverse.flatMap g := by
  intro l h
  rw [List.reverse_flatMap]
  apply List.flatMap_congr
  intro x hx
  rcases length_le_one_cases _ (h x (List.mem_reverse.1 hx)) with e | ⟨a, e⟩
  · simp [e]
  · simp [e]

theorem limitCut_of_le {α : Type} (c : Int) (l : List α) (h : (l.length : Int) ≤ c) :
    limitCut c l = l := by
  unfold limitCut
  split_ifs
  · rfl
  · exact List.take_of_length_le (by omega)

theorem emitAt_le_count (v : Nat) (hv : v = FileIDV1 ∨ v = FileIDV2) (f : Bool)
    (node : FsNode) (ht : shardTree v (shardDepth v) node) (p : GoString) (hp : CleanBase p)
    (x : List GoString × List (GoString × FsNode)) (hx : x ∈ walkDirs f (shardDepth v) node) :
    (emitAt p v x).length ≤ dataFileCount v x.2 := by
  rcases length_le_one_cases _ (emitAt_length p v x) with e | ⟨id, e⟩
  · rw [e]; simp
  · obtain ⟨h, n, _, hn, _, _, fi, hfi, hname⟩ := emitAt_sound v hv f node ht p hp x hx id
      (by rw [e]; simp)
    have hd : isDataName v fi.1 = true := by
      unfold isDataName
      rcases hv with hv | hv <;> subst hv
      · simp only [if_true] at hname ⊢
        rw [hname, ParseUint_formatUint n hn]
      · simp only [FileIDV2_ne_FileIDV1, if_false] at hname ⊢
        simp [hname]
    have hm : fi ∈ x.2.filter (fun fi => isDataName v fi.1) := List.mem_filter.2 ⟨hfi, hd⟩
    have := List.length_pos_of_mem hm
    rw [e]
    unfold dataFileCount
    simpa using this

/-- The forward walk of the tree of one version of a store collects at most as many identifiers
as the tree holds data files. -/
theorem listAll_length (v : Nat) (hv : v = FileIDV1 ∨ v = FileIDV2) (root : FsNode)
    (hs : storeTree root) (rootPath : GoString) :
    (listAll true v root rootPath).length ≤ blobCountOf v root := by
  unfold listAll blobCountOf
  apply flatMap_length_le
  intro x hx
  obtain ⟨node, hnode, hx'⟩ := mem_walkDirsAt _ _ _ _ hx
  exact emitAt_le_count v hv true node (storeTree_child root hs v hv node hnode) _
    (cleanBase_versionDir rootPath v) x hx'

/-- The full forward enumeration of a store, with a limit that is at least the number of stored
blobs: the identifiers of the V1 tree, then those of the V2 tree, in the order of the walk. -/
theorem GetFileList_full (root : FsNode) (hs : storeTree root) (rootPath : GoString)
    (total : Int) (htotal : (blobCount root : Int) ≤ total) :
    ∃ err, GetFileList (some root) [] rootPath true total
      = .ok (err, listAll true FileIDV1 root rootPath ++ listAll true FileIDV2 root rootPath) := by
  obtain ⟨err, he, _⟩ := GetFileList_empty root hs rootPath true total
  have h1 := listAll_length FileIDV1 (Or.inl rfl) root hs rootPath
  have h2 := listAll_length FileIDV2 (Or.inr rfl) root hs rootPath
  unfold blobCount at htotal
  push_cast at htotal
  rw [limitCut_of_le total _ (by omega), limitCut_of_le _ _ (by omega)] at he
  exact ⟨err, he⟩

theorem emitAt_V2_reverse (p : GoString) (y : List GoString × List (GoString × FsNode)) :
    emitAt p FileIDV2 (y.1, y.2.reverse) = emitAt p FileIDV2 y := by
  unfold emitAt
  rw [leafEmit_V2, leafEmit_V2]
  simp only [List.map_reverse, List.mem_reverse]

/-! ## C17: backward from the last identifier -/

theorem seekDirs_of_split (v : Nat) (f : Bool) (k : Nat) (node : FsNode)
    (ht : shardTree v k node) (pre post : List (List GoString × List (GoString × FsNode)))
    (x : List GoString × List (GoString × FsNode))
    (hw : walkDirs f k node = pre ++ x :: post) : seekDirs f k node x.1 = post := by
  have hx : x ∈ walkDirs f k node := by rw [hw]; simp
  obtain ⟨pre', post', hw', hseek⟩ := seekDirs_split v f k node x ht hx
  have hd := walkDirs_distinct v f k node ht
  rw [hw] at hd
  obtain ⟨_, _, h3⟩ := split_unique pre pre' x x post post' hd (by rw [← hw, hw']) rfl
  rw [hseek, h3]

/-- The forward walk of a version tree of a store resumed at a leaf directory collects what the
leaf directories after it give. -/
theorem listAfter_forward (v : Nat) (hv : v = FileIDV1 ∨ v = FileIDV2) (root : FsNode)
    (hs : storeTree root) (rootPath : GoString) (node : FsNode)
    (hnode : root.child (versionDir v) = some node)
    (pre post : List (List GoString × List (GoString × FsNode)))
    (x : List GoString × List (GoString × FsNode))
    (hw : walkDirs true (shardDepth v) node = pre ++ x :: post) :
    listAfter true v root rootPath x.1
      = post.flatMap (emitAt (pathJoin [rootPath, versionDir v]) v) := by
  unfold listAfter
  rw [hnode]
  simp only [seekDirsAt]
  rw [seekDirs_of_split v true _ node (storeTree_child root hs v hv node hnode) pre post x hw]

/-- The backward walk of the V2 tree of a store resumed at a leaf directory collects, in the
reverse order, what the leaf directories before it give. -/
theorem listAfter_backward_V2 (root : FsNode) (hs : storeTree root) (rootPath : GoString)
    (node : FsNode) (hnode : root.child (versionDir FileIDV2) = some node)
    (pre post : List (List GoString × List (GoString × FsNode)))
    (x : List GoString × List (GoString × FsNode))
    (hw : walkDirs true (shardDepth FileIDV2) node = pre ++ x :: post) :
    listAfter false FileIDV2 root rootPath x.1
      = (pre.flatMap (emitAt (pathJoin [rootPath, versionDir FileIDV2]) FileIDV2)).reverse := by
  have ht := storeTree_child root hs FileIDV2 (Or.inr rfl) node hnode
  have hb : walkDirs false (shardDepth FileIDV2) node
      = post.reverse.map (fun y => (y.1, y.2.reverse))
        ++ (x.1, x.2.reverse) :: pre.reverse.map (fun y => (y.1, y.2.reverse)) := by
    rw [walkDirs_backward, hw]
    simp
  have hseek := seekDirs_of_split FileIDV2 false _ node ht _ _ (x.1, x.2.reverse) hb
  unfold listAfter
  rw [hnode]
  simp only [seekDirsAt]
  simp only at hseek
  rw [hseek, List.flatMap_map, reverse_flatMap_le_one _ _ (fun y _ => emitAt_length _ _ y)]
  apply List.flatMap_congr
  intro y _
  exact emitAt_V2_reverse _ y

theorem listAll_version (v : Nat) (hv : v = FileIDV1 ∨ v = FileIDV2) (f : Bool)
    (root : FsNode) (hs : storeTree root) (rootPath id : GoString)
    (h : id ∈ listAll f v root rootPath) :
    ∃ fi, newFileInfoFromFileID id = .ok fi ∧ fi.fileIDVersion = v := by
  obtain ⟨g, n, h1, h2, rfl⟩ := listAll_sound v hv f root hs rootPath id h
  exact ⟨_, listedID_decodes v hv g n h1 h2, rfl⟩

/-- C17, amended: for every storage tree laid out as in section 6, with `total` at least the
number of stored blobs and `L` the last identifier of the full forward enumeration
`GetFileList("", forward, total)`, of scheme V2, the full forward enumeration is its V1
identifiers, its V2 identifiers before `L` and `L`, and `GetFileList(L, backward, total)`
returns the V2 identifiers before `L` in the reverse order: no V1 identifier is returned. -/
theorem C17_backward_from_last (root : FsNode) (rootPath : GoString) (total : Int)
    (err : Option Failure) (full : List GoString) (L : GoString) (fl : fileInfo)
    (hs : storeTree root) (htotal : (blobCount root : Int) ≤ total)
    (hfull : GetFileList (some root) [] rootPath true total = .ok (err, full))
    (hL : full.getLast? = some L)
    (hdec : newFileInfoFromFileID L = .ok fl) (hv : fl.fileIDVersion = FileIDV2) :
    ∃ err2 v1part v2part, full = v1part ++ (v2part ++ [L])
      ∧ (∀ id ∈ v1part, ∃ fi, newFileInfoFromFileID id = .ok fi
          ∧ fi.fileIDVersion = FileIDV1)
      ∧ (∀ id ∈ v2part, ∃ fi, newFileInfoFromFileID id = .ok fi
          ∧ fi.fileIDVersion = FileIDV2)
      ∧ GetFileList (some root) L rootPath false total = .ok (err2, v2part.reverse) := by
  obtain ⟨err', hf⟩ := GetFileList_full root hs rootPath total htotal
  rw [hfull] at hf
  have hfe : full = listAll true FileIDV1 root rootPath ++ listAll true FileIDV2 root rootPath :=
    (Prod.mk.inj (Except.ok.inj hf)).2
  have hlen2 := listAll_length FileIDV2 (Or.inr rfl) root hs rootPath
  rcases List.eq_nil_or_concat (listAll true FileIDV2 root rootPath) with hE2 | ⟨v2part, L', hE2⟩
  · exfalso
    rw [hE2, List.append_nil] at hfe
    have hmem : L ∈ listAll true FileIDV1 root rootPath := by
      rw [← hfe]; exact List.mem_of_getLast?_eq_some hL
    obtain ⟨fi, h1, h2⟩ := listAll_version FileIDV1 (Or.inl rfl) true root hs rootPath L hmem
    rw [hdec] at h1
    cases h1
    exact FileIDV2_ne_FileIDV1 (hv.symm.trans h2)
  · rw [List.concat_eq_append] at hE2
    have hLL : L' = L := by
      rw [hfe, hE2, ← List.append_assoc, List.getLast?_concat] at hL
      exact Option.some.inj hL
    subst hLL
    have hE2' := hE2
    unfold listAll at hE2
    cases hchild : root.child (versionDir FileIDV2) with
    | none => rw [hchild] at hE2; simp [walkDirsAt] at hE2
    | some node =>
      rw [hchild] at hE2
      simp only [walkDirsAt] at hE2
      obtain ⟨pre, x, post, hw, hx, hpre, _⟩ := flatMap_split _ _ v2part L' []
        (fun y _ => emitAt_length _ _ y) hE2
      have ht := storeTree_child root hs FileIDV2 (Or.inr rfl) node hchild
      obtain ⟨h, n, hh, hn, hid, hkey, _⟩ := emitAt_sound FileIDV2 (Or.inr rfl) true node ht _
        (cleanBase_versionDir rootPath FileIDV2) x (by rw [hw]; simp) L' (by rw [hx]; simp)
      have hd := listedID_decodes FileIDV2 (Or.inr rfl) h n hh hn
      rw [← hid, hdec] at hd
      have hfl := Except.ok.inj hd
      have hmd5 : fl.fileMD5 = h := by rw [hfl]
      have hsize : fl.fileSize = n := by rw [hfl]
      obtain ⟨err2, he2, _⟩ := GetFileList_V2 root hs rootPath false total L' fl hdec
        (by rw [hmd5]; exact hh) hv
      have hq : formatUint fl.fileSize :: hashSegments fl.fileMD5 = x.1 := by
        rw [hkey, hmd5, hsize]; simp [shardKey, FileIDV2_ne_FileIDV1]
      rw [hq, listAfter_backward_V2 root hs rootPath node hchild pre post x hw, hpre] at he2
      have hcut : limitCut total v2part.reverse = v2part.reverse := by
        apply limitCut_of_le
        have h3 := congrArg List.length hE2'
        simp only [List.length_append, List.length_singleton] at h3
        have h4 : blobCountOf FileIDV2 root ≤ blobCount root := by unfold blobCount; omega
        simp only [List.length_reverse]
        omega
      rw [hcut] at he2
      refine ⟨err2, listAll true FileIDV1 root rootPath, v2part, by rw [hfe, hE2'], ?_, ?_, he2⟩
      · intro id hid
        exact listAll_version FileIDV1 (Or.inl rfl) true root hs rootPath id hid
      · intro id hid
        exact listAll_version FileIDV2 (Or.inr rfl) true root hs rootPath id
          (by rw [hE2']; exact List.mem_append_left _ hid)

set_option maxRecDepth 100000 in
/-- C17, amended, on the store of the test suite with `total = 2`: the full forward enumeration
is the V1 identifier and the V2 identifier, and backward from the V2 identifier the call returns
the V2 identifiers before it (none), reversed. -/
theorem C17_backward_from_last_witness :
    storeTree sampleStore ∧ (blobCount sampleStore : Int) ≤ 2
    ∧ GetFileList (some sampleStore) [] sampleRoot true 2
        = .ok (none, [sampleV1ID, sampleV2ID])
    ∧ [sampleV1ID, sampleV2ID].getLast? = some sampleV2ID
    ∧ newFileInfoFromFileID sampleV2ID
        = .ok (fileInfo.mk FileIDV2 sampleHash2 6 ("rel-_data_".toList) [])
    ∧ ∃ err2 v1part v2part, [sampleV1ID, sampleV2ID] = v1part ++ (v2part ++ [sampleV2ID])
      ∧ (∀ id ∈ v1part, ∃ fi, newFileInfoFromFileID id = .ok fi
          ∧ fi.fileIDVersion = FileIDV1)
      ∧ (∀ id ∈ v2part, ∃ fi, newFileInfoFromFileID id = .ok fi
          ∧ fi.fileIDVersion = FileIDV2)
      ∧ GetFileList (some sampleStore) sampleV2ID sampleRoot false 2
          = .ok (err2, v2part.reverse) :=
  ⟨by decide, by decide, by decide, by decide, by decide,
    C17_backward_from_last sampleStore sampleRoot 2 none [sampleV1ID, sampleV2ID] sampleV2ID
      (fileInfo.mk FileIDV2 sampleHash2 6 ("rel-_data_".toList) []) (by decide) (by decide)
      (by decide) (by decide) (by decide) rfl⟩

set_option maxRecDepth 100000 in
/-- C17, a counterexample: on the store of the test suite, which holds one blob under each
scheme, the full forward enumeration with `total = 2` is the V1 identifier followed by the V2
identifier; backward from the last one, the V2 identifier, the call walks the V2 tree only and
returns nothing, not the V1 identifier that stands before it. -/
theorem C17_backward_from_last_counterexample :
    storeTree sampleStore ∧ blobCount sampleStore = 2
    ∧ GetFileList (some sampleStore) [] sampleRoot true 2
        = .ok (none, [sampleV1ID, sampleV2ID])
    ∧ GetFileList (some sampleStore) sampleV2ID sampleRoot false 2 = .ok (none, [])
    ∧ ([sampleV1ID, sampleV2ID].dropLast).reverse = [sampleV1ID] := by
  refine ⟨by decide, by decide, by decide, ?_, by decide⟩
  have h1 : decodeCursor sampleV2ID
      = .ok (none, FileIDV2, ("6".toList :: hashSegments sampleHash2) ++ [guardID]) := by
    decide
  have h2 : walkVersions sampleEntries sampleRoot false none FileIDV2
      (("6".toList :: hashSegments sampleHash2) ++ [guardID]) 2 = (none, []) := by decide
  simp only [GetFileList, sampleStore, h1, h2]

/-! ## The order of the full enumeration -/

/-- The identifiers that the forward walk of one version tree of a store collects stand in the
strictly increasing order of the segments of their shard directories. -/
theorem listAll_sorted (v : Nat) (hv : v = FileIDV1 ∨ v = FileIDV2) (root : FsNode)
    (hs : storeTree root) (rootPath : GoString) :
    (listAll true v root rootPath).Pairwise (fun a b =>
      ∃ ka kb, pathInfosFromFileID a = .ok (v, ka) ∧ pathInfosFromFileID b = .ok (v, kb)
        ∧ segsLt ka kb) := by
  unfold listAll
  cases hchild : root.child (versionDir v) with
  | none => simp [walkDirsAt]
  | some node =>
    simp only [walkDirsAt]
    have ht := storeTree_child root hs v hv node hchild
    rw [List.pairwise_flatMap]
    constructor
    · intro x _
      rcases length_le_one_cases _ (emitAt_length (pathJoin [rootPath, versionDir v]) v x)
        with h | ⟨a, h⟩
      · rw [h]; exact List.Pairwise.nil
      · rw [h]; exact List.pairwise_singleton _ _
    · refine List.Pairwise.imp_of_mem ?_ (walkDirs_sorted v true (shardDepth v) node ht)
      intro x y hx hy hlt a ha b hb
      obtain ⟨h1, n1, hh1, hn1, rfl, hk1, _⟩ := emitAt_sound v hv true node ht _
        (cleanBase_versionDir rootPath v) x hx a ha
      obtain ⟨h2, n2, hh2, hn2, rfl, hk2, _⟩ := emitAt_sound v hv true node ht _
        (cleanBase_versionDir rootPath v) y hy b hb
      refine ⟨_, _, pathInfos_listedID v hv h1 n1 hh1 hn1, pathInfos_listedID v hv h2 n2 hh2 hn2,
        ?_⟩
      rw [← hk1, ← hk2]
      simpa [walkSegsLt] using hlt

/-- The full forward enumeration of a store stands in the strictly increasing order of the
keys: the scheme version, then the segments of the shard directory. -/
theorem listing_sorted (root : FsNode) (hs : storeTree root) (rootPath : GoString) :
    (listAll true FileIDV1 root rootPath ++ listAll true FileIDV2 root rootPath).Pairwise
      (fun a b => ∃ ka kb, pathInfosFromFileID a = .ok ka ∧ pathInfosFromFileID b = .ok kb
        ∧ keyLt ka kb) := by
  rw [List.pairwise_append]
  refine ⟨?_, ?_, ?_⟩
  · refine (listAll_sorted FileIDV1 (Or.inl rfl) root hs rootPath).imp ?_
    rintro a b ⟨ka, kb, h1, h2, hlt⟩
    exact ⟨_, _, h1, h2, Or.inr ⟨rfl, hlt⟩⟩
  · refine (listAll_sorted FileIDV2 (Or.inr rfl) root hs rootPath).imp ?_
    rintro a b ⟨ka, kb, h1, h2, hlt⟩
    exact ⟨_, _, h1, h2, Or.inr ⟨rfl, hlt⟩⟩
  · intro a ha b hb
    obtain ⟨h1, n1, hh1, hn1, rfl⟩ := listAll_sound FileIDV1 (Or.inl rfl) true root hs rootPath
      a ha
    obtain ⟨h2, n2, hh2, hn2, rfl⟩ := listAll_sound FileIDV2 (Or.inr rfl) true root hs rootPath
      b hb
    exact ⟨_, _, pathInfos_listedID FileIDV1 (Or.inl rfl) h1 n1 hh1 hn1,
      pathInfos_listedID FileIDV2 (Or.inr rfl) h2 n2 hh2 hn2,
      Or.inl (show FileIDV1 < FileIDV2 by decide)⟩

/-- The full forward enumeration of a store repeats no identifier. -/
theorem listing_nodup (root : FsNode) (hs : storeTree root) (rootPath : GoString) :
    (listAll true FileIDV1 root rootPath ++ listAll true FileIDV2 root rootPath).Nodup := by
  refine (listing_sorted root hs rootPath).imp ?_
  rintro a b ⟨ka, kb, h1, h2, hlt⟩ e
  rw [e, h2] at h1
  have e2 := Except.ok.inj h1
  rw [e2] at hlt
  exact keyLt_irrefl _ hlt

/-! ## Pages -/

theorem limitCut_append {α : Type} (N : Int) (A B : List α) :
    limitCut N A ++ limitCut (N - ((limitCut N A).length : Int)) B = limitCut N (A ++ B) := by
  unfold limitCut
  by_cases h : N < 0
  · rw [if_pos h, if_pos h, if_pos (by omega)]
  · rw [if_neg h, if_neg h, List.take_append_eq_append_take, List.length_take]
    have hn : (N.toNat : Int) = N := Int.toNat_of_nonneg (by omega)
    rw [if_neg (by omega)]
    congr 2
    omega

/-- The forward walk of a version tree of a store resumed at the key of an identifier of the
enumeration collects what stands after the identifier. -/
theorem listAfter_of_split (v : Nat) (hv : v = FileIDV1 ∨ v = FileIDV2) (root : FsNode)
    (hs : storeTree root) (rootPath : GoString) (A : List GoString) (id : GoString)
    (B : List GoString) (h : listAll true v root rootPath = A ++ id :: B) :
    ∃ g n, hexHash g ∧ n ≤ maxUint64 ∧ id = listedID v g n
      ∧ listAfter true v root rootPath (shardKey v g n) = B := by
  have h0 := h
  unfold listAll at h
  cases hchild : root.child (versionDir v) with
  | none => rw [hchild] at h; simp [walkDirsAt] at h
  | some node =>
    rw [hchild] at h
    simp only [walkDirsAt] at h
    obtain ⟨pre, x, post, hw, hx, _, hpost⟩ := flatMap_split _ _ A id B
      (fun y _ => emitAt_length _ _ y) h
    have ht := storeTree_child root hs v hv node hchild
    obtain ⟨g, n, hg, hn, hid, hkey, _⟩ := emitAt_sound v hv true node ht _
      (cleanBase_versionDir rootPath v) x (by rw [hw]; simp) id (by rw [hx]; simp)
    refine ⟨g, n, hg, hn, hid, ?_⟩
    rw [← hkey, listAfter_forward v hv root hs rootPath node hchild pre post x hw, hpost]

/-- The forward call at an identifier of the full enumeration of a store returns what stands
after the identifier, cut at the limit. -/
theorem page_at (root : FsNode) (hs : storeTree root) (rootPath : GoString) (N : Int)
    (A : List GoString) (id : GoString) (B : List GoString)
    (h : listAll true FileIDV1 root rootPath ++ listAll true FileIDV2 root rootPath
      = A ++ id :: B) :
    ∃ err, GetFileList (some root) id rootPath true N = .ok (err, limitCut N B) := by
  have v2case : ∀ A2, listAll true FileIDV2 root rootPath = A2 ++ id :: B →
      ∃ err, GetFileList (some root) id rootPath true N = .ok (err, limitCut N B) := by
    intro A2 h2
    obtain ⟨g, n, hg, hn, hid, hafter⟩ := listAfter_of_split FileIDV2 (Or.inr rfl) root hs
      rootPath A2 id B h2
    obtain ⟨err, he, _⟩ := GetFileList_V2 root hs rootPath true N id _
      (by rw [hid]; exact listedID_decodes FileIDV2 (Or.inr rfl) g n hg hn) hg rfl
    have hk : shardKey FileIDV2 g n = formatUint n :: hashSegments g := by
      simp [shardKey, FileIDV2_ne_FileIDV1]
    simp only at he
    rw [← hk, hafter] at he
    exact ⟨err, he⟩
  rcases List.append_eq_append_iff.1 h with ⟨a2, _, h2⟩ | ⟨c1, h1, h2⟩
  · exact v2case a2 h2
  · cases c1 with
    | nil => exact v2case [] (by rw [List.nil_append] at h2; exact h2.symm)
    | cons c cs =>
      rw [List.cons_append] at h2
      obtain ⟨hc, hB⟩ := List.cons.inj h2
      subst hc
      obtain ⟨g, n, hg, hn, hid, hafter⟩ := listAfter_of_split FileIDV1 (Or.inl rfl) root hs
        rootPath A id cs h1
      obtain ⟨err, he, _⟩ := GetFileList_V1 root hs rootPath true N id _
        (by rw [hid]; exact listedID_decodes FileIDV1 (Or.inl rfl) g n hg hn) hg rfl
      have hk : shardKey FileIDV1 g n = hashSegments g := by simp [shardKey]
      simp only at he
      rw [← hk, hafter, limitCut_append, ← hB] at he
      exact ⟨err, he⟩

/-- The chained calls from a cursor whose call returns the first `N` identifiers of the rest
`R` of the full enumeration return, within `|R| + 1` calls, pages that make up `R`. -/
theorem pagesFrom_cover (root : FsNode) (hs : storeTree root) (rootPath : GoString) (N : Int)
    (hN : 1 ≤ N) :
    ∀ (fuel : Nat) (cursor : GoString) (A R : List GoString),
      listAll true FileIDV1 root rootPath ++ listAll true FileIDV2 root rootPath = A ++ R →
      (∃ err, GetFileList (some root) cursor rootPath true N = .ok (err, limitCut N R)) →
      R.length < fuel →
      ∃ pages, pagesFrom (some root) rootPath N fuel cursor = some pages
        ∧ pages.flatten = R := by
  intro fuel
  induction fuel with
  | zero => intro cursor A R _ _ hlen; omega
  | succ fuel ih =>
    intro cursor A R hE ⟨err, he⟩ hlen
    have hn : (N.toNat : Int) = N := Int.toNat_of_nonneg (by omega)
    have hcut : limitCut N R = R.take N.toNat := by
      unfold limitCut; rw [if_neg (by omega)]
    rw [hcut] at he
    rw [pagesFrom, he]
    simp only
    by_cases hshort : ((R.take N.toNat).length : Int) < N
    · rw [if_pos hshort]
      have hle : R.length ≤ N.toNat := by
        rw [List.length_take] at hshort
        omega
      refine ⟨[R.take N.toNat], rfl, ?_⟩
      rw [List.take_of_length_le hle]
      simp
    · rw [if_neg hshort]
      have hfull : (R.take N.toNat).length = N.toNat := by
        have := List.length_take_le N.toNat R
        omega
      rcases List.eq_nil_or_concat (R.take N.toNat) with hnil | ⟨C, l, hC⟩
      · rw [hnil] at hfull; simp at hfull; omega
      · rw [List.concat_eq_append] at hC
        have hlast : (R.take N.toNat).getLast? = some l := by
          rw [hC, List.getLast?_concat]
        rw [hlast]
        simp only
        have hR : R = C ++ l :: R.drop N.toNat := by
          have := List.take_append_drop N.toNat R
          rw [hC, List.append_assoc] at this
          exact this.symm
        have hE2 : listAll true FileIDV1 root rootPath ++ listAll true FileIDV2 root rootPath
            = (A ++ C) ++ l :: R.drop N.toNat := by
          rw [hE, List.append_assoc, ← hR]
        obtain ⟨pages, hp, hflat⟩ := ih l (A ++ C ++ [l]) (R.drop N.toNat)
          (by rw [hE2]; simp)
          (page_at root hs rootPath N (A ++ C) l (R.drop N.toNat) hE2)
          (by have h5 := List.length_take N.toNat R; rw [List.length_drop]; omega)
        refine ⟨R.take N.toNat :: pages, by rw [hp]; rfl, ?_⟩
        rw [List.flatten_cons, hflat, List.take_append_drop]

/-- C14: for every storage tree laid out as in section 6, every page size `N ≥ 1` and every
`total` at least the number of stored blobs, the chained forward calls (from the empty cursor,
then from the last identifier of each page, until a page has fewer than `N` identifiers) end
within one call more than the number of stored blobs, and the concatenation of their pages is
the full forward enumeration `GetFileList("", forward, total)`, which repeats no identifier. -/
theorem C14_pages_cover (root : FsNode) (rootPath : GoString) (N total : Int) (fuel : Nat)
    (hs : storeTree root) (hN : 1 ≤ N) (htotal : (blobCount root : Int) ≤ total)
    (hfuel : blobCount root < fuel) :
    ∃ pages err full, pagesFrom (some root) rootPath N fuel [] = some pages
      ∧ GetFileList (some root) [] rootPath true total = .ok (err, full)
      ∧ pages.flatten = full ∧ full.Nodup := by
  obtain ⟨err, hfull⟩ := GetFileList_full root hs rootPath total htotal
  obtain ⟨err1, h1, _⟩ := GetFileList_empty root hs rootPath true N
  rw [limitCut_append] at h1
  have hl1 := listAll_length FileIDV1 (Or.inl rfl) root hs rootPath
  have hl2 := listAll_length FileIDV2 (Or.inr rfl) root hs rootPath
  obtain ⟨pages, hp, hflat⟩ := pagesFrom_cover root hs rootPath N hN fuel [] []
    (listAll true FileIDV1 root rootPath ++ listAll true FileIDV2 root rootPath) rfl
    ⟨err1, h1⟩ (by rw [List.length_append]; unfold blobCount at hfuel; omega)
  exact ⟨pages, err, _, hp, hfull, hflat, listing_nodup root hs rootPath⟩

/-- C14 on the store of the test suite, with pages of one identifier and three calls. -/
theorem C14_pages_cover_witness :
    storeTree sampleStore ∧ (1 : Int) ≤ 1 ∧ (blobCount sampleStore : Int) ≤ 2
    ∧ blobCount sampleStore < 3
    ∧ ∃ pages err full, pagesFrom (some sampleStore) sampleRoot 1 3 [] = some pages
      ∧ GetFileList (some sampleStore) [] sampleRoot true 2 = .ok (err, full)
      ∧ pages.flatten = full ∧ full.Nodup :=
  ⟨by decide, by decide, by decide, by decide,
    C14_pages_cover sampleStore sampleRoot 1 2 3 (by decide) (by decide) (by decide)
      (by decide)⟩

/-! ## Stored blobs and the leaf directories of the walk -/

theorem child_of_mem : ∀ (fis : List (GoString × FsNode)), sortedNames fis →
    ∀ fi ∈ fis, (FsNode.dir fis).child fi.1 = some fi.2 := by
  intro fis
  induction fis with
  | nil => intro _ fi h; cases h
  | cons e rest ih =>
    intro hs fi h
    unfold sortedNames at hs
    rw [List.map_cons, List.pairwise_cons] at hs
    by_cases he : e.1 = fi.1
    · rcases List.mem_cons.1 h with h1 | h1
      · subst h1; simp [FsNode.child]
      · exfalso
        have := hs.1 fi.1 (List.mem_map_of_mem _ h1)
        rw [he] at this
        exact nameLt_irrefl _ this
    · rcases List.mem_cons.1 h with h1 | h1
      · exact absurd (by rw [h1]) he
      · have := ih hs.2 fi h1
        simp only [FsNode.child] at this ⊢
        rw [List.find?_cons_of_neg _ (by simpa using he)]
        exact this

theorem mem_of_child (fis : List (GoString × FsNode)) (name : GoString) (nd : FsNode)
    (h : (FsNode.dir fis).child name = some nd) : (name, nd) ∈ fis := by
  simp only [FsNode.child, Option.map_eq_some'] at h
  obtain ⟨e, he, rfl⟩ := h
  have h1 := List.find?_some he
  have h2 := List.mem_of_find?_eq_some he
  simp only [decide_eq_true_eq] at h1
  rw [← h1]
  exact h2

/-- The entries of the leaf directories that the walk reaches are files. -/
theorem walkDirs_files (v : Nat) (f : Bool) :
    ∀ (k : Nat) (node : FsNode) (x : List GoString × List (GoString × FsNode)),
      shardTree v k node → x ∈ walkDirs f k node → ∀ fi ∈ x.2, fi.2.IsDir = false := by
  intro k
  induction k with
  | zero =>
    intro node x ht hx fi hfi
    cases node with
    | file => exact absurd ht (shardTree_file v 0)
    | dir fis =>
      rw [walkDirs_zero, List.mem_singleton] at hx
      subst hx
      exact ((shardTree_leaf v fis ht).2 fi ((mem_walkOrder f fis fi).1 hfi)).1
  | succ k ih =>
    intro node x ht hx fi hfi
    cases node with
    | file => exact absurd ht (shardTree_file v _)
    | dir fis =>
      obtain ⟨e, he, y, hy, rfl⟩ := (mem_walkDirs_succ f k fis x).1 hx
      exact ih e.2 y ((shardTree_child v k fis ht).2 e ((mem_walkOrder f fis e).1 he)).2 hy
        fi hfi

/-- An entry of a leaf directory that the walk reaches stands in the tree at the names on the
way to the directory followed by its own name. -/
theorem walkDirs_lookup (v : Nat) :
    ∀ (k : Nat) (node : FsNode) (x : List GoString × List (GoString × FsNode)),
      shardTree v k node → x ∈ walkDirs true k node →
      ∀ fi ∈ x.2, node.lookup (x.1 ++ [fi.1]) = some fi.2 := by
  intro k
  induction k with
  | zero =>
    intro node x ht hx fi hfi
    cases node with
    | file => exact absurd ht (shardTree_file v 0)
    | dir fis =>
      rw [walkDirs_zero, List.mem_singleton] at hx
      subst hx
      have hm := (mem_walkOrder true fis fi).1 hfi
      simp only [List.nil_append, FsNode.lookup]
      rw [child_of_mem fis (shardTree_leaf v fis ht).1 fi hm]
  | succ k ih =>
    intro node x ht hx fi hfi
    cases node with
    | file => exact absurd ht (shardTree_file v _)
    | dir fis =>
      obtain ⟨e, he, y, hy, rfl⟩ := (mem_walkDirs_succ true k fis x).1 hx
      have hm := (mem_walkOrder true fis e).1 he
      obtain ⟨hsorted, hch⟩ := shardTree_child v k fis ht
      simp only [List.cons_append, FsNode.lookup]
      rw [child_of_mem fis hsorted e hm]
      exact ih e.2 y (hch e hm).2 hy fi hfi

/-- A node that stands in the tree `k` names and one more below a node is an entry of the leaf
directory that the walk reaches at the `k` names. -/
theorem lookup_walkDirs (v : Nat) :
    ∀ (k : Nat) (node : FsNode) (q : List GoString) (name : GoString) (nd : FsNode),
      shardTree v k node → q.length = k → node.lookup (q ++ [name]) = some nd →
      ∃ x ∈ walkDirs true k node, x.1 = q ∧ (name, nd) ∈ x.2 := by
  intro k
  induction k with
  | zero =>
    intro node q name nd ht hq hl
    cases node with
    | file => exact absurd ht (shardTree_file v 0)
    | dir fis =>
      have hq0 : q = [] := List.length_eq_zero.1 hq
      subst hq0
      simp only [List.nil_append, FsNode.lookup] at hl
      cases hc : (FsNode.dir fis).child name with
      | none => rw [hc] at hl; cases hl
      | some c =>
        rw [hc] at hl
        simp only [Option.some.injEq] at hl
        subst hl
        refine ⟨([], walkOrder true fis), by rw [walkDirs_zero]; simp, rfl, ?_⟩
        exact (mem_walkOrder true fis _).2 (mem_of_child fis name c hc)
  | succ k ih =>
    intro node q name nd ht hq hl
    cases node with
    | file => exact absurd ht (shardTree_file v _)
    | dir fis =>
      cases q with
      | nil => cases hq
      | cons s q =>
        simp only [List.cons_append, FsNode.lookup] at hl
        cases hc : (FsNode.dir fis).child s with
        | none => rw [hc] at hl; cases hl
        | some c =>
          rw [hc] at hl
          simp only at hl
          have hm := mem_of_child fis s c hc
          obtain ⟨_, hch⟩ := shardTree_child v k fis ht
          obtain ⟨y, hy, hy1, hy2⟩ := ih c q name nd (hch (s, c) hm).2
            (by simpa using hq) hl
          refine ⟨(s :: y.1, y.2), ?_, by rw [hy1], hy2⟩
          exact (mem_walkDirs_succ true k fis _).2
            ⟨(s, c), (mem_walkOrder true fis _).2 hm, y, hy, rfl⟩

/-- A blob is stored when the walk of its version tree reaches a leaf directory at the
segments of its shard directory that holds its data file. -/
theorem storedBlob_iff (root : FsNode) (hs : storeTree root) (v : Nat)
    (hv : v = FileIDV1 ∨ v = FileIDV2) (h : GoString) (n : Nat) :
    storedBlob root v h n ↔ ∃ node, root.child (versionDir v) = some node
      ∧ ∃ x ∈ walkDirs true (shardDepth v) node, x.1 = shardKey v h n
        ∧ ∃ fi ∈ x.2, fi.1 = dataFileName v n := by
  unfold storedBlob
  simp only [FsNode.lookup]
  constructor
  · intro hst
    cases hc : root.child (versionDir v) with
    | none => rw [hc] at hst; cases hst
    | some node =>
      rw [hc] at hst
      simp only at hst
      have ht := storeTree_child root hs v hv node hc
      cases hl : node.lookup (shardKey v h n ++ [dataFileName v n]) with
      | none => rw [hl] at hst; cases hst
      | some nd =>
        obtain ⟨x, hx, hx1, hx2⟩ := lookup_walkDirs v _ node _ _ nd ht (shardKey_length v h n) hl
        exact ⟨node, rfl, x, hx, hx1, (dataFileName v n, nd), hx2, rfl⟩
  · rintro ⟨node, hc, x, hx, hx1, fi, hfi, hname⟩
    have ht := storeTree_child root hs v hv node hc
    rw [hc]
    simp only
    have hl := walkDirs_lookup v _ node x ht hx fi hfi
    rw [hx1, hname] at hl
    rw [hl]
    simp only [Option.map_some', Option.some.injEq]
    exact walkDirs_files v true _ node x ht hx fi hfi

/-! ## What a leaf directory gives under a supported root -/

theorem ParseInt_dot (name : GoString) (h : name.head? = some '.') :
    ∃ e, ParseInt name = .error e := by
  cases name with
  | nil => cases h
  | cons c cs =>
    simp only [List.head?_cons, Option.some.injEq] at h
    subst h
    cases hp : ParseInt ('.' :: cs) with
    | error e => exact ⟨e, rfl⟩
    | ok m =>
      exfalso
      simp only [ParseInt] at hp
      have hne : ¬ ('.' = '+' ∨ '.' = '-') := by decide
      rw [if_neg hne] at hp
      cases hb : ParseUint ('.' :: cs) with
      | error e => rw [hb] at hp; cases hp
      | ok un =>
        have := (ParseUint_digits _ _ hb).2 '.' (List.mem_cons_self _ _)
        exact absurd this (by decide)

theorem fileOutcome_V1_skip (p name : GoString) (e : Failure) (h : ParseInt name = .error e) :
    fileOutcome p FileIDV1 name = (true, []) := by
  unfold fileOutcome
  rw [if_pos rfl, h]

/-- A V1 leaf directory under a supported root whose only data file is the one of the size
`n`, between 1 and `2^63 - 1`, gives the identifier of the blob of that size. -/
theorem leafEmit_V1_data (rootPath : GoString) (hsup : storeSupported rootPath FileIDV1)
    (a : List GoString) (ha : a.length = 8) (hs : ∀ s ∈ a, hashDirName s) (n : Nat)
    (h0 : 0 < n) (hn : n < 2 ^ 63) :
    ∀ fl : List (GoString × FsNode), (∀ fi ∈ fl, leafNameOK FileIDV1 fi.1) →
      (∀ fi ∈ fl, ∀ m, ParseUint fi.1 = .ok m → m = n) →
      (∃ fi ∈ fl, fi.1 = formatUint n) →
      leafEmit (nodePath (pathJoin [rootPath, versionDir FileIDV1]) a) FileIDV1 fl
        = [listedID FileIDV1 a.flatten n] := by
  intro fl
  induction fl with
  | nil => rintro _ _ ⟨fi, hfi, _⟩; cases hfi
  | cons e rest ih =>
    intro hok hone hex
    rw [leafEmit]
    have hname := hok e (List.mem_cons_self _ _)
    unfold leafNameOK at hname
    rw [if_pos rfl] at hname
    cases hp : ParseUint e.1 with
    | ok m =>
      rw [hp] at hname
      simp only at hname
      have hm := hone e (List.mem_cons_self _ _) m hp
      subst hm
      rw [← hname, fileOutcome_V1_data rootPath hsup a ha hs m h0 hn]
      simp
    | error err =>
      rw [hp] at hname
      simp only at hname
      obtain ⟨e2, he2⟩ := ParseInt_dot e.1 hname
      rw [fileOutcome_V1_skip _ e.1 e2 he2]
      simp only [List.nil_append, if_true]
      apply ih (fun fi hfi => hok fi (List.mem_cons_of_mem _ hfi))
        (fun fi hfi => hone fi (List.mem_cons_of_mem _ hfi))
      obtain ⟨fi, hfi, hfn⟩ := hex
      rcases List.mem_cons.1 hfi with h1 | h1
      · exfalso
        rw [h1] at hfn
        rw [hfn, ParseUint_formatUint n (by unfold maxUint64; omega)] at hp
        cases hp
      · exact ⟨fi, h1, hfn⟩

/-- The forward enumeration of the V1 tree of a store under a supported root holds the
identifier of every stored V1 blob, when the sizes of the V1 blobs are between 1 and
`2^63 - 1` and no two of them share a hash. -/
theorem listAll_complete_V1 (root : FsNode) (hs : storeTree root) (rootPath : GoString)
    (hsup : storeSupported rootPath FileIDV1)
    (hsize : ∀ h n, hexHash h → storedBlob root FileIDV1 h n → 0 < n ∧ n < 2 ^ 63)
    (hone : ∀ h n m, hexHash h → storedBlob root FileIDV1 h n →
      storedBlob root FileIDV1 h m → n = m)
    (h : GoString) (n : Nat) (hh : hexHash h) (hst : storedBlob root FileIDV1 h n) :
    listedID FileIDV1 h n ∈ listAll true FileIDV1 root rootPath := by
  obtain ⟨node, hc, x, hx, hx1, fi, hfi, hname⟩ :=
    (storedBlob_iff root hs FileIDV1 (Or.inl rfl) h n).1 hst
  have ht := storeTree_child root hs FileIDV1 (Or.inl rfl) node hc
  have hkey : shardKey FileIDV1 h n = hashSegments h := by simp [shardKey]
  have hdn : ∀ m, dataFileName FileIDV1 m = formatUint m := fun m => by simp [dataFileName]
  rw [hkey] at hx1
  rw [hdn] at hname
  obtain ⟨h0, hn⟩ := hsize h n hh hst
  obtain ⟨_, _, hleaf, _⟩ := walkDirs_names FileIDV1 true 8 node x (by omega) ht hx
  have hemit : emitAt (pathJoin [rootPath, versionDir FileIDV1]) FileIDV1 x
      = [listedID FileIDV1 h n] := by
    unfold emitAt
    rw [hx1]
    have := leafEmit_V1_data rootPath hsup (hashSegments h) (hashSegments_length h)
      (hashSegments_hashDirName h hh) n h0 hn x.2 (fun fj hfj => (hleaf fj hfj).2) ?_
      ⟨fi, hfi, hname⟩
    · rw [this, hashSegments_join h hh.1]
    · intro fj hfj m hm
      have hok := (hleaf fj hfj).2
      unfold leafNameOK at hok
      rw [if_pos rfl, hm] at hok
      simp only at hok
      have hstm : storedBlob root FileIDV1 h m :=
        (storedBlob_iff root hs FileIDV1 (Or.inl rfl) h m).2
          ⟨node, hc, x, hx, by rw [hx1, shardKey, if_pos rfl], fj, hfj, by rw [hdn, hok]⟩
      exact (hone h n m hh hst hstm).symm
  unfold listAll
  rw [hc]
  simp only [walkDirsAt]
  exact List.mem_flatMap.2 ⟨x, hx, by rw [hemit]; simp⟩

/-- The forward enumeration of the V2 tree of a store under a supported root holds the
identifier of every stored V2 blob. -/
theorem listAll_complete_V2 (root : FsNode) (hs : storeTree root) (rootPath : GoString)
    (hsup : storeSupported rootPath FileIDV2)
    (h : GoString) (n : Nat) (hh : hexHash h) (hst : storedBlob root FileIDV2 h n) :
    listedID FileIDV2 h n ∈ listAll true FileIDV2 root rootPath := by
  obtain ⟨node, hc, x, hx, hx1, fi, hfi, hname⟩ :=
    (storedBlob_iff root hs FileIDV2 (Or.inr rfl) h n).1 hst
  have ht := storeTree_child root hs FileIDV2 (Or.inr rfl) node hc
  have hkey : shardKey FileIDV2 h n = formatUint n :: hashSegments h := by
    simp [shardKey, FileIDV2_ne_FileIDV1]
  have hdn : dataFileName FileIDV2 n = BuildInDataName := by
    simp [dataFileName, FileIDV2_ne_FileIDV1]
  rw [hkey] at hx1
  rw [hdn] at hname
  obtain ⟨sz, a, hxa, hsz, ha, hsa⟩ := walkDirs_names_V2 true node x ht hx
  rw [hx1] at hxa
  obtain ⟨e1, e2⟩ := List.cons.inj hxa
  subst e1 e2
  obtain ⟨n2, hn2, hf2, hout⟩ := fileOutcome_V2_data rootPath hsup (formatUint n) hsz
    (hashSegments h) ha hsa
  have hnn : n2 = n := formatUint_injective _ _ hf2
  subst hnn
  have hemit : emitAt (pathJoin [rootPath, versionDir FileIDV2]) FileIDV2 x
      = [listedID FileIDV2 h n2] := by
    unfold emitAt
    rw [hx1, leafEmit_V2, if_pos (by rw [← hname]; exact List.mem_map_of_mem _ hfi), hout,
      hashSegments_join h hh.1]
  unfold listAll
  rw [hc]
  simp only [walkDirsAt]
  exact List.mem_flatMap.2 ⟨x, hx, by rw [hemit]; simp⟩

/-- An identifier of the forward enumeration of a version tree of a store is the identifier of
a stored blob. -/
theorem listAll_stored (v : Nat) (hv : v = FileIDV1 ∨ v = FileIDV2) (root : FsNode)
    (hs : storeTree root) (rootPath id : GoString) (h : id ∈ listAll true v root rootPath) :
    ∃ g n, hexHash g ∧ n ≤ maxUint64 ∧ storedBlob root v g n ∧ id = listedID v g n := by
  unfold listAll at h
  cases hc : root.child (versionDir v) with
  | none => rw [hc] at h; simp [walkDirsAt] at h
  | some node =>
    rw [hc] at h
    simp only [walkDirsAt] at h
    obtain ⟨x, hx, hid⟩ := List.mem_flatMap.1 h
    have ht := storeTree_child root hs v hv node hc
    obtain ⟨g, n, hg, hn, hidg, hkey, fi, hfi, hname⟩ := emitAt_sound v hv true node ht _
      (cleanBase_versionDir rootPath v) x hx id hid
    exact ⟨g, n, hg, hn,
      (storedBlob_iff root hs v hv g n).2 ⟨node, hc, x, hx, hkey, fi, hfi, hname⟩, hidg⟩

/-! ## C12: the full forward enumeration -/

/-- The one V1 blob of the store of the test suite has the size 7. -/
theorem sample_v1_blob (h : GoString) (n : Nat) (hst : storedBlob sampleStore FileIDV1 h n) :
    n = 7 := by
  obtain ⟨node, hc, x, hx, _, fi, hfi, hname⟩ :=
    (storedBlob_iff sampleStore (by decide) FileIDV1 (Or.inl rfl) h n).1 hst
  have hnode : sampleStore.child (versionDir FileIDV1)
      = some (chainDirs (hashSegments sampleHash)
          (.dir [(".test".toList, .file), ("7".toList, .file)])) := rfl
  rw [hnode] at hc
  have hnd := Option.some.inj hc
  subst hnd
  have hw : walkDirs true (shardDepth FileIDV1) (chainDirs (hashSegments sampleHash)
      (.dir [(".test".toList, .file), ("7".toList, .file)]))
      = [(hashSegments sampleHash, walkOrder true [(".test".toList, .file), ("7".toList, .file)])] :=
    walkDirs_chain true _ (hashSegments sampleHash)
  rw [hw, List.mem_singleton] at hx
  subst hx
  have hdn : dataFileName FileIDV1 n = formatUint n := by simp [dataFileName]
  rw [hdn] at hname
  simp only [walkOrder, if_true, List.mem_cons, List.mem_singleton, List.not_mem_nil,
    or_false] at hfi
  rcases hfi with hfi | hfi
  · exfalso
    rw [hfi] at hname
    have hd := formatUint_isDigit n '.' (by rw [← hname]; decide)
    exact absurd hd (by decide)
  · rw [hfi] at hname
    exact (formatUint_injective 7 n (by rw [← hname]; decide)).symm

/-- C12, amended: for every storage tree laid out as in section 6, listed under a storage root
that `parseFileIDFromFilePath` supports for both schemes, in which every stored V1 blob has a
size between 1 and `2^63 - 1` and no two stored V1 blobs share a hash, `GetFileList` with an
empty cursor, the forward direction and a limit at least the number of stored blobs returns
exactly the identifiers of the stored blobs (`<hash>-<size>.none` under V1,
`v2-<size>-<hash>-_data_` under V2), each once, in the strictly increasing order of the keys:
the scheme version, then the V2 size segment, then the eight hash segments, each in the order
of the directory listing. -/
theorem C12_full_enumeration (root : FsNode) (rootPath : GoString) (total : Int)
    (hs : storeTree root)
    (hsup1 : storeSupported rootPath FileIDV1) (hsup2 : storeSupported rootPath FileIDV2)
    (hsize : ∀ h n, hexHash h → storedBlob root FileIDV1 h n → 0 < n ∧ n < 2 ^ 63)
    (hone : ∀ h n m, hexHash h → storedBlob root FileIDV1 h n →
      storedBlob root FileIDV1 h m → n = m)
    (htotal : (blobCount root : Int) ≤ total) :
    ∃ err full, GetFileList (some root) [] rootPath true total = .ok (err, full)
      ∧ (∀ id, id ∈ full ↔ ∃ v h n, (v = FileIDV1 ∨ v = FileIDV2) ∧ hexHash h
          ∧ n ≤ maxUint64 ∧ storedBlob root v h n ∧ id = listedID v h n)
      ∧ full.Nodup
      ∧ full.Pairwise (fun a b => ∃ ka kb, pathInfosFromFileID a = .ok ka
          ∧ pathInfosFromFileID b = .ok kb ∧ keyLt ka kb) := by
  obtain ⟨err, hfull⟩ := GetFileList_full root hs rootPath total htotal
  refine ⟨err, _, hfull, ?_, listing_nodup root hs rootPath, listing_sorted root hs rootPath⟩
  intro id
  rw [List.mem_append]
  constructor
  · rintro (h | h)
    · obtain ⟨g, n, hg, hn, hst, hid⟩ :=
        listAll_stored FileIDV1 (Or.inl rfl) root hs rootPath id h
      exact ⟨FileIDV1, g, n, Or.inl rfl, hg, hn, hst, hid⟩
    · obtain ⟨g, n, hg, hn, hst, hid⟩ :=
        listAll_stored FileIDV2 (Or.inr rfl) root hs rootPath id h
      exact ⟨FileIDV2, g, n, Or.inr rfl, hg, hn, hst, hid⟩
  · rintro ⟨v, g, n, hv | hv, hg, _, hst, rfl⟩
    · subst hv
      exact Or.inl (listAll_complete_V1 root hs rootPath hsup1 hsize hone g n hg hst)
    · subst hv
      exact Or.inr (listAll_complete_V2 root hs rootPath hsup2 g n hg hst)

set_option maxRecDepth 100000 in
/-- C12, amended, on the store of the test suite under its root `./teststg/root`, with the
limit 2: the one V1 blob has the size 7. -/
theorem C12_full_enumeration_witness :
    storeTree sampleStore ∧ storeSupported sampleRoot FileIDV1
    ∧ storeSupported sampleRoot FileIDV2
    ∧ (∀ h n, hexHash h → storedBlob sampleStore FileIDV1 h n → 0 < n ∧ n < 2 ^ 63)
    ∧ (∀ h n m, hexHash h → storedBlob sampleStore FileIDV1 h n →
        storedBlob sampleStore FileIDV1 h m → n = m)
    ∧ (blobCount sampleStore : Int) ≤ 2
    ∧ ∃ err full, GetFileList (some sampleStore) [] sampleRoot true 2 = .ok (err, full)
      ∧ (∀ id, id ∈ full ↔ ∃ v h n, (v = FileIDV1 ∨ v = FileIDV2) ∧ hexHash h
          ∧ n ≤ maxUint64 ∧ storedBlob sampleStore v h n ∧ id = listedID v h n)
      ∧ full.Nodup
      ∧ full.Pairwise (fun a b => ∃ ka kb, pathInfosFromFileID a = .ok ka
          ∧ pathInfosFromFileID b = .ok kb ∧ keyLt ka kb) :=
  ⟨by decide, by decide, by decide,
    fun h n _ hst => by rw [sample_v1_blob h n hst]; decide,
    fun h n m _ h1 h2 => by rw [sample_v1_blob h n h1, sample_v1_blob h m h2],
    by decide,
    C12_full_enumeration sampleStore sampleRoot 2 (by decide) (by decide) (by decide)
      (fun h n _ hst => by rw [sample_v1_blob h n hst]; decide)
      (fun h n m _ h1 h2 => by rw [sample_v1_blob h n h1, sample_v1_blob h m h2])
      (by decide)⟩

set_option maxRecDepth 100000 in
/-- C12, a counterexample: the tree after the empty payload has been written under V1 (its
data file is `d41d/8cd9/8f00/b204/e980/0998/ecf8/427e/0` below `V1`) holds one stored blob, and
`GetFileList` with an empty cursor, the forward direction and the limit 1 returns no
identifier: the walk passes over a V1 data file whose name reads as the size 0. -/
theorem C12_full_enumeration_counterexample :
    storeTree emptyBlobStore ∧ storeSupported sampleRoot FileIDV1
    ∧ storeSupported sampleRoot FileIDV2
    ∧ (fileInfo.mk FileIDV1 emptyHash 0 [] []).getDataFile
        = .ok ("d41d/8cd9/8f00/b204/e980/0998/ecf8/427e/0".toList)
    ∧ hexHash emptyHash ∧ storedBlob emptyBlobStore FileIDV1 emptyHash 0
    ∧ blobCount emptyBlobStore = 1
    ∧ GetFileList (some emptyBlobStore) [] sampleRoot true 1 = .ok (some .notExists, []) :=
  ⟨by decide, by decide, by decide, by decide, by decide, by decide, by decide, by decide⟩

end Libfs
